import Mathlib

/-!
# CPO Bingham average particle property (ASPECT)

A shallow embedding of `source/particle/property/cpo_bingham_average.cc`.

Conventions of the embedding.

* `double` is an arbitrary linearly ordered field `K`; every definition is computable
  and can be evaluated at `K := ℚ`. Sums and products are exact in these definitions.
* The definitions whose name ends in `_rounded` are the same code with the rounding `fl`
  that double arithmetic applies to every sum and product as a parameter; with `fl = id`
  they are the exact definitions. `round_double` is the rounding of IEEE 754 binary64 (to
  nearest, ties to even) for values in the normal range.
* `std::vector` and `ArrayView` are lists. An access `v[i]` with `i` outside the
  vector is undefined behaviour in the source; here the enclosing function
  returns `none`.
* `unsigned int` counters and sizes are natural numbers; populations are assumed
  to be far below `2^31` entries, so no counter wraps around.
* The mutable `std::mt19937` member is an explicit generator state of type `σ`;
  `next` stands for one evaluation of `dist(random_number_generator)` and
  returns the drawn number together with the advanced state.
* Functions that live outside the two source files (the eigen-solver of deal.II,
  the accessors of the crystal preferred orientation property) are parameters.
-/

namespace CpoBinghamAverage

/-- A rank-1 tensor of dimension 3 (`Tensor<1,3>`). -/
abbrev Tensor1 (K : Type) := Fin 3 → K

/-- A rank-2 tensor of dimension 3 (`Tensor<2,3>`), indexed `[row][column]`. -/
abbrev Tensor2 (K : Type) := Fin 3 → Fin 3 → K

section Resampler

variable {K : Type} [LinearOrderedField K] {T : Type} {σ : Type}

/-- The loop of `std::max_element`: `v` is `*largest`, `largest` its index and
`first` the index of the head of the remaining range. The candidate is replaced
only when it is strictly smaller than the element looked at. -/
def max_element_loop : K → Nat → Nat → List K → Nat
  | _, largest, _, [] => largest
  | v, largest, first, x :: rest =>
    if v < x then max_element_loop x first (first + 1) rest
    else max_element_loop v largest (first + 1) rest

/-- The value of `std::distance(v.begin(), std::max_element(v.begin(), v.end()))`:
the index of the first greatest element (`0` for an empty range). -/
def max_element : List K → Nat
  | [] => 0
  | x :: rest => max_element_loop x 0 1 rest

/-- The three vectors the sorting loop of `random_draw_volume_weighting` works on. -/
structure SortState (K T : Type) where
  fv_to_sort : List K
  fv_sorted : List K
  matrices_sorted : List T

/-- The loop `for (int i = n_grain-1; i >= 0; --i)` of `random_draw_volume_weighting`.
`sort_loop matrices (i + 1) s` runs the iterations `i, i-1, ..., 0` from state `s`. -/
def sort_loop (matrices : List T) : Nat → SortState K T → Option (SortState K T)
  | 0, s => some s
  | i + 1, s =>
    match s.fv_to_sort[max_element s.fv_to_sort]?, matrices[max_element s.fv_to_sort]? with
    | some w, some m =>
      if i < s.fv_sorted.length ∧ i < s.matrices_sorted.length then
        sort_loop matrices i
          { fv_to_sort := s.fv_to_sort.set (max_element s.fv_to_sort) (-1)
            fv_sorted := s.fv_sorted.set i w
            matrices_sorted := s.matrices_sorted.set i m }
      else none
    | _, _ => none

/-- The running sums written by `std::partial_sum` after the first element;
`acc` is the sum so far. The additions are exact; `partial_sum_from_rounded` is the same
loop with every addition rounded. -/
def partial_sum_from : K → List K → List K
  | _, [] => []
  | acc, x :: xs => (acc + x) :: partial_sum_from (acc + x) xs

/-- The sequence written by `std::partial_sum`, with exact additions
(`partial_sum_rounded` rounds them). -/
def partial_sum : List K → List K
  | [] => []
  | x :: xs => x :: partial_sum_from x xs

/-- The vector `cum_weight`: `n_grains` zeros, the front overwritten by the partial
sums of `fv_sorted`. Writing more than `n_grains` entries is out of range. The sums are
exact; `cum_weight_rounded` is the vector with rounded sums. -/
def cum_weight (n_grains : Nat) (fv_sorted : List K) : Option (List K) :=
  if fv_sorted.length ≤ n_grains then
    some (partial_sum fv_sorted ++ List.replicate (n_grains - fv_sorted.length) 0)
  else none

/-- The loop filling `idxgrain` with `n` successive draws of the generator. -/
def draw_idxgrain (next : σ → K × σ) : Nat → σ → List K × σ
  | 0, gen => ([], gen)
  | n + 1, gen =>
    ((next gen).1 :: (draw_idxgrain next n (next gen).2).1,
      (draw_idxgrain next n (next gen).2).2)

/-- The inner loop `for (grain_j = 0; grain_j < n_grains; ++grain_j)` computing
`counter` for the draw `u`; the first argument is `n_grains - grain_j`. -/
def counter_loop (cum_weight : List K) (u : K) : Nat → Nat → Nat → Option Nat
  | 0, _, counter => some counter
  | fuel + 1, grain_j, counter =>
    match cum_weight[grain_j]? with
    | none => none
    | some c =>
      if c < u then counter_loop cum_weight u fuel (grain_j + 1) (counter + 1)
      else some counter

/-- One iteration of the outer selection loop: the value stored in
`matrices_out[grain_i]` for the draw `u`, that is `matrices_sorted[counter]`. -/
def select_matrix (n_grains : Nat) (cum_weight : List K) (matrices_sorted : List T)
    (u : K) : Option T :=
  match counter_loop cum_weight u n_grains 0 0 with
  | none => none
  | some counter => matrices_sorted[counter]?

/-- The outer selection loop over all draws, producing `matrices_out`. -/
def select_loop (n_grains : Nat) (cum_weight : List K) (matrices_sorted : List T) :
    List K → Option (List T)
  | [] => some []
  | u :: us =>
    match select_matrix n_grains cum_weight matrices_sorted u,
      select_loop n_grains cum_weight matrices_sorted us with
    | some m, some rest => some (m :: rest)
    | _, _ => none

/-- The function `CpoBinghamAverage::random_draw_volume_weighting`. `n_grains` is the class
member of that name, `gen` the state of `random_number_generator` on entry. The result
is the returned vector and the generator state on exit, or `none` when an access
is out of range. The source instantiates the element type `T` with `Tensor<2,3>`;
the function only copies these elements. -/
def random_draw_volume_weighting (next : σ → K × σ) (n_grains : Nat) (fv : List K)
    (matrices : List T) (n_output_grains : Nat) (gen : σ) : Option (List T × σ) :=
  match sort_loop matrices fv.length ⟨fv, fv, matrices⟩ with
  | none => none
  | some s =>
    match cum_weight n_grains s.fv_sorted with
    | none => none
    | some cw =>
      match select_loop n_grains cw s.matrices_sorted
          (draw_idxgrain next n_output_grains gen).1 with
      | none => none
      | some matrices_out => some (matrices_out, (draw_idxgrain next n_output_grains gen).2)

end Resampler

section Averager

variable {K : Type} [LinearOrderedField K]

/-- A symmetric rank-2 tensor of dimension 3 (`SymmetricTensor<2,3>`), stored by its six
independent components; `cij` is the component read and written as `[i][j]` and as
`[j][i]`. A default-constructed tensor has all components zero. -/
structure SymmetricTensor (K : Type) where
  c00 : K
  c11 : K
  c22 : K
  c01 : K
  c02 : K
  c12 : K

/-- The default-constructed `SymmetricTensor<2,3>`. -/
def SymmetricTensor.zero : SymmetricTensor K := ⟨0, 0, 0, 0, 0, 0⟩

/-- The component `S[i][j]` of a symmetric tensor. -/
def SymmetricTensor.entry (S : SymmetricTensor K) : Fin 3 → Fin 3 → K :=
  ![![S.c00, S.c01, S.c02], ![S.c01, S.c11, S.c12], ![S.c02, S.c12, S.c22]]

/-- The six `+=` statements of `compute_bingham_average` for one accumulator and one grain;
`r` is the row of the grain's matrix that is used (0 for `sum_matrix_a`, 1 for
`sum_matrix_b`, 2 for `sum_matrix_c`). The products and sums are exact; `add_grain_rounded`
rounds each of them. -/
def add_grain (r : Fin 3) (S : SymmetricTensor K) (m : Tensor2 K) : SymmetricTensor K :=
  { c00 := S.c00 + m r 0 * m r 0
    c11 := S.c11 + m r 1 * m r 1
    c22 := S.c22 + m r 2 * m r 2
    c01 := S.c01 + m r 0 * m r 1
    c02 := S.c02 + m r 0 * m r 2
    c12 := S.c12 + m r 1 * m r 2 }

/-- The accumulation loop over `i_grain` of `compute_bingham_average`, for the accumulator of
row `r`, started from `S`. -/
def sum_matrix_loop (r : Fin 3) : SymmetricTensor K → List (Tensor2 K) → SymmetricTensor K
  | S, [] => S
  | S, m :: rest => sum_matrix_loop r (add_grain r S m) rest

/-- The accumulator `sum_matrix_a` (`r = 0`), `sum_matrix_b` (`r = 1`) or `sum_matrix_c`
(`r = 2`) after the loop. -/
def sum_matrix (r : Fin 3) (matrices : List (Tensor2 K)) : SymmetricTensor K :=
  sum_matrix_loop r SymmetricTensor.zero matrices

/-- The function `CpoBinghamAverage::compute_bingham_average`. The parameter `eigenvectors` is
deal.II's `eigenvectors(S, SymmetricTensorEigenvectorMethod::jacobi)`: an array of three
pairs (eigenvalue, eigenvector). Row 0, 1, 2 of the result is `averaged_a`, `averaged_b`,
`averaged_c`. -/
def compute_bingham_average (eigenvectors : SymmetricTensor K → Fin 3 → K × Tensor1 K)
    (matrices : List (Tensor2 K)) : Fin 3 → Fin 3 → K :=
  let eigenvectors_a := eigenvectors (sum_matrix 0 matrices)
  let eigenvectors_b := eigenvectors (sum_matrix 1 matrices)
  let eigenvectors_c := eigenvectors (sum_matrix 2 matrices)
  let averaged_a : Tensor1 K := fun j => (eigenvectors_a 0).2 j * (eigenvectors_a 0).1
  let averaged_b : Tensor1 K := fun j => (eigenvectors_b 0).2 j * (eigenvectors_b 0).1
  let averaged_c : Tensor1 K := fun j => (eigenvectors_c 0).2 j * (eigenvectors_a 0).1
  ![![averaged_a 0, averaged_a 1, averaged_a 2],
    ![averaged_b 0, averaged_b 1, averaged_b 2],
    ![averaged_c 0, averaged_c 1, averaged_c 2]]

end Averager

section Orchestrator

variable {K : Type} [LinearOrderedField K] {σ : Type}

/-- The configuration members of the class and the functions it calls that are defined
elsewhere: the generator draw, the eigen-solver, and the two accessors of the crystal
preferred orientation property (called with `cpo_data_position`, the particle data, the
mineral and the grain). -/
structure Plugin (K σ : Type) where
  cpo_data_position : Nat
  n_grains : Nat
  n_minerals : Nat
  n_samples : Nat
  next : σ → K × σ
  eigenvectors : SymmetricTensor K → Fin 3 → K × Tensor1 K
  get_volume_fractions_grains : Nat → List K → Nat → Nat → K
  get_rotation_matrix_grains : Nat → List K → Nat → Nat → Tensor2 K

/-- The vector `volume_fractions_grains` after the loop over `grain_i` for mineral
`mineral_i`. -/
def volume_fractions_grains (P : Plugin K σ) (data : List K) (mineral_i : Nat) : List K :=
  (List.range P.n_grains).map
    (fun grain_i => P.get_volume_fractions_grains P.cpo_data_position data mineral_i grain_i)

/-- The vector `rotation_matrices_grains` after the loop over `grain_i` for mineral
`mineral_i`. -/
def rotation_matrices_grains (P : Plugin K σ) (data : List K) (mineral_i : Nat) :
    List (Tensor2 K) :=
  (List.range P.n_grains).map
    (fun grain_i => P.get_rotation_matrix_grains P.cpo_data_position data mineral_i grain_i)

/-- The pairs `(i, j)` in the order in which the nested loops `for i < 3`, `for j < 3`
visit them. -/
def loop_order : List (Fin 3 × Fin 3) :=
  [(0, 0), (0, 1), (0, 2), (1, 0), (1, 1), (1, 2), (2, 0), (2, 1), (2, 2)]

/-- The nested write loops of `update_one_particle_property`:
`data[base + counter] = bingham_average[i][j]; counter++`, where `base` is
`data_position + mineral_i*9`. Writing outside the view is out of range. -/
def write_loop (base : Nat) (bingham_average : Fin 3 → Fin 3 → K) :
    List (Fin 3 × Fin 3) → Nat → List K → Option (List K)
  | [], _, data => some data
  | ij :: rest, counter, data =>
    if base + counter < data.length then
      write_loop base bingham_average rest (counter + 1)
        (data.set (base + counter) (bingham_average ij.1 ij.2))
    else none

/-- The loop over `mineral_i` of `update_one_particle_property`; the first argument is
`n_minerals - mineral_i`. -/
def update_loop (P : Plugin K σ) (data_position : Nat) :
    Nat → Nat → List K → σ → Option (List K × σ)
  | 0, _, data, gen => some (data, gen)
  | k + 1, mineral_i, data, gen =>
    match random_draw_volume_weighting P.next P.n_grains
        (volume_fractions_grains P data mineral_i)
        (rotation_matrices_grains P data mineral_i) P.n_samples gen with
    | none => none
    | some (weighted_rotation_matrices, gen1) =>
      match write_loop (data_position + mineral_i * 9)
          (compute_bingham_average P.eigenvectors weighted_rotation_matrices)
          loop_order 0 data with
      | none => none
      | some data1 => update_loop P data_position k (mineral_i + 1) data1 gen1

/-- The function `CpoBinghamAverage::update_one_particle_property`, on the particle data `data`
and the generator state `gen`; the position, solution and gradient arguments are not
used by the source. -/
def update_one_particle_property (P : Plugin K σ) (data_position : Nat) (data : List K)
    (gen : σ) : Option (List K × σ) :=
  update_loop P data_position P.n_minerals 0 data gen

/-- The nested loops of `initialize_one_particle_property`:
`data.emplace_back(bingham_average[i][j])` for the pairs in loop order. -/
def append_loop (bingham_average : Fin 3 → Fin 3 → K) :
    List (Fin 3 × Fin 3) → List K → List K
  | [], data => data
  | ij :: rest, data => append_loop bingham_average rest (data ++ [bingham_average ij.1 ij.2])

/-- The loop over `mineral_i` of `initialize_one_particle_property`; the first argument is
`n_minerals - mineral_i`. The accessors read the data vector as grown so far. -/
def initialize_loop (P : Plugin K σ) : Nat → Nat → List K → σ → Option (List K × σ)
  | 0, _, data, gen => some (data, gen)
  | k + 1, mineral_i, data, gen =>
    match random_draw_volume_weighting P.next P.n_grains
        (volume_fractions_grains P data mineral_i)
        (rotation_matrices_grains P data mineral_i) P.n_samples gen with
    | none => none
    | some (weighted_rotation_matrices, gen1) =>
      initialize_loop P k (mineral_i + 1)
        (append_loop (compute_bingham_average P.eigenvectors weighted_rotation_matrices)
          loop_order data) gen1

/-- The function `CpoBinghamAverage::initialize_one_particle_property`. The parameter `seed` is
`std::mt19937::seed`, which replaces the generator state by a state computed from its
argument; `random_number_seed` and `my_rank` are `unsigned int`, so their sum is taken
modulo `2^32`. The last argument is the generator state on entry. -/
def initialize_one_particle_property (P : Plugin K σ) (seed : Nat → σ)
    (random_number_seed my_rank : Nat) (data : List K) (_gen : σ) : Option (List K × σ) :=
  initialize_loop P P.n_minerals 0 data (seed ((random_number_seed + my_rank) % 2 ^ 32))

/-- The loop of `get_property_information`, appending three entries per mineral; the first
argument is `n_minerals - mineral_i`. -/
def property_information_loop : Nat → Nat → List (String × Nat) → List (String × Nat)
  | 0, _, property_information => property_information
  | k + 1, mineral_i, property_information =>
    property_information_loop k (mineral_i + 1)
      (property_information ++
        [("cpo mineral " ++ toString mineral_i ++ " bingham average a axis", 3),
          ("cpo mineral " ++ toString mineral_i ++ " bingham average b axis", 3),
          ("cpo mineral " ++ toString mineral_i ++ " bingham average c axis", 3)])

/-- The function `CpoBinghamAverage::get_property_information`: pairs of a property name and its
number of components. -/
def get_property_information (n_minerals : Nat) : List (String × Nat) :=
  property_information_loop n_minerals 0 []

/-- The members set by `parse_parameters`. -/
structure Parameters where
  random_number_seed : Nat
  n_grains : Nat
  n_minerals : Nat
  n_samples : Nat

/-- The assignments of `CpoBinghamAverage::parse_parameters`. The first two arguments are the
values returned by `prm.get_integer` for "Random number seed" and "Number of samples"
(non-negative by the declared patterns), the last two the values returned by
`get_number_of_grains` and `get_number_of_minerals`. Storing a `long` in an
`unsigned int` member reduces it modulo `2^32`. -/
def parse_parameters (random_number_seed_entry number_of_samples_entry : Nat)
    (number_of_grains number_of_minerals : Nat) : Parameters :=
  { random_number_seed := random_number_seed_entry % 2 ^ 32
    n_grains := number_of_grains
    n_minerals := number_of_minerals
    n_samples :=
      if number_of_samples_entry % 2 ^ 32 = 0 then number_of_grains
      else number_of_samples_entry % 2 ^ 32 }

end Orchestrator

section Rounding

variable {K : Type} [LinearOrderedField K] {T : Type} {σ : Type}

/-- The number of binary digits of `n`; the first argument bounds the number of digits
looked at. -/
def bit_length : Nat → Nat → Nat
  | 0, _ => 0
  | fuel + 1, n => if n = 0 then 0 else bit_length fuel (n / 2) + 1

/-- The integer nearest to `t`, the even one of the two when `t` lies half way. -/
def round_half_even (t : ℚ) : ℤ :=
  if t - ⌊t⌋ < 1/2 then ⌊t⌋
  else if 1/2 < t - ⌊t⌋ then ⌊t⌋ + 1
  else if ⌊t⌋ % 2 = 0 then ⌊t⌋ else ⌊t⌋ + 1

/-- The exponent `e` with `2^e ≤ |q| < 2^(e+1)` of a non-zero `q` (numerator and
denominator of at most 2200 binary digits). -/
def binary_exponent (q : ℚ) : ℤ :=
  if (2 : ℚ) ^ ((bit_length 2200 q.num.natAbs : ℤ) - (bit_length 2200 q.den : ℤ)) ≤ |q| then
    (bit_length 2200 q.num.natAbs : ℤ) - (bit_length 2200 q.den : ℤ)
  else (bit_length 2200 q.num.natAbs : ℤ) - (bit_length 2200 q.den : ℤ) - 1

/-- The `double` nearest to `q`: `q` rounded to 53 significant binary digits, ties to even.
Overflow and the subnormal range are not modelled. -/
def round_double (q : ℚ) : ℚ :=
  if q = 0 then 0
  else (round_half_even (q / (2 : ℚ) ^ (binary_exponent q - 52)) : ℚ)
    * (2 : ℚ) ^ (binary_exponent q - 52)

/-- The running sums of `std::partial_sum` after the first element, every addition rounded
by `fl`. -/
def partial_sum_from_rounded (fl : K → K) : K → List K → List K
  | _, [] => []
  | acc, x :: xs => fl (acc + x) :: partial_sum_from_rounded fl (fl (acc + x)) xs

/-- The sequence written by `std::partial_sum`, every addition rounded by `fl`. -/
def partial_sum_rounded (fl : K → K) : List K → List K
  | [] => []
  | x :: xs => x :: partial_sum_from_rounded fl x xs

/-- The vector `cum_weight` with rounded additions. -/
def cum_weight_rounded (fl : K → K) (n_grains : Nat) (fv_sorted : List K) : Option (List K) :=
  if fv_sorted.length ≤ n_grains then
    some (partial_sum_rounded fl fv_sorted ++ List.replicate (n_grains - fv_sorted.length) 0)
  else none

/-- The function `CpoBinghamAverage::random_draw_volume_weighting` with the additions of
`std::partial_sum` rounded by `fl`; the function has no other arithmetic. -/
def random_draw_volume_weighting_rounded (fl : K → K) (next : σ → K × σ) (n_grains : Nat)
    (fv : List K) (matrices : List T) (n_output_grains : Nat) (gen : σ) :
    Option (List T × σ) :=
  match sort_loop matrices fv.length ⟨fv, fv, matrices⟩ with
  | none => none
  | some s =>
    match cum_weight_rounded fl n_grains s.fv_sorted with
    | none => none
    | some cw =>
      match select_loop n_grains cw s.matrices_sorted
          (draw_idxgrain next n_output_grains gen).1 with
      | none => none
      | some matrices_out => some (matrices_out, (draw_idxgrain next n_output_grains gen).2)

/-- The six `+=` statements of `compute_bingham_average` for one accumulator and one grain,
every product and every sum rounded by `fl`. -/
def add_grain_rounded (fl : K → K) (r : Fin 3) (S : SymmetricTensor K) (m : Tensor2 K) :
    SymmetricTensor K :=
  { c00 := fl (S.c00 + fl (m r 0 * m r 0))
    c11 := fl (S.c11 + fl (m r 1 * m r 1))
    c22 := fl (S.c22 + fl (m r 2 * m r 2))
    c01 := fl (S.c01 + fl (m r 0 * m r 1))
    c02 := fl (S.c02 + fl (m r 0 * m r 2))
    c12 := fl (S.c12 + fl (m r 1 * m r 2)) }

/-- The accumulation loop of `compute_bingham_average` with rounded arithmetic. -/
def sum_matrix_loop_rounded (fl : K → K) (r : Fin 3) :
    SymmetricTensor K → List (Tensor2 K) → SymmetricTensor K
  | S, [] => S
  | S, m :: rest => sum_matrix_loop_rounded fl r (add_grain_rounded fl r S m) rest

/-- The accumulator of row `r` after the loop, with rounded arithmetic. -/
def sum_matrix_rounded (fl : K → K) (r : Fin 3) (matrices : List (Tensor2 K)) :
    SymmetricTensor K :=
  sum_matrix_loop_rounded fl r SymmetricTensor.zero matrices

end Rounding

section Specification

variable {K : Type} [LinearOrderedField K] {T : Type}

/-- The order in which the sorting loop places grain indices: grain `x` is placed at a
lower sorted position than grain `y` when its weight is smaller, or when the weights
are equal and `x` comes later in the input. -/
def before (fv : List K) (x y : Nat) : Prop :=
  fv.getD x 0 < fv.getD y 0 ∨ (fv.getD x 0 = fv.getD y 0 ∧ y < x)

/-- The invariant of the sorting loop before the iteration with `i = k - 1`; `p` lists
the grain indices extracted so far, in the order of the sorted positions `k, k+1, ...`. -/
structure SortInv (fv : List K) (matrices : List T) (k : Nat) (s : SortState K T)
    (p : List Nat) : Prop where
  len_p : p.length + k = fv.length
  nodup : p.Nodup
  lt : ∀ x ∈ p, x < fv.length
  to_sort : ∀ j, j < fv.length →
    s.fv_to_sort[j]? = some (if j ∈ p then -1 else fv.getD j 0)
  len_to_sort : s.fv_to_sort.length = fv.length
  len_sorted : s.fv_sorted.length = fv.length
  len_msorted : s.matrices_sorted.length = fv.length
  sorted : s.fv_sorted.drop k = p.map (fun x => fv.getD x 0)
  msorted : (s.matrices_sorted.drop k).map some = p.map (fun x => matrices[x]?)
  order : p.Pairwise (before fv)
  rest : ∀ j, j < fv.length → j ∉ p → ∀ x ∈ p, before fv j x

/-- A generator for the examples: its state is the list of numbers still to be drawn. -/
def tape_next (gen : List ℚ) : ℚ × List ℚ := (gen.headD 0, gen.tail)

/-- The identity rotation matrix over any field. -/
def identity_tensor : Tensor2 K := ![![1, 0, 0], ![0, 1, 0], ![0, 0, 1]]

/-- The identity rotation matrix. -/
def identity_matrix : Tensor2 ℚ := ![![1, 0, 0], ![0, 1, 0], ![0, 0, 1]]

/-- The rotation by a quarter turn about the first axis. -/
def quarter_turn_matrix : Tensor2 ℚ := ![![1, 0, 0], ![0, 0, 1], ![0, -1, 0]]

/-- The product of a symmetric tensor with a vector. -/
def SymmetricTensor.mulVec (S : SymmetricTensor K) (v : Tensor1 K) : Tensor1 K :=
  fun i => S.entry i 0 * v 0 + S.entry i 1 * v 1 + S.entry i 2 * v 2

/-- The scalar product of two vectors. -/
def dot (v w : Tensor1 K) : K := v 0 * w 0 + v 1 * w 1 + v 2 * w 2

/-- What is assumed of the eigen-solver at the tensor `S`: the three pairs it returns
are eigenpairs of `S`, the eigenvectors have unit length and are mutually orthogonal, and
the eigenvalues are in descending order. -/
structure EigenSolverAt (eigenvectors : SymmetricTensor K → Fin 3 → K × Tensor1 K)
    (S : SymmetricTensor K) : Prop where
  eigen : ∀ k i, S.mulVec (eigenvectors S k).2 i = (eigenvectors S k).1 * (eigenvectors S k).2 i
  unit : ∀ k, dot (eigenvectors S k).2 (eigenvectors S k).2 = 1
  orthogonal : ∀ k l, k ≠ l → dot (eigenvectors S k).2 (eigenvectors S l).2 = 0
  descending : (eigenvectors S 1).1 ≤ (eigenvectors S 0).1 ∧
    (eigenvectors S 2).1 ≤ (eigenvectors S 1).1

/-- An eigen-solver for the examples, exact on diagonal tensors: the diagonal entries in
descending order, each paired with its coordinate vector. -/
def diagonal_solver (S : SymmetricTensor K) : Fin 3 → K × Tensor1 K :=
  if S.c11 ≤ S.c00 then
    if S.c22 ≤ S.c11 then ![(S.c00, ![1, 0, 0]), (S.c11, ![0, 1, 0]), (S.c22, ![0, 0, 1])]
    else if S.c22 ≤ S.c00 then
      ![(S.c00, ![1, 0, 0]), (S.c22, ![0, 0, 1]), (S.c11, ![0, 1, 0])]
    else ![(S.c22, ![0, 0, 1]), (S.c00, ![1, 0, 0]), (S.c11, ![0, 1, 0])]
  else
    if S.c22 ≤ S.c00 then ![(S.c11, ![0, 1, 0]), (S.c00, ![1, 0, 0]), (S.c22, ![0, 0, 1])]
    else if S.c22 ≤ S.c11 then
      ![(S.c11, ![0, 1, 0]), (S.c22, ![0, 0, 1]), (S.c00, ![1, 0, 0])]
    else ![(S.c22, ![0, 0, 1]), (S.c11, ![0, 1, 0]), (S.c00, ![1, 0, 0])]

/-- The zero matrix. -/
def zero_matrix : Tensor2 ℚ := fun _ _ => 0

/-- A plugin for the examples: two minerals of one grain each, one sample, every volume
fraction 1 and every rotation matrix the identity, the generator `tape_next` and the
solver `diagonal_solver`. -/
def example_plugin : Plugin ℚ (List ℚ) :=
  { cpo_data_position := 0
    n_grains := 1
    n_minerals := 2
    n_samples := 1
    next := tape_next
    eigenvectors := diagonal_solver
    get_volume_fractions_grains := fun _ _ _ _ => 1
    get_rotation_matrix_grains := fun _ _ _ _ => identity_matrix }

/-- The three entries `get_property_information` appends for the mineral `mineral_i`. -/
def mineral_properties (mineral_i : Nat) : List (String × Nat) :=
  [("cpo mineral " ++ toString mineral_i ++ " bingham average a axis", 3),
    ("cpo mineral " ++ toString mineral_i ++ " bingham average b axis", 3),
    ("cpo mineral " ++ toString mineral_i ++ " bingham average c axis", 3)]

/-- A plugin for the examples: one mineral with two grains of volume fraction 1/2, the
first with the identity and the second with the quarter turn as rotation matrix, and one
sample. -/
def two_grain_plugin : Plugin ℚ (List ℚ) :=
  { cpo_data_position := 0
    n_grains := 2
    n_minerals := 1
    n_samples := 1
    next := tape_next
    eigenvectors := diagonal_solver
    get_volume_fractions_grains := fun _ _ _ _ => 1/2
    get_rotation_matrix_grains := fun _ _ _ grain_i =>
      if grain_i = 0 then identity_matrix else quarter_turn_matrix }

/-- A rotation matrix with the rows (0.28, 0.96, 0), (-0.96, 0.28, 0), (0, 0, 1), its entries
rounded to `double`. -/
def rounded_rotation_matrix : Tensor2 ℚ :=
  ![![round_double (28/100), round_double (96/100), 0],
    ![-round_double (96/100), round_double (28/100), 0], ![0, 0, 1]]

/-- A seeding function for the examples: the seeded state is a tape whose draws are
determined by the seed. -/
def tape_seed (value : Nat) : List ℚ := [1 / ((value : ℚ) + 2), 1 / ((value : ℚ) + 3)]

end Specification

section SortLemmas

variable {K : Type} [LinearOrderedField K] {T : Type}

theorem max_element_loop_spec (rest : List K) : ∀ (pre : List K) (v : K) (largest : Nat),
    pre[largest]? = some v →
    (∀ (j : Nat) (x : K), pre[j]? = some x → x ≤ v) →
    (∀ (j : Nat) (x : K), j < largest → pre[j]? = some x → x < v) →
    ∃ w, (pre ++ rest)[max_element_loop v largest pre.length rest]? = some w ∧
      (∀ (j : Nat) (x : K), (pre ++ rest)[j]? = some x → x ≤ w) ∧
      (∀ (j : Nat) (x : K), j < max_element_loop v largest pre.length rest →
        (pre ++ rest)[j]? = some x → x < w) := by
  induction rest with
  | nil =>
    intro pre v largest hv hmax hfirst
    refine ⟨v, ?_, ?_, ?_⟩
    · simpa [max_element_loop] using hv
    · simpa using hmax
    · simpa [max_element_loop] using hfirst
  | cons x rest ih =>
    intro pre v largest hv hmax hfirst
    have hlen : (pre ++ [x]).length = pre.length + 1 := by simp
    have happ : pre ++ x :: rest = (pre ++ [x]) ++ rest := by simp
    have hl : largest < pre.length := by
      rcases List.getElem?_eq_some_iff.1 hv with ⟨h, _⟩
      exact h
    have hget : ∀ j y, (pre ++ [x])[j]? = some y → pre[j]? = some y ∨ (j = pre.length ∧ y = x) := by
      intro j y hj
      rw [List.getElem?_append] at hj
      split at hj
      · exact Or.inl hj
      · rename_i hnot
        right
        have hj0 : j - pre.length = 0 := by
          rcases List.getElem?_eq_some_iff.1 hj with ⟨h, _⟩
          simpa using h
        rw [hj0] at hj
        simp at hj
        exact ⟨by omega, hj.symm⟩
    unfold max_element_loop
    by_cases hvx : v < x
    · rw [if_pos hvx, happ, ← hlen]
      apply ih
      · exact List.getElem?_concat_length pre x
      · intro j y hj
        rcases hget j y hj with h | ⟨_, h⟩
        · exact le_trans (hmax j y h) (le_of_lt hvx)
        · rw [h]
      · intro j y hjl hj
        rcases hget j y hj with h | ⟨h, _⟩
        · exact lt_of_le_of_lt (hmax j y h) hvx
        · omega
    · rw [if_neg hvx, happ, ← hlen]
      apply ih
      · rw [List.getElem?_append_left hl]; exact hv
      · intro j y hj
        rcases hget j y hj with h | ⟨_, h⟩
        · exact hmax j y h
        · rw [h]; exact not_lt.1 hvx
      · intro j y hjl hj
        rcases hget j y hj with h | ⟨h, _⟩
        · exact hfirst j y hjl h
        · omega

/-- On a non-empty range `max_element` is the index of the first greatest element. -/
theorem max_element_spec (l : List K) (hl : l ≠ []) :
    ∃ w, l[max_element l]? = some w ∧ (∀ (j : Nat) (x : K), l[j]? = some x → x ≤ w) ∧
      (∀ (j : Nat) (x : K), j < max_element l → l[j]? = some x → x < w) := by
  cases l with
  | nil => exact absurd rfl hl
  | cons a rest =>
    have h := max_element_loop_spec rest [a] a 0 (by simp)
      (by
        intro j x hj
        cases j with
        | zero => simp at hj; rw [hj]
        | succ j => simp at hj)
      (by intro j x hj; omega)
    simpa [max_element] using h

theorem exists_not_mem_of_length_lt (p : List Nat) (n : Nat) (h : p.length < n) :
    ∃ j, j < n ∧ j ∉ p := by
  by_contra hcon
  push_neg at hcon
  have hsub : Finset.range n ⊆ p.toFinset := by
    intro j hj
    simp only [Finset.mem_range] at hj
    simpa using hcon j hj
  have h1 := Finset.card_le_card hsub
  have h2 := List.toFinset_card_le p
  simp only [Finset.card_range] at h1
  omega

theorem drop_set_self {α : Type} (l : List α) (i : Nat) (a : α) (h : i < l.length) :
    (l.set i a).drop i = a :: l.drop (i + 1) := by
  rw [List.drop_set, if_neg (lt_irrefl i), List.drop_eq_getElem_cons h, Nat.sub_self]
  rfl

theorem getD_nonneg (fv : List K) (hnn : ∀ w ∈ fv, 0 ≤ w) (j : Nat) : 0 ≤ fv.getD j 0 := by
  rw [List.getD_eq_getElem?_getD]
  cases hj : fv[j]? with
  | none => simp
  | some x => simpa using hnn x (List.getElem?_mem hj)

theorem getElem?_eq_some_getD (fv : List K) (j : Nat) (h : j < fv.length) :
    fv[j]? = some (fv.getD j 0) := by
  rw [List.getD_eq_getElem?_getD, List.getElem?_eq_getElem h]
  rfl

/-- One iteration of the sorting loop preserves the invariant. -/
theorem sortInv_step (fv : List K) (matrices : List T) (hnn : ∀ w ∈ fv, 0 ≤ w)
    (hlen : matrices.length = fv.length) (k : Nat) (s : SortState K T) (p : List Nat)
    (h : SortInv fv matrices (k + 1) s p) :
    ∃ s' m, sort_loop matrices (k + 1) s = sort_loop matrices k s' ∧
      SortInv fv matrices k s' (m :: p) := by
  have hne : s.fv_to_sort ≠ [] := by
    intro h0
    have := h.len_to_sort
    have := h.len_p
    rw [h0] at *
    simp at *
    omega
  obtain ⟨w, hw, hmax, hfirst⟩ := max_element_spec s.fv_to_sort hne
  have hm : max_element s.fv_to_sort < fv.length := by
    rcases List.getElem?_eq_some_iff.1 hw with ⟨h1, _⟩
    rw [← h.len_to_sort]; exact h1
  obtain ⟨j0, hj0, hj0p⟩ := exists_not_mem_of_length_lt p fv.length (by have := h.len_p; omega)
  have hmp : max_element s.fv_to_sort ∉ p := by
    intro hin
    have h1 := h.to_sort _ hm
    rw [if_pos hin, hw] at h1
    have h2 := h.to_sort j0 hj0
    rw [if_neg hj0p] at h2
    have h3 := hmax j0 _ h2
    have h4 := getD_nonneg fv hnn j0
    have h5 : w = -1 := by simpa using h1
    linarith
  have hwm : w = fv.getD (max_element s.fv_to_sort) 0 := by
    have h1 := h.to_sort _ hm
    rw [if_neg hmp, hw] at h1
    simpa using h1
  obtain ⟨mm, hmm⟩ : ∃ mm, matrices[max_element s.fv_to_sort]? = some mm :=
    ⟨matrices[max_element s.fv_to_sort], List.getElem?_eq_getElem (by omega)⟩
  have hk1 : k < s.fv_sorted.length := by have := h.len_sorted; have := h.len_p; omega
  have hk2 : k < s.matrices_sorted.length := by have := h.len_msorted; have := h.len_p; omega
  refine ⟨{ fv_to_sort := s.fv_to_sort.set (max_element s.fv_to_sort) (-1)
            fv_sorted := s.fv_sorted.set k w
            matrices_sorted := s.matrices_sorted.set k mm }, max_element s.fv_to_sort, ?_, ?_⟩
  · rw [sort_loop, hw, hmm]
    simp only [hk1, hk2, and_self, if_true]
  · refine ⟨?_, ?_, ?_, ?_, ?_, ?_, ?_, ?_, ?_, ?_, ?_⟩
    · have := h.len_p; simp only [List.length_cons]; omega
    · exact List.nodup_cons.2 ⟨hmp, h.nodup⟩
    · intro x hx
      rcases List.mem_cons.1 hx with rfl | hx
      · exact hm
      · exact h.lt x hx
    · intro j hj
      show (s.fv_to_sort.set (max_element s.fv_to_sort) (-1))[j]? = _
      rw [List.getElem?_set]
      by_cases hjm : max_element s.fv_to_sort = j
      · rw [if_pos hjm, if_pos (by rw [h.len_to_sort]; exact hm), if_pos (by simp [hjm])]
      · rw [if_neg hjm, h.to_sort j hj]
        have hjm2 : ¬ j = max_element s.fv_to_sort := fun h => hjm h.symm
        simp only [List.mem_cons, hjm2, false_or]
    · show (s.fv_to_sort.set _ _).length = _
      rw [List.length_set]; exact h.len_to_sort
    · show (s.fv_sorted.set _ _).length = _
      rw [List.length_set]; exact h.len_sorted
    · show (s.matrices_sorted.set _ _).length = _
      rw [List.length_set]; exact h.len_msorted
    · show (s.fv_sorted.set k w).drop k = _
      rw [drop_set_self _ _ _ hk1, h.sorted, hwm]
      rfl
    · show ((s.matrices_sorted.set k mm).drop k).map some = _
      rw [drop_set_self _ _ _ hk2, List.map_cons, h.msorted, List.map_cons, hmm]
    · refine List.pairwise_cons.2 ⟨?_, h.order⟩
      intro x hx
      exact h.rest _ hm hmp x hx
    · intro j hj hjp x hx
      have hjm : j ≠ max_element s.fv_to_sort := fun h => hjp (by simp [h])
      have hjp2 : j ∉ p := fun h => hjp (List.mem_cons_of_mem _ h)
      rcases List.mem_cons.1 hx with rfl | hx
      · have h2 := h.to_sort j hj
        rw [if_neg hjp2] at h2
        have h3 := hmax j _ h2
        rw [hwm] at h3
        rcases lt_or_eq_of_le h3 with h4 | h4
        · exact Or.inl h4
        · refine Or.inr ⟨h4, ?_⟩
          rcases Nat.lt_or_gt_of_ne hjm with h5 | h5
          · have h6 := hfirst j _ h5 h2
            rw [hwm] at h6
            exact absurd h4 (ne_of_lt h6)
          · exact h5
      · exact h.rest j hj hjp2 x hx

/-- The invariant holds on entry to the sorting loop. -/
theorem sortInv_init (fv : List K) (matrices : List T) (hlen : matrices.length = fv.length) :
    SortInv fv matrices fv.length ⟨fv, fv, matrices⟩ [] := by
  refine ⟨by simp, List.nodup_nil, by simp, ?_, rfl, rfl, hlen, by simp, by simp [hlen],
    List.Pairwise.nil, by simp⟩
  intro j hj
  simpa using getElem?_eq_some_getD fv j hj

theorem sort_loop_inv (fv : List K) (matrices : List T) (hnn : ∀ w ∈ fv, 0 ≤ w)
    (hlen : matrices.length = fv.length) : ∀ (k : Nat) (s : SortState K T) (p : List Nat),
    SortInv fv matrices k s p →
    ∃ s' p', sort_loop matrices k s = some s' ∧ SortInv fv matrices 0 s' p' := by
  intro k
  induction k with
  | zero => intro s p h; exact ⟨s, p, rfl, h⟩
  | succ k ih =>
    intro s p h
    obtain ⟨s1, m, h1, h2⟩ := sortInv_step fv matrices hnn hlen k s p h
    obtain ⟨s', p', h3, h4⟩ := ih s1 (m :: p) h2
    exact ⟨s', p', by rw [h1, h3], h4⟩

/-- For non-negative weights and equally many matrices the sorting loop completes, and
its result is described by a list `p` of grain indices: position `i` of the sorted
vectors holds the weight and the matrix of grain `p[i]`, every grain occurs once, and
`p` is ordered by `before`. -/
theorem sort_loop_spec (fv : List K) (matrices : List T) (hnn : ∀ w ∈ fv, 0 ≤ w)
    (hlen : matrices.length = fv.length) :
    ∃ (s : SortState K T) (p : List Nat),
      sort_loop matrices fv.length ⟨fv, fv, matrices⟩ = some s ∧
      p.Perm (List.range fv.length) ∧
      s.fv_sorted = p.map (fun x => fv.getD x 0) ∧
      s.matrices_sorted.map some = p.map (fun x => matrices[x]?) ∧
      p.Pairwise (before fv) := by
  obtain ⟨s, p, h1, h2⟩ :=
    sort_loop_inv fv matrices hnn hlen fv.length _ [] (sortInv_init fv matrices hlen)
  refine ⟨s, p, h1, ?_, by simpa using h2.sorted, by simpa using h2.msorted, h2.order⟩
  have hsub : p ⊆ List.range fv.length := by
    intro x hx; exact List.mem_range.2 (h2.lt x hx)
  have hsp : p.Subperm (List.range fv.length) := List.subperm_of_subset h2.nodup hsub
  exact hsp.perm_of_length_le (by have := h2.len_p; simp; omega)

end SortLemmas

section CumulativeLemmas

variable {K : Type} [LinearOrderedField K] {T : Type} {σ : Type}

theorem partial_sum_from_length (xs : List K) : ∀ acc : K,
    (partial_sum_from acc xs).length = xs.length := by
  induction xs with
  | nil => intro acc; rfl
  | cons x xs ih => intro acc; simp [partial_sum_from, ih]

theorem partial_sum_length (xs : List K) : (partial_sum xs).length = xs.length := by
  cases xs with
  | nil => rfl
  | cons x xs => simp [partial_sum, partial_sum_from_length]

theorem partial_sum_from_getElem? (xs : List K) : ∀ (acc : K) (j : Nat), j < xs.length →
    (partial_sum_from acc xs)[j]? = some (acc + (xs.take (j + 1)).sum) := by
  induction xs with
  | nil => intro acc j h; simp at h
  | cons x xs ih =>
    intro acc j h
    cases j with
    | zero => simp [partial_sum_from]
    | succ j =>
      have h1 : j < xs.length := by simpa using h
      simp [partial_sum_from, ih (acc + x) j h1, add_assoc]

/-- Entry `j` of the partial sums is the sum of the first `j + 1` elements. -/
theorem partial_sum_getElem? (xs : List K) (j : Nat) (h : j < xs.length) :
    (partial_sum xs)[j]? = some ((xs.take (j + 1)).sum) := by
  cases xs with
  | nil => simp at h
  | cons x xs =>
    cases j with
    | zero => simp [partial_sum]
    | succ j =>
      have h1 : j < xs.length := by simpa using h
      simp [partial_sum, partial_sum_from_getElem? xs x j h1]

theorem take_sum_mono (xs : List K) (hnn : ∀ w ∈ xs, 0 ≤ w) : ∀ (i j : Nat), i ≤ j →
    (xs.take i).sum ≤ (xs.take j).sum := by
  induction xs with
  | nil => intro i j _; simp
  | cons x xs ih =>
    intro i j hij
    have hx : 0 ≤ x := hnn x (List.mem_cons_self x xs)
    have hxs : ∀ w ∈ xs, 0 ≤ w := fun w hw => hnn w (List.mem_cons_of_mem x hw)
    cases i with
    | zero =>
      simp only [List.take_zero, List.sum_nil]
      exact List.sum_nonneg (fun w hw => hnn w (List.mem_of_mem_take hw))
    | succ i =>
      cases j with
      | zero => omega
      | succ j =>
        simp only [List.take_succ_cons, List.sum_cons]
        have := ih hxs i j (by omega)
        linarith

/-- With equally many weights as `n_grains` the vector `cum_weight` is the sequence of
partial sums. -/
theorem cum_weight_eq (n_grains : Nat) (ws : List K) (h : ws.length = n_grains) :
    cum_weight n_grains ws = some (partial_sum ws) := by
  simp [cum_weight, h]

/-- The inner loop stops at the first cumulative weight that is not below the draw. -/
theorem counter_loop_spec (cw : List K) (u : K) : ∀ (fuel j : Nat), fuel + j = cw.length →
    ∃ r, counter_loop cw u fuel j j = some r ∧ j ≤ r ∧ r ≤ cw.length ∧
      (∀ (i : Nat) (x : K), j ≤ i → i < r → cw[i]? = some x → x < u) ∧
      (∀ x : K, cw[r]? = some x → ¬ x < u) := by
  intro fuel
  induction fuel with
  | zero =>
    intro j hj
    refine ⟨j, rfl, le_refl j, by omega, ?_, ?_⟩
    · intro i x h1 h2; omega
    · intro x hx
      rw [List.getElem?_eq_none (by omega)] at hx
      cases hx
  | succ fuel ih =>
    intro j hj
    have hjl : j < cw.length := by omega
    rw [counter_loop, List.getElem?_eq_getElem hjl]
    by_cases hc : cw[j] < u
    · obtain ⟨r, h1, h2, h3, h4, h5⟩ := ih (j + 1) (by omega)
      refine ⟨r, ?_, by omega, h3, ?_, h5⟩
      · simpa [hc] using h1
      · intro i x hi1 hi2 hx
        rcases Nat.eq_or_lt_of_le hi1 with h6 | h6
        · subst h6
          rw [List.getElem?_eq_getElem hjl] at hx
          cases hx
          exact hc
        · exact h4 i x h6 hi2 hx
    · refine ⟨j, by simp [hc], le_refl j, by omega, ?_, ?_⟩
      · intro i x h1 h2; omega
      · intro x hx
        rw [List.getElem?_eq_getElem hjl] at hx
        cases hx
        exact hc

omit [LinearOrderedField K] in
theorem draw_idxgrain_length (next : σ → K × σ) : ∀ (n : Nat) (gen : σ),
    (draw_idxgrain next n gen).1.length = n := by
  intro n
  induction n with
  | zero => intro gen; rfl
  | succ n ih => intro gen; simp [draw_idxgrain, ih]

/-- Whenever the selection loop completes it has produced one matrix per draw, each
taken from `matrices_sorted`. -/
theorem select_loop_some (n_grains : Nat) (cw : List K) (ms : List T) : ∀ (us : List K)
    (out : List T), select_loop n_grains cw ms us = some out →
    out.length = us.length ∧ ∀ m ∈ out, m ∈ ms := by
  intro us
  induction us with
  | nil =>
    intro out h
    simp only [select_loop, Option.some.injEq] at h
    subst h
    simp
  | cons u us ih =>
    intro out h
    rw [select_loop] at h
    cases h1 : select_matrix n_grains cw ms u with
    | none => rw [h1] at h; cases h
    | some m =>
      cases h2 : select_loop n_grains cw ms us with
      | none => rw [h1, h2] at h; cases h
      | some rest =>
        rw [h1, h2] at h
        simp only [Option.some.injEq] at h
        subst h
        obtain ⟨h3, h4⟩ := ih rest h2
        refine ⟨by simp [h3], ?_⟩
        intro m' hm'
        rcases List.mem_cons.1 hm' with rfl | hm'
        · unfold select_matrix at h1
          cases h5 : counter_loop cw u n_grains 0 0 with
          | none => rw [h5] at h1; cases h1
          | some c =>
            rw [h5] at h1
            exact List.getElem?_mem h1
        · exact h4 m' hm'

/-- The partial sums of non-negative weights increase with the index. -/
theorem partial_sum_mono (ws : List K) (hnn : ∀ w ∈ ws, 0 ≤ w) (i j : Nat) (x y : K)
    (hij : i ≤ j) (hx : (partial_sum ws)[i]? = some x) (hy : (partial_sum ws)[j]? = some y) :
    x ≤ y := by
  have hj : j < ws.length := by
    rcases List.getElem?_eq_some_iff.1 hy with ⟨h, _⟩
    rwa [partial_sum_length] at h
  rw [partial_sum_getElem? ws i (by omega)] at hx
  rw [partial_sum_getElem? ws j hj] at hy
  cases hx
  cases hy
  exact take_sum_mono ws hnn _ _ (by omega)

/-- The value of `counter` for non-negative sorted weights `ws` and a draw that does not
exceed their total. -/
theorem counter_loop_sorted (ws : List K) (hnn : ∀ w ∈ ws, 0 ≤ w) (hpos : 1 ≤ ws.length)
    (u : K) (hu : u ≤ ws.sum) :
    ∃ r c, counter_loop (partial_sum ws) u ws.length 0 0 = some r ∧ r < ws.length ∧
      r = List.countP (fun x => decide (x < u)) (partial_sum ws) ∧
      (partial_sum ws)[r]? = some c ∧ u ≤ c ∧
      (∀ (j : Nat) (x : K), j < r → (partial_sum ws)[j]? = some x → x < u) ∧
      (∀ (j : Nat) (x y : K), (partial_sum ws)[j]? = some x →
        (partial_sum ws)[j + 1]? = some y → (r = j + 1 ↔ x < u ∧ u ≤ y)) := by
  obtain ⟨r, h1, _, h3, h4, h5⟩ :=
    counter_loop_spec (partial_sum ws) u ws.length 0 (by simp [partial_sum_length])
  rw [partial_sum_length] at h3
  have hr : r < ws.length := by
    rcases Nat.lt_or_ge r ws.length with h | h
    · exact h
    · exfalso
      have h6 := h4 (ws.length - 1) ws.sum (Nat.zero_le _) (by omega)
        (by
          rw [partial_sum_getElem? ws _ (by omega)]
          have h7 : ws.length - 1 + 1 = ws.length := by omega
          rw [h7, List.take_length])
      exact absurd hu (not_le.2 h6)
  have hc := partial_sum_getElem? ws r hr
  have hmono := partial_sum_mono ws hnn
  refine ⟨r, _, h1, hr, ?_, hc, not_lt.1 (h5 _ hc), fun j x hj hx => h4 j x (Nat.zero_le _) hj hx, ?_⟩
  · have hsplit := List.take_append_drop r (partial_sum ws)
    have htake : List.countP (fun x => decide (x < u)) ((partial_sum ws).take r) =
        ((partial_sum ws).take r).length := by
      rw [List.countP_eq_length]
      intro a ha
      obtain ⟨i, hi⟩ := List.mem_iff_getElem?.1 ha
      rw [List.getElem?_take] at hi
      split at hi
      · rename_i hir
        simpa using h4 i a (Nat.zero_le _) hir hi
      · cases hi
    have hdrop : List.countP (fun x => decide (x < u)) ((partial_sum ws).drop r) = 0 := by
      rw [List.countP_eq_zero]
      intro a ha
      obtain ⟨i, hi⟩ := List.mem_iff_getElem?.1 ha
      rw [List.getElem?_drop] at hi
      have h6 := hmono r (r + i) _ a (by omega) hc hi
      have h7 := h5 _ hc
      simp only [decide_eq_true_eq, not_lt]
      exact le_trans (not_lt.1 h7) h6
    have hlen : ((partial_sum ws).take r).length = r := by
      rw [List.length_take, partial_sum_length]; omega
    rw [← hsplit, List.countP_append, htake, hdrop, hlen]
    simp
  · intro j x y hx hy
    constructor
    · intro hrj
      refine ⟨h4 j x (Nat.zero_le _) (by omega) hx, ?_⟩
      rw [hrj, hy] at hc
      cases hc
      exact not_lt.1 (h5 _ (by rw [hrj]; exact hy))
    · rintro ⟨hxu, huy⟩
      rcases Nat.lt_trichotomy r (j + 1) with h | h | h
      · exfalso
        have h6 := hmono r j _ x (by omega) hc hx
        exact absurd hxu (not_lt.2 (le_trans (not_lt.1 (h5 _ hc)) h6))
      · exact h
      · exfalso
        exact absurd (h4 (j + 1) y (Nat.zero_le _) h hy) (not_lt.2 huy)

end CumulativeLemmas

section ResamplerLemmas

variable {K : Type} [LinearOrderedField K] {T : Type} {σ : Type}

/-- The sorting loop never changes the length of `matrices_sorted`, and every entry of
its result is an entry it started with or an input matrix. -/
theorem sort_loop_some (matrices : List T) : ∀ (k : Nat) (s s' : SortState K T),
    sort_loop matrices k s = some s' →
    s'.matrices_sorted.length = s.matrices_sorted.length ∧
      ∀ m ∈ s'.matrices_sorted, m ∈ s.matrices_sorted ∨ m ∈ matrices := by
  intro k
  induction k with
  | zero =>
    intro s s' h
    simp only [sort_loop, Option.some.injEq] at h
    subst h
    exact ⟨rfl, fun m hm => Or.inl hm⟩
  | succ k ih =>
    intro s s' h
    rw [sort_loop] at h
    cases hw : s.fv_to_sort[max_element s.fv_to_sort]? with
    | none => rw [hw] at h; cases h
    | some w =>
      cases hm : matrices[max_element s.fv_to_sort]? with
      | none => rw [hw, hm] at h; cases h
      | some mm =>
        rw [hw, hm] at h
        simp only at h
        split at h
        · obtain ⟨h1, h2⟩ := ih _ s' h
          refine ⟨by simpa using h1, ?_⟩
          intro m hmem
          rcases h2 m hmem with h3 | h3
          · rcases List.mem_or_eq_of_mem_set h3 with h4 | h4
            · exact Or.inl h4
            · right; rw [h4]; exact List.getElem?_mem hm
          · exact Or.inr h3
        · cases h

/-- Whenever `random_draw_volume_weighting` returns, it returns one matrix per requested sample and
every returned matrix is one of the input matrices. -/
theorem random_draw_some (next : σ → K × σ) (n_grains : Nat) (fv : List K)
    (matrices : List T) (n_output_grains : Nat) (gen : σ) (out : List T) (gen1 : σ)
    (h : random_draw_volume_weighting next n_grains fv matrices n_output_grains gen
      = some (out, gen1)) :
    out.length = n_output_grains ∧ (∀ m ∈ out, m ∈ matrices) ∧
      gen1 = (draw_idxgrain next n_output_grains gen).2 := by
  unfold random_draw_volume_weighting at h
  cases h1 : sort_loop matrices fv.length (⟨fv, fv, matrices⟩ : SortState K T) with
  | none => rw [h1] at h; cases h
  | some s =>
    rw [h1] at h
    simp only at h
    cases h2 : cum_weight n_grains s.fv_sorted with
    | none => rw [h2] at h; cases h
    | some cw =>
      rw [h2] at h
      simp only at h
      cases h3 : select_loop n_grains cw s.matrices_sorted
          (draw_idxgrain next n_output_grains gen).1 with
      | none => rw [h3] at h; cases h
      | some o =>
        rw [h3] at h
        simp only [Option.some.injEq, Prod.mk.injEq] at h
        obtain ⟨h4, h5⟩ := h
        subst h4
        obtain ⟨h6, h7⟩ := select_loop_some n_grains cw s.matrices_sorted _ _ h3
        obtain ⟨_, h9⟩ := sort_loop_some matrices _ _ _ h1
        refine ⟨by rw [h6, draw_idxgrain_length], ?_, h5.symm⟩
        intro m hm
        rcases h9 m (h7 m hm) with h10 | h10 <;> exact h10

theorem map_getD_range (fv : List K) :
    (List.range fv.length).map (fun x => fv.getD x 0) = fv := by
  apply List.ext_getElem?
  intro i
  rw [List.getElem?_map]
  rcases Nat.lt_or_ge i fv.length with h | h
  · rw [List.getElem?_range h, getElem?_eq_some_getD fv i h]
    rfl
  · rw [List.getElem?_eq_none (by simpa using h), List.getElem?_eq_none h]
    rfl

/-- The sorted weights are a rearrangement of the input weights. -/
theorem sorted_perm (fv : List K) (p : List Nat) (hp : p.Perm (List.range fv.length)) :
    (p.map (fun x => fv.getD x 0)).Perm fv := by
  have h := hp.map (fun x => fv.getD x 0)
  rwa [map_getD_range] at h

/-- The selection loop for non-negative sorted weights `ws` and draws that do not exceed
their total: every draw selects the sorted position equal to the number of cumulative
weights below it. -/
theorem select_loop_sorted (ws : List K) (ms : List T) (hnn : ∀ w ∈ ws, 0 ≤ w)
    (hpos : 1 ≤ ws.length) (hms : ms.length = ws.length) : ∀ us : List K,
    (∀ u ∈ us, u ≤ ws.sum) →
    ∃ out, select_loop ws.length (partial_sum ws) ms us = some out ∧
      ∀ (i : Nat) (u : K), us[i]? = some u →
        out[i]? = ms[List.countP (fun x => decide (x < u)) (partial_sum ws)]? := by
  intro us
  induction us with
  | nil => intro _; exact ⟨[], rfl, by simp⟩
  | cons u us ih =>
    intro hus
    obtain ⟨rest, h1, h2⟩ := ih (fun v hv => hus v (List.mem_cons_of_mem u hv))
    obtain ⟨r, c, h3, h4, h5, _⟩ :=
      counter_loop_sorted ws hnn hpos u (hus u (List.mem_cons_self u us))
    obtain ⟨mm, hmm⟩ : ∃ mm, ms[r]? = some mm :=
      ⟨ms[r], List.getElem?_eq_getElem (by omega)⟩
    have h6 : select_matrix ws.length (partial_sum ws) ms u = some mm := by
      rw [select_matrix, h3]
      exact hmm
    refine ⟨mm :: rest, ?_, ?_⟩
    · rw [select_loop, h6, h1]
    · intro i v hv
      cases i with
      | zero =>
        simp only [List.getElem?_cons_zero, Option.some.injEq] at hv
        subst hv
        rw [← h5, hmm]
        exact List.getElem?_cons_zero
      | succ i =>
        simp only [List.getElem?_cons_succ] at hv ⊢
        exact h2 i v hv

/-- The resampler on a well-formed population: non-negative weights, as many weights and
matrices as `n_grains`, and draws that do not exceed the total weight. -/
theorem random_draw_sorted (next : σ → K × σ) (n_grains : Nat) (fv : List K)
    (matrices : List T) (n_output_grains : Nat) (gen : σ)
    (hpos : 1 ≤ n_grains) (hlenf : fv.length = n_grains)
    (hlenm : matrices.length = n_grains) (hnn : ∀ w ∈ fv, 0 ≤ w)
    (hdraw : ∀ u ∈ (draw_idxgrain next n_output_grains gen).1, u ≤ fv.sum) :
    ∃ (s : SortState K T) (p : List Nat) (out : List T),
      sort_loop matrices fv.length ⟨fv, fv, matrices⟩ = some s ∧
      p.Perm (List.range fv.length) ∧
      s.fv_sorted = p.map (fun x => fv.getD x 0) ∧
      s.matrices_sorted.map some = p.map (fun x => matrices[x]?) ∧
      p.Pairwise (before fv) ∧
      cum_weight n_grains s.fv_sorted = some (partial_sum s.fv_sorted) ∧
      random_draw_volume_weighting next n_grains fv matrices n_output_grains gen
        = some (out, (draw_idxgrain next n_output_grains gen).2) ∧
      ∀ (i : Nat) (u : K), (draw_idxgrain next n_output_grains gen).1[i]? = some u →
        out[i]? = s.matrices_sorted[List.countP (fun x => decide (x < u))
          (partial_sum s.fv_sorted)]? := by
  obtain ⟨s, p, h1, h2, h3, h4, h5⟩ :=
    sort_loop_spec fv matrices hnn (by rw [hlenm, hlenf])
  have hperm : s.fv_sorted.Perm fv := by rw [h3]; exact sorted_perm fv p h2
  have hnnws : ∀ w ∈ s.fv_sorted, 0 ≤ w := fun w hw => hnn w (hperm.mem_iff.1 hw)
  have hsum : s.fv_sorted.sum = fv.sum := hperm.sum_eq
  have hlenws : s.fv_sorted.length = n_grains := by rw [hperm.length_eq, hlenf]
  have hms : s.matrices_sorted.length = s.fv_sorted.length := by
    have h6 := congrArg List.length h4
    have h7 := h2.length_eq
    simp only [List.length_map, List.length_range] at h6 h7
    omega
  have hcum := cum_weight_eq n_grains s.fv_sorted hlenws
  obtain ⟨out, h8, h9⟩ := select_loop_sorted s.fv_sorted s.matrices_sorted hnnws
    (by omega) hms (draw_idxgrain next n_output_grains gen).1
    (fun u hu => by rw [hsum]; exact hdraw u hu)
  rw [hlenws] at h8
  refine ⟨s, p, out, h1, h2, h3, h4, h5, hcum, ?_, h9⟩
  rw [random_draw_volume_weighting, h1]
  simp only
  rw [hcum]
  simp only
  rw [h8]

/-- A draw for which no matrix can be selected makes the whole selection loop fail. -/
theorem select_loop_none (n_grains : Nat) (cw : List K) (ms : List T) (u : K)
    (hu : select_matrix n_grains cw ms u = none) : ∀ us : List K, u ∈ us →
    select_loop n_grains cw ms us = none := by
  intro us
  induction us with
  | nil => intro h; cases h
  | cons v us ih =>
    intro h
    rw [select_loop]
    rcases List.mem_cons.1 h with rfl | h
    · rw [hu]
    · rw [ih h]
      cases select_matrix n_grains cw ms v <;> rfl

/-- For a draw above every cumulative weight the inner loop runs to the end and leaves
`counter = n_grains`, so the access `matrices_sorted[counter]` is one past the end. -/
theorem select_matrix_above (cw : List K) (ms : List T) (u : K)
    (hms : ms.length = cw.length) (hu : ∀ c ∈ cw, c < u) :
    counter_loop cw u cw.length 0 0 = some cw.length ∧
      select_matrix cw.length cw ms u = none := by
  obtain ⟨r, h1, _, h3, _, h5⟩ := counter_loop_spec cw u cw.length 0 rfl
  have hr : r = cw.length := by
    rcases Nat.lt_or_ge r cw.length with h | h
    · exact absurd (hu _ (List.getElem_mem h)) (h5 _ (List.getElem?_eq_getElem h))
    · omega
  rw [hr] at h1
  refine ⟨h1, ?_⟩
  rw [select_matrix, h1]
  exact List.getElem?_eq_none (by omega)

end ResamplerLemmas

section AveragerLemmas

variable {K : Type} [LinearOrderedField K]

/-- Every component of an accumulator is its start value plus the sum over the grains of
the product of the two direction cosines of the row in question. -/
theorem sum_matrix_loop_eq (r : Fin 3) (ms : List (Tensor2 K)) : ∀ S : SymmetricTensor K,
    sum_matrix_loop r S ms =
      { c00 := S.c00 + (ms.map (fun m => m r 0 * m r 0)).sum
        c11 := S.c11 + (ms.map (fun m => m r 1 * m r 1)).sum
        c22 := S.c22 + (ms.map (fun m => m r 2 * m r 2)).sum
        c01 := S.c01 + (ms.map (fun m => m r 0 * m r 1)).sum
        c02 := S.c02 + (ms.map (fun m => m r 0 * m r 2)).sum
        c12 := S.c12 + (ms.map (fun m => m r 1 * m r 2)).sum } := by
  induction ms with
  | nil => intro S; simp [sum_matrix_loop]
  | cons m ms ih =>
    intro S
    rw [sum_matrix_loop, ih]
    simp [add_grain, add_assoc]

/-- The accumulator of row `r` for `M` copies of the identity matrix. -/
theorem sum_matrix_identity (r : Fin 3) (M : Nat) :
    sum_matrix r (List.replicate M (identity_tensor : Tensor2 K)) =
      { c00 := if r = 0 then (M : K) else 0
        c11 := if r = 1 then (M : K) else 0
        c22 := if r = 2 then (M : K) else 0
        c01 := 0
        c02 := 0
        c12 := 0 } := by
  rw [sum_matrix, sum_matrix_loop_eq]
  fin_cases r <;>
    simp [SymmetricTensor.zero, identity_tensor, List.map_replicate, List.sum_replicate,
      Matrix.vecHead, Matrix.vecTail]

theorem mulVec_zero (S : SymmetricTensor K) (v : Tensor1 K) :
    S.mulVec v 0 = S.c00 * v 0 + S.c01 * v 1 + S.c02 * v 2 := rfl

theorem mulVec_one (S : SymmetricTensor K) (v : Tensor1 K) :
    S.mulVec v 1 = S.c01 * v 0 + S.c11 * v 1 + S.c12 * v 2 := rfl

theorem mulVec_two (S : SymmetricTensor K) (v : Tensor1 K) :
    S.mulVec v 2 = S.c02 * v 0 + S.c12 * v 1 + S.c22 * v 2 := rfl

/-- Three mutually orthogonal unit vectors cannot all lie in one coordinate plane. -/
theorem no_three_in_plane (a0 b0 a1 b1 a2 b2 : K)
    (n0 : a0 * a0 + b0 * b0 = 1) (n1 : a1 * a1 + b1 * b1 = 1) (n2 : a2 * a2 + b2 * b2 = 1)
    (h01 : a0 * a1 + b0 * b1 = 0) (h02 : a0 * a2 + b0 * b2 = 0)
    (h12 : a1 * a2 + b1 * b2 = 0) : False := by
  have h1 : a0 * (a1 * b2 - a2 * b1) = 0 := by linear_combination b2 * h01 - b1 * h02
  have h2 : b0 * (a1 * b2 - a2 * b1) = 0 := by linear_combination a1 * h02 - a2 * h01
  have hdet : a1 * b2 - a2 * b1 = 0 := by
    linear_combination a0 * h1 + b0 * h2 - (a1 * b2 - a2 * b1) * n0
  have h3 : (1 : K) = 0 := by
    linear_combination (-1 : K) * n1 * (a2 * a2 + b2 * b2) - n2
      + (a1 * a2 + b1 * b2) * h12 + (a1 * b2 - a2 * b1) * hdet
  exact one_ne_zero h3

/-- The dominant eigenpair of a tensor whose only non-zero component is a positive
diagonal entry `d`: `p` is the eigenvector coordinate along that axis, `q` and `r` are the
other two coordinates. -/
theorem dominant_axis (d : K) (hd : 0 < d) (lam p q r : Fin 3 → K)
    (hp : ∀ k, d * p k = lam k * p k) (hq : ∀ k, lam k * q k = 0)
    (hr : ∀ k, lam k * r k = 0)
    (hunit : ∀ k, p k * p k + q k * q k + r k * r k = 1)
    (horth : ∀ k l, k ≠ l → p k * p l + q k * q l + r k * r l = 0)
    (hdesc : lam 1 ≤ lam 0 ∧ lam 2 ≤ lam 1) :
    lam 0 = d ∧ q 0 = 0 ∧ r 0 = 0 ∧ (p 0 = 1 ∨ p 0 = -1) := by
  have key : ∀ k, lam k ≠ d → p k = 0 ∧ lam k = 0 := by
    intro k hk
    have h1 : (d - lam k) * p k = 0 := by linear_combination hp k
    have h2 : p k = 0 := by
      rcases mul_eq_zero.1 h1 with h | h
      · exact absurd (sub_eq_zero.1 h).symm hk
      · exact h
    refine ⟨h2, ?_⟩
    have h3 := hunit k
    rw [h2] at h3
    linear_combination (-(lam k)) * h3 + q k * hq k + r k * hr k
  have h0 : lam 0 = d := by
    by_contra hne
    obtain ⟨hp0, hl0⟩ := key 0 hne
    have hl1 : lam 1 ≠ d := by
      intro h; rw [h, hl0] at hdesc; exact absurd hdesc.1 (not_le.2 hd)
    obtain ⟨hp1, hl1z⟩ := key 1 hl1
    have hl2 : lam 2 ≠ d := by
      intro h; rw [h, hl1z] at hdesc; exact absurd hdesc.2 (not_le.2 hd)
    obtain ⟨hp2, _⟩ := key 2 hl2
    have n0 := hunit 0
    have n1 := hunit 1
    have n2 := hunit 2
    have o01 := horth 0 1 (by decide)
    have o02 := horth 0 2 (by decide)
    have o12 := horth 1 2 (by decide)
    rw [hp0] at n0 o01 o02
    rw [hp1] at n1 o01 o12
    rw [hp2] at n2 o02 o12
    exact no_three_in_plane (q 0) (r 0) (q 1) (r 1) (q 2) (r 2)
      (by linear_combination n0) (by linear_combination n1) (by linear_combination n2)
      (by linear_combination o01) (by linear_combination o02) (by linear_combination o12)
  have hq0 : q 0 = 0 := by
    have h := hq 0
    rw [h0] at h
    rcases mul_eq_zero.1 h with h | h
    · exact absurd h (ne_of_gt hd)
    · exact h
  have hr0 : r 0 = 0 := by
    have h := hr 0
    rw [h0] at h
    rcases mul_eq_zero.1 h with h | h
    · exact absurd h (ne_of_gt hd)
    · exact h
  refine ⟨h0, hq0, hr0, ?_⟩
  have h := hunit 0
  rw [hq0, hr0] at h
  have h4 : (p 0 - 1) * (p 0 + 1) = 0 := by linear_combination h
  rcases mul_eq_zero.1 h4 with h | h
  · exact Or.inl (sub_eq_zero.1 h)
  · exact Or.inr (eq_neg_of_add_eq_zero_left h)

/-- Every component of an accumulator is the sum over the grains of the product of the two
direction cosines it is indexed by. -/
theorem sum_matrix_entry (r : Fin 3) (ms : List (Tensor2 K)) (i j : Fin 3) :
    (sum_matrix r ms).entry i j = (ms.map (fun m => m r i * m r j)).sum := by
  rw [sum_matrix, sum_matrix_loop_eq]
  fin_cases i <;> fin_cases j <;>
    simp [SymmetricTensor.entry, SymmetricTensor.zero, Matrix.vecHead, Matrix.vecTail] <;>
    (congr 1; apply List.map_congr_left; intro m _; exact mul_comm _ _)

/-- The rows of the result of `compute_bingham_average` in terms of the first pair the solver
returns for each accumulator. -/
theorem compute_bingham_average_rows
    (eigenvectors : SymmetricTensor K → Fin 3 → K × Tensor1 K) (ms : List (Tensor2 K))
    (j : Fin 3) :
    compute_bingham_average eigenvectors ms 0 j
        = (eigenvectors (sum_matrix 0 ms) 0).2 j * (eigenvectors (sum_matrix 0 ms) 0).1 ∧
      compute_bingham_average eigenvectors ms 1 j
        = (eigenvectors (sum_matrix 1 ms) 0).2 j * (eigenvectors (sum_matrix 1 ms) 0).1 ∧
      compute_bingham_average eigenvectors ms 2 j
        = (eigenvectors (sum_matrix 2 ms) 0).2 j * (eigenvectors (sum_matrix 0 ms) 0).1 := by
  unfold compute_bingham_average
  fin_cases j <;> simp [Matrix.vecHead, Matrix.vecTail]

/-- The accumulators of the a and the c axis for the identity and the quarter turn. -/
theorem sum_matrix_quarter_turn :
    sum_matrix 0 [identity_matrix, quarter_turn_matrix] = ⟨2, 0, 0, 0, 0, 0⟩ ∧
      sum_matrix 2 [identity_matrix, quarter_turn_matrix] = ⟨0, 1, 1, 0, 0, 0⟩ := by
  constructor <;>
    norm_num [sum_matrix, sum_matrix_loop, add_grain, SymmetricTensor.zero, identity_matrix,
      quarter_turn_matrix, Matrix.vecHead, Matrix.vecTail]

/-- The dominant eigenpair reported for the tensor with the single non-zero component
`d > 0` at the diagonal position a. -/
theorem dominant_a (eigenvectors : SymmetricTensor K → Fin 3 → K × Tensor1 K) (d : K)
    (hd : 0 < d) (h : EigenSolverAt eigenvectors ⟨d, 0, 0, 0, 0, 0⟩) :
    (eigenvectors ⟨d, 0, 0, 0, 0, 0⟩ 0).1 = d ∧
      (eigenvectors ⟨d, 0, 0, 0, 0, 0⟩ 0).2 1 = 0 ∧
      (eigenvectors ⟨d, 0, 0, 0, 0, 0⟩ 0).2 2 = 0 ∧
      ((eigenvectors ⟨d, 0, 0, 0, 0, 0⟩ 0).2 0 = 1 ∨
        (eigenvectors ⟨d, 0, 0, 0, 0, 0⟩ 0).2 0 = -1) := by
  obtain ⟨heig, hunit, horth, hdesc⟩ := h
  refine dominant_axis d hd (fun k => (eigenvectors ⟨d, 0, 0, 0, 0, 0⟩ k).1)
    (fun k => (eigenvectors ⟨d, 0, 0, 0, 0, 0⟩ k).2 0)
    (fun k => (eigenvectors ⟨d, 0, 0, 0, 0, 0⟩ k).2 1)
    (fun k => (eigenvectors ⟨d, 0, 0, 0, 0, 0⟩ k).2 2) ?_ ?_ ?_ ?_ ?_ hdesc
  · intro k
    have h1 := heig k 0
    rw [mulVec_zero] at h1
    dsimp only at h1 ⊢
    linear_combination h1
  · intro k
    have h1 := heig k 1
    rw [mulVec_one] at h1
    dsimp only at h1 ⊢
    linear_combination (-1 : K) * h1
  · intro k
    have h1 := heig k 2
    rw [mulVec_two] at h1
    dsimp only at h1 ⊢
    linear_combination (-1 : K) * h1
  · intro k
    have h1 := hunit k
    simp only [dot] at h1
    dsimp only
    linear_combination h1
  · intro k l hkl
    have h1 := horth k l hkl
    simp only [dot] at h1
    dsimp only
    linear_combination h1

/-- The dominant eigenpair reported for the tensor with the single non-zero component
`d > 0` at the diagonal position b. -/
theorem dominant_b (eigenvectors : SymmetricTensor K → Fin 3 → K × Tensor1 K) (d : K)
    (hd : 0 < d) (h : EigenSolverAt eigenvectors ⟨0, d, 0, 0, 0, 0⟩) :
    (eigenvectors ⟨0, d, 0, 0, 0, 0⟩ 0).1 = d ∧
      (eigenvectors ⟨0, d, 0, 0, 0, 0⟩ 0).2 0 = 0 ∧
      (eigenvectors ⟨0, d, 0, 0, 0, 0⟩ 0).2 2 = 0 ∧
      ((eigenvectors ⟨0, d, 0, 0, 0, 0⟩ 0).2 1 = 1 ∨
        (eigenvectors ⟨0, d, 0, 0, 0, 0⟩ 0).2 1 = -1) := by
  obtain ⟨heig, hunit, horth, hdesc⟩ := h
  refine dominant_axis d hd (fun k => (eigenvectors ⟨0, d, 0, 0, 0, 0⟩ k).1)
    (fun k => (eigenvectors ⟨0, d, 0, 0, 0, 0⟩ k).2 1)
    (fun k => (eigenvectors ⟨0, d, 0, 0, 0, 0⟩ k).2 0)
    (fun k => (eigenvectors ⟨0, d, 0, 0, 0, 0⟩ k).2 2) ?_ ?_ ?_ ?_ ?_ hdesc
  · intro k
    have h1 := heig k 1
    rw [mulVec_one] at h1
    dsimp only at h1 ⊢
    linear_combination h1
  · intro k
    have h1 := heig k 0
    rw [mulVec_zero] at h1
    dsimp only at h1 ⊢
    linear_combination (-1 : K) * h1
  · intro k
    have h1 := heig k 2
    rw [mulVec_two] at h1
    dsimp only at h1 ⊢
    linear_combination (-1 : K) * h1
  · intro k
    have h1 := hunit k
    simp only [dot] at h1
    dsimp only
    linear_combination h1
  · intro k l hkl
    have h1 := horth k l hkl
    simp only [dot] at h1
    dsimp only
    linear_combination h1

/-- The dominant eigenpair reported for the tensor with the single non-zero component
`d > 0` at the diagonal position c. -/
theorem dominant_c (eigenvectors : SymmetricTensor K → Fin 3 → K × Tensor1 K) (d : K)
    (hd : 0 < d) (h : EigenSolverAt eigenvectors ⟨0, 0, d, 0, 0, 0⟩) :
    (eigenvectors ⟨0, 0, d, 0, 0, 0⟩ 0).1 = d ∧
      (eigenvectors ⟨0, 0, d, 0, 0, 0⟩ 0).2 0 = 0 ∧
      (eigenvectors ⟨0, 0, d, 0, 0, 0⟩ 0).2 1 = 0 ∧
      ((eigenvectors ⟨0, 0, d, 0, 0, 0⟩ 0).2 2 = 1 ∨
        (eigenvectors ⟨0, 0, d, 0, 0, 0⟩ 0).2 2 = -1) := by
  obtain ⟨heig, hunit, horth, hdesc⟩ := h
  refine dominant_axis d hd (fun k => (eigenvectors ⟨0, 0, d, 0, 0, 0⟩ k).1)
    (fun k => (eigenvectors ⟨0, 0, d, 0, 0, 0⟩ k).2 2)
    (fun k => (eigenvectors ⟨0, 0, d, 0, 0, 0⟩ k).2 0)
    (fun k => (eigenvectors ⟨0, 0, d, 0, 0, 0⟩ k).2 1) ?_ ?_ ?_ ?_ ?_ hdesc
  · intro k
    have h1 := heig k 2
    rw [mulVec_two] at h1
    dsimp only at h1 ⊢
    linear_combination h1
  · intro k
    have h1 := heig k 0
    rw [mulVec_zero] at h1
    dsimp only at h1 ⊢
    linear_combination (-1 : K) * h1
  · intro k
    have h1 := heig k 1
    rw [mulVec_one] at h1
    dsimp only at h1 ⊢
    linear_combination (-1 : K) * h1
  · intro k
    have h1 := hunit k
    simp only [dot] at h1
    dsimp only
    linear_combination h1
  · intro k l hkl
    have h1 := horth k l hkl
    simp only [dot] at h1
    dsimp only
    linear_combination h1

/-- On a diagonal tensor `diagonal_solver` meets the assumptions made of the solver. -/
theorem diagonal_solver_spec (S : SymmetricTensor K) (h01 : S.c01 = 0) (h02 : S.c02 = 0)
    (h12 : S.c12 = 0) : EigenSolverAt diagonal_solver S := by
  constructor
  · intro k i
    unfold diagonal_solver
    split_ifs <;> fin_cases k <;> fin_cases i <;>
      simp [SymmetricTensor.mulVec, SymmetricTensor.entry, h01, h02, h12, Matrix.vecHead,
        Matrix.vecTail]
  · intro k
    unfold diagonal_solver
    split_ifs <;> fin_cases k <;> simp [dot, Matrix.vecHead, Matrix.vecTail]
  · intro k l hkl
    unfold diagonal_solver
    split_ifs <;> fin_cases k <;> fin_cases l <;>
      simp [dot, Matrix.vecHead, Matrix.vecTail] at hkl ⊢
  · unfold diagonal_solver
    split_ifs <;> simp <;> constructor <;> linarith

/-- The quadratic form of an accumulator: `x . (S x)` is the start value plus the sum over
the grains of the squared scalar product of the row with `x`. -/
theorem quadratic_form_loop (r : Fin 3) (x : Tensor1 K) (ms : List (Tensor2 K)) :
    ∀ S : SymmetricTensor K,
    dot x ((sum_matrix_loop r S ms).mulVec x)
      = dot x (S.mulVec x) + (ms.map (fun m => dot (m r) x ^ 2)).sum := by
  induction ms with
  | nil => intro S; simp [sum_matrix_loop]
  | cons m ms ih =>
    intro S
    rw [sum_matrix_loop, ih]
    simp only [dot, mulVec_zero, mulVec_one, mulVec_two, add_grain, List.map_cons,
      List.sum_cons]
    ring

/-- Every accumulated tensor is positive semidefinite. -/
theorem quadratic_form_nonneg (r : Fin 3) (x : Tensor1 K) (ms : List (Tensor2 K)) :
    0 ≤ dot x ((sum_matrix r ms).mulVec x) := by
  rw [sum_matrix, quadratic_form_loop]
  have h0 : dot x ((SymmetricTensor.zero : SymmetricTensor K).mulVec x) = 0 := by
    simp only [dot, mulVec_zero, mulVec_one, mulVec_two, SymmetricTensor.zero]
    ring
  rw [h0, zero_add]
  apply List.sum_nonneg
  intro y hy
  obtain ⟨m, _, rfl⟩ := List.mem_map.1 hy
  exact sq_nonneg _

/-- A symmetric tensor is self-adjoint for the scalar product. -/
theorem mulVec_symmetric (S : SymmetricTensor K) (x y : Tensor1 K) :
    dot (S.mulVec x) y = dot x (S.mulVec y) := by
  simp only [dot, mulVec_zero, mulVec_one, mulVec_two]
  ring

/-- A vector orthogonal to three mutually orthogonal unit vectors is zero. -/
theorem orthonormal_complete (v : Fin 3 → Tensor1 K) (hunit : ∀ k, dot (v k) (v k) = 1)
    (horth : ∀ k l, k ≠ l → dot (v k) (v l) = 0) (x : Tensor1 K)
    (hx : ∀ k, dot (v k) x = 0) : x = 0 := by
  have h1 : (Matrix.of v) * (Matrix.of v).transpose = (1 : Matrix (Fin 3) (Fin 3) K) := by
    ext k l
    rw [Matrix.mul_apply, Fin.sum_univ_three, Matrix.one_apply]
    simp only [Matrix.transpose_apply, Matrix.of_apply]
    by_cases hkl : k = l
    · subst hkl
      rw [if_pos rfl]
      exact hunit k
    · rw [if_neg hkl]
      exact horth k l hkl
  have h2 : (Matrix.of v).transpose * (Matrix.of v) = (1 : Matrix (Fin 3) (Fin 3) K) :=
    Matrix.mul_eq_one_comm.1 h1
  have h3 : (Matrix.of v).mulVec x = 0 := by
    funext k
    rw [Matrix.mulVec, Matrix.dotProduct, Fin.sum_univ_three]
    simp only [Matrix.of_apply]
    exact hx k
  calc x = (1 : Matrix (Fin 3) (Fin 3) K).mulVec x := (Matrix.one_mulVec x).symm
    _ = ((Matrix.of v).transpose * (Matrix.of v)).mulVec x := by rw [h2]
    _ = (Matrix.of v).transpose.mulVec ((Matrix.of v).mulVec x) :=
      (Matrix.mulVec_mulVec x _ _).symm
    _ = 0 := by rw [h3, Matrix.mulVec_zero]

/-- Every eigenvalue of a tensor is among the three eigenvalues an orthonormal
eigen-decomposition reports. -/
theorem eigenvalue_reported (eigenvectors : SymmetricTensor K → Fin 3 → K × Tensor1 K)
    (S : SymmetricTensor K) (h : EigenSolverAt eigenvectors S) (mu : K) (x : Tensor1 K)
    (hx : x ≠ 0) (hmu : ∀ i, S.mulVec x i = mu * x i) :
    ∃ k, mu = (eigenvectors S k).1 := by
  by_contra hcon
  push_neg at hcon
  apply hx
  apply orthonormal_complete (fun k => (eigenvectors S k).2) h.unit h.orthogonal x
  intro k
  have h1 := mulVec_symmetric S (eigenvectors S k).2 x
  have h2 : dot (S.mulVec (eigenvectors S k).2) x
      = (eigenvectors S k).1 * dot (eigenvectors S k).2 x := by
    simp only [dot, h.eigen k]
    ring
  have h3 : dot (eigenvectors S k).2 (S.mulVec x) = mu * dot (eigenvectors S k).2 x := by
    simp only [dot, hmu]
    ring
  rw [h2, h3] at h1
  have h4 : (mu - (eigenvectors S k).1) * dot (eigenvectors S k).2 x = 0 := by
    linear_combination (-1 : K) * h1
  rcases mul_eq_zero.1 h4 with h5 | h5
  · exact absurd (sub_eq_zero.1 h5) (hcon k)
  · exact h5

/-- Every eigenvalue of an accumulated tensor is non-negative. -/
theorem eigenvalue_nonneg (r : Fin 3) (ms : List (Tensor2 K)) (mu : K) (x : Tensor1 K)
    (hx : x ≠ 0) (hmu : ∀ i, (sum_matrix r ms).mulVec x i = mu * x i) : 0 ≤ mu := by
  have h1 := quadratic_form_nonneg r x ms
  have h2 : dot x ((sum_matrix r ms).mulVec x) = mu * dot x x := by
    simp only [dot, hmu]
    ring
  rw [h2] at h1
  have h3 : 0 < dot x x := by
    have hne : ∃ i, x i ≠ 0 := by
      by_contra hall
      push_neg at hall
      exact hx (funext hall)
    obtain ⟨i, hi⟩ := hne
    have hsq := mul_self_pos.2 hi
    simp only [dot]
    fin_cases i
    · have := mul_self_nonneg (x 1); have := mul_self_nonneg (x 2)
      simp only [Fin.zero_eta] at hsq
      linarith
    · have := mul_self_nonneg (x 0); have := mul_self_nonneg (x 2)
      simp only [Fin.mk_one] at hsq
      linarith
    · have := mul_self_nonneg (x 0); have := mul_self_nonneg (x 1)
      have hsq2 : 0 < x 2 * x 2 := hsq
      linarith
  by_contra hneg
  have := mul_neg_of_neg_of_pos (not_le.1 hneg) h3
  linarith

end AveragerLemmas

section OrchestratorLemmas

variable {K : Type} [LinearOrderedField K] {σ : Type}

omit [LinearOrderedField K] in
/-- The effect of the write loops: the length of the data is unchanged, the entries outside
the written range are unchanged, and the `t`-th pair visited is written at offset
`counter + t`. -/
theorem write_loop_some (base : Nat) (avg : Fin 3 → Fin 3 → K) :
    ∀ (lst : List (Fin 3 × Fin 3)) (c : Nat) (data data1 : List K),
    write_loop base avg lst c data = some data1 →
    data1.length = data.length ∧
      (∀ idx, idx < base + c ∨ base + c + lst.length ≤ idx → data1[idx]? = data[idx]?) ∧
      (∀ (t : Nat) (ij : Fin 3 × Fin 3), lst[t]? = some ij →
        data1[base + c + t]? = some (avg ij.1 ij.2)) := by
  intro lst
  induction lst with
  | nil =>
    intro c data data1 h
    simp only [write_loop, Option.some.injEq] at h
    subst h
    exact ⟨rfl, fun _ _ => rfl, fun t ij ht => by simp at ht⟩
  | cons ij rest ih =>
    intro c data data1 h
    rw [write_loop] at h
    split at h
    · rename_i hlt
      obtain ⟨h1, h2, h3⟩ := ih (c + 1) _ data1 h
      refine ⟨by rw [h1, List.length_set], ?_, ?_⟩
      · intro idx hidx
        rw [h2 idx (by simp only [List.length_cons] at hidx; omega)]
        exact List.getElem?_set_ne (by simp only [List.length_cons] at hidx; omega)
      · intro t ij1 ht
        cases t with
        | zero =>
          simp only [List.getElem?_cons_zero, Option.some.injEq] at ht
          subst ht
          rw [Nat.add_zero, h2 (base + c) (Or.inl (by omega))]
          exact List.getElem?_set_self hlt
        | succ t =>
          simp only [List.getElem?_cons_succ] at ht
          have := h3 t ij1 ht
          rw [show base + c + (t + 1) = base + (c + 1) + t by omega]
          exact this
    · cases h

omit [LinearOrderedField K] in
/-- The write loops complete when the written range lies inside the data. -/
theorem write_loop_total (base : Nat) (avg : Fin 3 → Fin 3 → K) :
    ∀ (lst : List (Fin 3 × Fin 3)) (c : Nat) (data : List K),
    base + c + lst.length ≤ data.length → ∃ data1, write_loop base avg lst c data = some data1 := by
  intro lst
  induction lst with
  | nil => intro c data _; exact ⟨data, rfl⟩
  | cons ij rest ih =>
    intro c data h
    simp only [List.length_cons] at h
    rw [write_loop, if_pos (by omega)]
    exact ih (c + 1) _ (by rw [List.length_set]; omega)

/-- The nested loops visit the pair `(i, j)` as their `3*i + j`-th pair. -/
theorem loop_order_getElem? : ∀ i j : Fin 3, loop_order[3 * i.val + j.val]? = some (i, j) := by
  decide

/-- One iteration of the loop over the minerals. -/
theorem update_loop_succ (P : Plugin K σ) (dp k a : Nat) (data data1 : List K) (gen gen1 : σ)
    (w : List (Tensor2 K))
    (h1 : random_draw_volume_weighting P.next P.n_grains (volume_fractions_grains P data a)
      (rotation_matrices_grains P data a) P.n_samples gen = some (w, gen1))
    (h2 : write_loop (dp + a * 9) (compute_bingham_average P.eigenvectors w) loop_order 0 data
      = some data1) :
    update_loop P dp (k + 1) a data gen = update_loop P dp k (a + 1) data1 gen1 := by
  rw [update_loop, h1]
  simp only
  rw [h2]

/-- Every completed iteration of the loop over the minerals consists of a completed
resampling and completed write loops. -/
theorem update_loop_inv (P : Plugin K σ) (dp k a : Nat) (data data2 : List K) (gen gen2 : σ)
    (h : update_loop P dp (k + 1) a data gen = some (data2, gen2)) :
    ∃ (w : List (Tensor2 K)) (gen1 : σ) (data1 : List K),
      random_draw_volume_weighting P.next P.n_grains (volume_fractions_grains P data a)
        (rotation_matrices_grains P data a) P.n_samples gen = some (w, gen1) ∧
      write_loop (dp + a * 9) (compute_bingham_average P.eigenvectors w) loop_order 0 data
        = some data1 ∧
      update_loop P dp k (a + 1) data1 gen1 = some (data2, gen2) := by
  rw [update_loop] at h
  cases h1 : random_draw_volume_weighting P.next P.n_grains (volume_fractions_grains P data a)
      (rotation_matrices_grains P data a) P.n_samples gen with
  | none => rw [h1] at h; cases h
  | some wg =>
    obtain ⟨w, gen1⟩ := wg
    rw [h1] at h
    simp only at h
    cases h2 : write_loop (dp + a * 9) (compute_bingham_average P.eigenvectors w) loop_order 0
        data with
    | none => rw [h2] at h; cases h
    | some data1 =>
      rw [h2] at h
      exact ⟨w, gen1, data1, rfl, h2, h⟩

/-- The loop over the minerals `a, a+1, ...` keeps the length of the data and every entry
below the block of mineral `a`. -/
theorem update_loop_frame_below (P : Plugin K σ) (dp : Nat) : ∀ (k a : Nat) (data data2 : List K)
    (gen gen2 : σ), update_loop P dp k a data gen = some (data2, gen2) →
    data2.length = data.length ∧ ∀ idx, idx < dp + a * 9 → data2[idx]? = data[idx]? := by
  intro k
  induction k with
  | zero =>
    intro a data data2 gen gen2 h
    simp only [update_loop, Option.some.injEq, Prod.mk.injEq] at h
    rw [← h.1]
    exact ⟨rfl, fun _ _ => rfl⟩
  | succ k ih =>
    intro a data data2 gen gen2 h
    obtain ⟨w, gen1, data1, _, h2, h3⟩ := update_loop_inv P dp k a data data2 gen gen2 h
    obtain ⟨h4, h5⟩ := ih (a + 1) data1 data2 gen1 gen2 h3
    obtain ⟨h6, h7, _⟩ := write_loop_some _ _ _ _ _ _ h2
    refine ⟨by rw [h4, h6], ?_⟩
    intro idx hidx
    rw [h5 idx (by omega), h7 idx (Or.inl (by omega))]

/-- The entries written for mineral `m` by the loop over the minerals `a, a+1, ...`. -/
theorem update_loop_writes (P : Plugin K σ) (dp : Nat) : ∀ (k a : Nat) (data data2 : List K)
    (gen gen2 : σ), update_loop P dp k a data gen = some (data2, gen2) →
    ∀ m, a ≤ m → m < a + k →
    ∃ (data_m : List K) (gen_m : σ) (w : List (Tensor2 K)) (gen_m1 : σ),
      update_loop P dp (m - a) a data gen = some (data_m, gen_m) ∧
      random_draw_volume_weighting P.next P.n_grains (volume_fractions_grains P data_m m)
        (rotation_matrices_grains P data_m m) P.n_samples gen_m = some (w, gen_m1) ∧
      ∀ i j : Fin 3, data2[dp + 9 * m + 3 * i.val + j.val]?
        = some (compute_bingham_average P.eigenvectors w i j) := by
  intro k
  induction k with
  | zero => intro a data data2 gen gen2 _ m h1 h2; omega
  | succ k ih =>
    intro a data data2 gen gen2 h m hm1 hm2
    obtain ⟨w, gen1, data1, h1, h2, h3⟩ := update_loop_inv P dp k a data data2 gen gen2 h
    rcases Nat.eq_or_lt_of_le hm1 with hma | hma
    · subst hma
      refine ⟨data, gen, w, gen1, by rw [Nat.sub_self]; rfl, h1, ?_⟩
      intro i j
      obtain ⟨_, h5⟩ := update_loop_frame_below P dp k (a + 1) data1 data2 gen1 gen2 h3
      obtain ⟨_, _, h8⟩ := write_loop_some _ _ _ _ _ _ h2
      have hi := i.isLt
      have hj := j.isLt
      rw [h5 _ (by omega)]
      have := h8 (3 * i.val + j.val) (i, j) (loop_order_getElem? i j)
      rw [show dp + 9 * a + 3 * i.val + j.val = dp + a * 9 + 0 + (3 * i.val + j.val) by omega]
      exact this
    · obtain ⟨data_m, gen_m, wm, gen_m1, h4, h5, h6⟩ :=
        ih (a + 1) data1 data2 gen1 gen2 h3 m (by omega) (by omega)
      refine ⟨data_m, gen_m, wm, gen_m1, ?_, h5, h6⟩
      rw [show m - a = (m - (a + 1)) + 1 by omega, update_loop_succ P dp _ a data data1 gen gen1 w h1 h2]
      exact h4

/-- The loop over the minerals completes when the resampling completes for every mineral
and the blocks to be written lie inside the data. -/
theorem update_loop_total (P : Plugin K σ) (dp : Nat) (len : Nat)
    (hdraw : ∀ (d : List K) (g : σ) (m : Nat), d.length = len →
      (random_draw_volume_weighting P.next P.n_grains (volume_fractions_grains P d m)
        (rotation_matrices_grains P d m) P.n_samples g).isSome) :
    ∀ (k a : Nat) (data : List K) (gen : σ), data.length = len → dp + (a + k) * 9 ≤ len →
    (update_loop P dp k a data gen).isSome := by
  intro k
  induction k with
  | zero => intro a data gen _ _; rfl
  | succ k ih =>
    intro a data gen hlen hle
    have h1 := hdraw data gen a hlen
    obtain ⟨wg, h2⟩ := Option.isSome_iff_exists.1 h1
    obtain ⟨w, gen1⟩ := wg
    obtain ⟨data1, h3⟩ := write_loop_total (dp + a * 9)
      (compute_bingham_average P.eigenvectors w) loop_order 0 data
      (by simp only [loop_order, List.length_cons, List.length_nil]; omega)
    rw [update_loop_succ P dp k a data data1 gen gen1 w h2 h3]
    obtain ⟨h4, _, _⟩ := write_loop_some _ _ _ _ _ _ h3
    exact ih (a + 1) data1 gen1 (by rw [h4, hlen]) (by omega)

/-- The loop of `get_property_information`: three entries per mineral, appended behind the
entries already present, in the order of the minerals. -/
theorem property_information_loop_spec : ∀ (k a : Nat) (acc : List (String × Nat)),
    (property_information_loop k a acc).length = acc.length + 3 * k ∧
    (∀ idx, idx < acc.length → (property_information_loop k a acc)[idx]? = acc[idx]?) ∧
    (∀ m t, a ≤ m → m < a + k → t < 3 →
      (property_information_loop k a acc)[acc.length + 3 * (m - a) + t]?
        = (mineral_properties m)[t]?) ∧
    ((∀ e ∈ acc, e.2 = 3) → ∀ e ∈ property_information_loop k a acc, e.2 = 3) := by
  intro k
  induction k with
  | zero =>
    intro a acc
    refine ⟨rfl, fun _ _ => rfl, ?_, fun h => h⟩
    intro m t h1 h2 _
    omega
  | succ k ih =>
    intro a acc
    have hstep : property_information_loop (k + 1) a acc
        = property_information_loop k (a + 1) (acc ++ mineral_properties a) := rfl
    have hlen : (acc ++ mineral_properties a).length = acc.length + 3 := by
      simp [mineral_properties]
    obtain ⟨h1, h2, h3, h4⟩ := ih (a + 1) (acc ++ mineral_properties a)
    rw [hstep]
    refine ⟨by rw [h1, hlen]; omega, ?_, ?_, ?_⟩
    · intro idx hidx
      rw [h2 idx (by omega), List.getElem?_append_left hidx]
    · intro m t hm1 hm2 ht
      rcases Nat.eq_or_lt_of_le hm1 with hma | hma
      · subst hma
        rw [Nat.sub_self, Nat.mul_zero, Nat.add_zero, h2 _ (by omega),
          List.getElem?_append_right (by omega)]
        congr 1
        omega
      · have := h3 m t (by omega) (by omega) ht
        rw [hlen] at this
        rw [show acc.length + 3 * (m - a) + t = acc.length + 3 + 3 * (m - (a + 1)) + t by omega]
        exact this
    · intro hacc
      apply h4
      intro e he
      rcases List.mem_append.1 he with h | h
      · exact hacc e h
      · simp only [mineral_properties, List.mem_cons, List.mem_singleton, List.mem_nil_iff,
          or_false] at h
        rcases h with rfl | rfl | rfl <;> rfl

omit [LinearOrderedField K] in
/-- The append loops add the visited components behind the data. -/
theorem append_loop_eq (avg : Fin 3 → Fin 3 → K) : ∀ (lst : List (Fin 3 × Fin 3))
    (data : List K), append_loop avg lst data = data ++ lst.map (fun ij => avg ij.1 ij.2) := by
  intro lst
  induction lst with
  | nil => intro data; simp [append_loop]
  | cons ij rest ih => intro data; simp [append_loop, ih]

omit [LinearOrderedField K] in
/-- The effect of the append loops of `initialize_one_particle_property` for one mineral. -/
theorem append_loop_order (avg : Fin 3 → Fin 3 → K) (data : List K) :
    (append_loop avg loop_order data).length = data.length + 9 ∧
    (∀ idx, idx < data.length → (append_loop avg loop_order data)[idx]? = data[idx]?) ∧
    (∀ i j : Fin 3,
      (append_loop avg loop_order data)[data.length + 3 * i.val + j.val]? = some (avg i j)) := by
  rw [append_loop_eq]
  refine ⟨by simp [loop_order], fun idx hidx => List.getElem?_append_left hidx, ?_⟩
  intro i j
  have hi := i.isLt
  have hj := j.isLt
  rw [show data.length + 3 * i.val + j.val = data.length + (3 * i.val + j.val) by omega,
    List.getElem?_append_right (by omega), Nat.add_sub_cancel_left, List.getElem?_map,
    loop_order_getElem? i j]
  rfl

/-- Every completed iteration of the mineral loop of `initialize_one_particle_property`. -/
theorem initialize_loop_inv (P : Plugin K σ) (k a : Nat) (data data2 : List K) (gen gen2 : σ)
    (h : initialize_loop P (k + 1) a data gen = some (data2, gen2)) :
    ∃ (w : List (Tensor2 K)) (gen1 : σ),
      random_draw_volume_weighting P.next P.n_grains (volume_fractions_grains P data a)
        (rotation_matrices_grains P data a) P.n_samples gen = some (w, gen1) ∧
      initialize_loop P k (a + 1)
        (append_loop (compute_bingham_average P.eigenvectors w) loop_order data) gen1
        = some (data2, gen2) := by
  rw [initialize_loop] at h
  cases h1 : random_draw_volume_weighting P.next P.n_grains (volume_fractions_grains P data a)
      (rotation_matrices_grains P data a) P.n_samples gen with
  | none => rw [h1] at h; cases h
  | some wg =>
    obtain ⟨w, gen1⟩ := wg
    rw [h1] at h
    exact ⟨w, gen1, rfl, h⟩

/-- One iteration of the mineral loop of `initialize_one_particle_property`. -/
theorem initialize_loop_succ (P : Plugin K σ) (k a : Nat) (data : List K) (gen gen1 : σ)
    (w : List (Tensor2 K))
    (h1 : random_draw_volume_weighting P.next P.n_grains (volume_fractions_grains P data a)
      (rotation_matrices_grains P data a) P.n_samples gen = some (w, gen1)) :
    initialize_loop P (k + 1) a data gen
      = initialize_loop P k (a + 1)
          (append_loop (compute_bingham_average P.eigenvectors w) loop_order data) gen1 := by
  rw [initialize_loop, h1]

/-- The mineral loop of `initialize_one_particle_property` appends nine entries per mineral and
keeps the entries already present. -/
theorem initialize_loop_prefix (P : Plugin K σ) : ∀ (k a : Nat) (data data2 : List K)
    (gen gen2 : σ), initialize_loop P k a data gen = some (data2, gen2) →
    data2.length = data.length + 9 * k ∧
      ∀ idx, idx < data.length → data2[idx]? = data[idx]? := by
  intro k
  induction k with
  | zero =>
    intro a data data2 gen gen2 h
    simp only [initialize_loop, Option.some.injEq, Prod.mk.injEq] at h
    rw [← h.1]
    exact ⟨rfl, fun _ _ => rfl⟩
  | succ k ih =>
    intro a data data2 gen gen2 h
    obtain ⟨w, gen1, _, h2⟩ := initialize_loop_inv P k a data data2 gen gen2 h
    obtain ⟨h3, h4⟩ := ih (a + 1) _ data2 gen1 gen2 h2
    obtain ⟨h5, h6, _⟩ :=
      append_loop_order (compute_bingham_average P.eigenvectors w) data
    refine ⟨by rw [h3, h5]; omega, ?_⟩
    intro idx hidx
    rw [h4 idx (by omega), h6 idx hidx]

/-- The entries appended for mineral `m` by the mineral loop of
`initialize_one_particle_property` started at mineral `a`. -/
theorem initialize_loop_writes (P : Plugin K σ) : ∀ (k a : Nat) (data data2 : List K)
    (gen gen2 : σ), initialize_loop P k a data gen = some (data2, gen2) →
    ∀ m, a ≤ m → m < a + k →
    ∃ (data_m : List K) (gen_m : σ) (w : List (Tensor2 K)) (gen_m1 : σ),
      initialize_loop P (m - a) a data gen = some (data_m, gen_m) ∧
      random_draw_volume_weighting P.next P.n_grains (volume_fractions_grains P data_m m)
        (rotation_matrices_grains P data_m m) P.n_samples gen_m = some (w, gen_m1) ∧
      ∀ i j : Fin 3, data2[data.length + 9 * (m - a) + 3 * i.val + j.val]?
        = some (compute_bingham_average P.eigenvectors w i j) := by
  intro k
  induction k with
  | zero => intro a data data2 gen gen2 _ m h1 h2; omega
  | succ k ih =>
    intro a data data2 gen gen2 h m hm1 hm2
    obtain ⟨w, gen1, h1, h2⟩ := initialize_loop_inv P k a data data2 gen gen2 h
    obtain ⟨h5, _, h7⟩ :=
      append_loop_order (compute_bingham_average P.eigenvectors w) data
    rcases Nat.eq_or_lt_of_le hm1 with hma | hma
    · subst hma
      refine ⟨data, gen, w, gen1, by rw [Nat.sub_self]; rfl, h1, ?_⟩
      intro i j
      obtain ⟨_, h4⟩ := initialize_loop_prefix P k (a + 1) _ data2 gen1 gen2 h2
      have hi := i.isLt
      have hj := j.isLt
      rw [Nat.sub_self, Nat.mul_zero, Nat.add_zero, h4 _ (by omega)]
      exact h7 i j
    · obtain ⟨data_m, gen_m, wm, gen_m1, h8, h9, h10⟩ :=
        ih (a + 1) _ data2 gen1 gen2 h2 m (by omega) (by omega)
      refine ⟨data_m, gen_m, wm, gen_m1, ?_, h9, ?_⟩
      · rw [show m - a = (m - (a + 1)) + 1 by omega, initialize_loop_succ P _ a data gen gen1 w h1]
        exact h8
      · intro i j
        have := h10 i j
        rw [h5] at this
        rw [show data.length + 9 * (m - a) + 3 * i.val + j.val
          = data.length + 9 + 9 * (m - (a + 1)) + 3 * i.val + j.val by omega]
        exact this

/-- The mineral loop of `initialize_one_particle_property` completes when the resampling
completes for every mineral. -/
theorem initialize_loop_total (P : Plugin K σ)
    (hdraw : ∀ (d : List K) (g : σ) (m : Nat),
      (random_draw_volume_weighting P.next P.n_grains (volume_fractions_grains P d m)
        (rotation_matrices_grains P d m) P.n_samples g).isSome) :
    ∀ (k a : Nat) (data : List K) (gen : σ), (initialize_loop P k a data gen).isSome := by
  intro k
  induction k with
  | zero => intro a data gen; rfl
  | succ k ih =>
    intro a data gen
    obtain ⟨wg, h2⟩ := Option.isSome_iff_exists.1 (hdraw data gen a)
    obtain ⟨w, gen1⟩ := wg
    rw [initialize_loop_succ P k a data gen gen1 w h2]
    exact ih (a + 1) _ gen1

/-- The loop over the minerals `a, ..., a+k-1` of `update_one_particle_property` keeps the
length of the data and every entry outside the blocks of these minerals. -/
theorem update_loop_frame (P : Plugin K σ) (dp : Nat) : ∀ (k a : Nat) (data data2 : List K)
    (gen gen2 : σ), update_loop P dp k a data gen = some (data2, gen2) →
    data2.length = data.length ∧
      ∀ idx, idx < dp + a * 9 ∨ dp + (a + k) * 9 ≤ idx → data2[idx]? = data[idx]? := by
  intro k
  induction k with
  | zero =>
    intro a data data2 gen gen2 h
    simp only [update_loop, Option.some.injEq, Prod.mk.injEq] at h
    rw [← h.1]
    exact ⟨rfl, fun _ _ => rfl⟩
  | succ k ih =>
    intro a data data2 gen gen2 h
    obtain ⟨w, gen1, data1, _, h2, h3⟩ := update_loop_inv P dp k a data data2 gen gen2 h
    obtain ⟨h4, h5⟩ := ih (a + 1) data1 data2 gen1 gen2 h3
    obtain ⟨h6, h7, _⟩ := write_loop_some _ _ _ _ _ _ h2
    refine ⟨by rw [h4, h6], ?_⟩
    intro idx hidx
    have hlo : loop_order.length = 9 := rfl
    rw [h5 idx (by omega), h7 idx (by rw [hlo]; omega)]

end OrchestratorLemmas

section RoundingLemmas

variable {K : Type} [LinearOrderedField K] {T : Type} {σ : Type}

/-- Without rounding the rounded running sums are the exact ones. -/
theorem partial_sum_from_rounded_id (acc : K) (xs : List K) :
    partial_sum_from_rounded id acc xs = partial_sum_from acc xs := by
  induction xs generalizing acc with
  | nil => rfl
  | cons x xs ih =>
    rw [partial_sum_from_rounded, partial_sum_from, ih]
    rfl

/-- Without rounding `partial_sum_rounded` is `partial_sum`. -/
theorem partial_sum_rounded_id (xs : List K) : partial_sum_rounded id xs = partial_sum xs := by
  cases xs with
  | nil => rfl
  | cons x xs => rw [partial_sum_rounded, partial_sum, partial_sum_from_rounded_id]

/-- Without rounding `random_draw_volume_weighting_rounded` is
`random_draw_volume_weighting`. -/
theorem random_draw_volume_weighting_rounded_id (next : σ → K × σ) (n_grains : Nat)
    (fv : List K) (matrices : List T) (n_output_grains : Nat) (gen : σ) :
    random_draw_volume_weighting_rounded id next n_grains fv matrices n_output_grains gen
      = random_draw_volume_weighting next n_grains fv matrices n_output_grains gen := by
  simp only [random_draw_volume_weighting_rounded, random_draw_volume_weighting,
    cum_weight_rounded, cum_weight, partial_sum_rounded_id]

/-- Without rounding `add_grain_rounded` is `add_grain`. -/
theorem add_grain_rounded_id (r : Fin 3) (S : SymmetricTensor K) (m : Tensor2 K) :
    add_grain_rounded id r S m = add_grain r S m := rfl

/-- Without rounding the rounded accumulation loop is the exact one. -/
theorem sum_matrix_loop_rounded_id (r : Fin 3) (matrices : List (Tensor2 K)) :
    ∀ S : SymmetricTensor K,
      sum_matrix_loop_rounded id r S matrices = sum_matrix_loop r S matrices := by
  induction matrices with
  | nil => intro S; rfl
  | cons m rest ih =>
    intro S
    rw [sum_matrix_loop_rounded, sum_matrix_loop, add_grain_rounded_id, ih]

/-- Without rounding `sum_matrix_rounded` is `sum_matrix`. -/
theorem sum_matrix_rounded_id (r : Fin 3) (matrices : List (Tensor2 K)) :
    sum_matrix_rounded id r matrices = sum_matrix r matrices :=
  sum_matrix_loop_rounded_id r matrices SymmetricTensor.zero

/-- A draw above the total of non-negative weights is above every cumulative weight: the
inner loop ends with `counter = n_grains` and the read of `matrices_sorted[n_grains]` is out
of range. -/
theorem draw_above_total (next : σ → K × σ) (n_grains : Nat) (fv : List K)
    (matrices : List T) (M : Nat) (gen : σ) (hlenf : fv.length = n_grains)
    (hlenm : matrices.length = n_grains) (hnn : ∀ w ∈ fv, 0 ≤ w) (u : K)
    (hu : u ∈ (draw_idxgrain next M gen).1) (hgt : fv.sum < u) :
    ∃ s : SortState K T,
      sort_loop matrices fv.length ⟨fv, fv, matrices⟩ = some s ∧
      cum_weight n_grains s.fv_sorted = some (partial_sum s.fv_sorted) ∧
      s.fv_sorted.Perm fv ∧
      counter_loop (partial_sum s.fv_sorted) u n_grains 0 0 = some n_grains ∧
      s.matrices_sorted[n_grains]? = none ∧
      random_draw_volume_weighting next n_grains fv matrices M gen = none := by
  obtain ⟨s, p, h1, h2, h3, h4, _⟩ :=
    sort_loop_spec fv matrices hnn (by rw [hlenm, hlenf])
  have hperm : s.fv_sorted.Perm fv := by rw [h3]; exact sorted_perm fv p h2
  have hnnws : ∀ w ∈ s.fv_sorted, 0 ≤ w := fun w hw => hnn w (hperm.mem_iff.1 hw)
  have hlenws : s.fv_sorted.length = n_grains := by rw [hperm.length_eq, hlenf]
  have hms : s.matrices_sorted.length = (partial_sum s.fv_sorted).length := by
    have h6 := congrArg List.length h4
    have h7 := h2.length_eq
    simp only [List.length_map, List.length_range] at h6 h7
    rw [partial_sum_length]
    omega
  have hall : ∀ c ∈ partial_sum s.fv_sorted, c < u := by
    intro c hc
    obtain ⟨i, hi⟩ := List.mem_iff_getElem?.1 hc
    have hil : i < s.fv_sorted.length := by
      rcases List.getElem?_eq_some_iff.1 hi with ⟨h, _⟩
      rwa [partial_sum_length] at h
    rw [partial_sum_getElem? _ i hil] at hi
    cases hi
    have h8 := take_sum_mono s.fv_sorted hnnws (i + 1) s.fv_sorted.length (by omega)
    rw [List.take_length, hperm.sum_eq] at h8
    exact lt_of_le_of_lt h8 hgt
  have hsel := select_matrix_above (partial_sum s.fv_sorted) s.matrices_sorted u hms hall
  rw [partial_sum_length, hlenws] at hsel
  refine ⟨s, h1, cum_weight_eq n_grains s.fv_sorted hlenws, hperm, hsel.1,
    List.getElem?_eq_none (by rw [hms, partial_sum_length, hlenws]), ?_⟩
  rw [random_draw_volume_weighting, h1]
  simp only
  rw [cum_weight_eq n_grains s.fv_sorted hlenws]
  simp only
  rw [select_loop_none n_grains _ _ u hsel.2 _ hu]

/-- Values of `round_double`: the doubles nearest to 1/13, 0.28 and 0.96; 1 and the greatest
double below 1 are doubles; `1 + 2^-53` and `1 + 3 * 2^-53` lie half way between two doubles
and go to the one with the even last digit. -/
theorem round_double_examples :
    round_double (1/13) = 5542891849071380 / 2 ^ 56 ∧
    round_double (28/100) = 1261007895663739 / 2 ^ 52 ∧
    round_double (96/100) = 1080863910568919 / 2 ^ 50 ∧
    round_double 1 = 1 ∧ round_double (1 - 1 / 2 ^ 53) = 1 - 1 / 2 ^ 53 ∧
    round_double (1 + 1 / 2 ^ 53) = 1 ∧ round_double (1 + 3 / 2 ^ 53) = 1 + 1 / 2 ^ 51 := by
  decide!

/-- The accumulator of row 0 for the single grain `rounded_rotation_matrix`, in `double`
arithmetic: the rounded squares and the rounded product of 0.28 and 0.96. -/
theorem rounded_rotation_accumulator :
    (sum_matrix_rounded round_double 0 [rounded_rotation_matrix]).c00
      = 5649315372573551 / 2 ^ 56 ∧
    (sum_matrix_rounded round_double 0 [rounded_rotation_matrix]).c11
      = 4150517416584649 / 2 ^ 52 ∧
    (sum_matrix_rounded round_double 0 [rounded_rotation_matrix]).c01
      = 2421135159674379 / 2 ^ 53 ∧
    (sum_matrix_rounded round_double 0 [rounded_rotation_matrix]).c22 = 0 ∧
    (sum_matrix_rounded round_double 0 [rounded_rotation_matrix]).c02 = 0 ∧
    (sum_matrix_rounded round_double 0 [rounded_rotation_matrix]).c12 = 0 := by
  decide!

/-- Rounding to the nearest integer keeps non-negative numbers non-negative. -/
theorem round_half_even_nonneg (t : ℚ) (h : 0 ≤ t) : 0 ≤ round_half_even t := by
  have hf : 0 ≤ ⌊t⌋ := Int.floor_nonneg.2 h
  unfold round_half_even
  split_ifs <;> omega

/-- Rounding to `double` keeps non-negative numbers non-negative. -/
theorem round_double_nonneg (q : ℚ) (h : 0 ≤ q) : 0 ≤ round_double q := by
  unfold round_double
  split_ifs with h0
  · exact le_refl 0
  · have hp : (0 : ℚ) < 2 ^ (binary_exponent q - 52) := zpow_pos (by norm_num) _
    have h1 : 0 ≤ round_half_even (q / 2 ^ (binary_exponent q - 52)) :=
      round_half_even_nonneg _ (div_nonneg h hp.le)
    exact mul_nonneg (by exact_mod_cast h1) hp.le

/-- With a rounding that keeps non-negative numbers non-negative the diagonal components of
the accumulator stay non-negative: every square and every partial sum is non-negative. -/
theorem sum_matrix_loop_rounded_diagonal (fl : K → K) (hfl : ∀ t, 0 ≤ t → 0 ≤ fl t) (r : Fin 3)
    (ms : List (Tensor2 K)) : ∀ S : SymmetricTensor K, 0 ≤ S.c00 → 0 ≤ S.c11 → 0 ≤ S.c22 →
    0 ≤ (sum_matrix_loop_rounded fl r S ms).c00 ∧ 0 ≤ (sum_matrix_loop_rounded fl r S ms).c11 ∧
      0 ≤ (sum_matrix_loop_rounded fl r S ms).c22 := by
  induction ms with
  | nil => intro S h0 h1 h2; exact ⟨h0, h1, h2⟩
  | cons m ms ih =>
    intro S h0 h1 h2
    rw [sum_matrix_loop_rounded]
    exact ih _ (hfl _ (add_nonneg h0 (hfl _ (mul_self_nonneg _))))
      (hfl _ (add_nonneg h1 (hfl _ (mul_self_nonneg _))))
      (hfl _ (add_nonneg h2 (hfl _ (mul_self_nonneg _))))

/-- Three mutually orthogonal unit vectors resolve the identity: the sum over the three
vectors of the products of components `i` and `j` is 1 for `i = j` and 0 otherwise. -/
theorem orthonormal_resolution (v : Fin 3 → Tensor1 K) (hunit : ∀ k, dot (v k) (v k) = 1)
    (horth : ∀ k l, k ≠ l → dot (v k) (v l) = 0) (i j : Fin 3) :
    v 0 i * v 0 j + v 1 i * v 1 j + v 2 i * v 2 j = if i = j then 1 else 0 := by
  have h1 : (Matrix.of v) * (Matrix.of v).transpose = (1 : Matrix (Fin 3) (Fin 3) K) := by
    ext k l
    rw [Matrix.mul_apply, Fin.sum_univ_three, Matrix.one_apply]
    simp only [Matrix.transpose_apply, Matrix.of_apply]
    by_cases hkl : k = l
    · subst hkl
      rw [if_pos rfl]
      exact hunit k
    · rw [if_neg hkl]
      exact horth k l hkl
  have h2 : (Matrix.of v).transpose * (Matrix.of v) = (1 : Matrix (Fin 3) (Fin 3) K) :=
    Matrix.mul_eq_one_comm.1 h1
  have h3 := congrFun (congrFun h2 i) j
  rw [Matrix.mul_apply, Fin.sum_univ_three, Matrix.one_apply] at h3
  simp only [Matrix.transpose_apply, Matrix.of_apply] at h3
  exact h3

/-- A diagonal component `p` of a symmetric tensor with orthonormal eigenvectors is the sum
of the eigenvalues weighted by squared eigenvector components, so it is at most the largest
eigenvalue. -/
theorem rayleigh_bound (p q t l0 l1 l2 x0 x1 x2 y0 y1 y2 z0 z1 z2 : K)
    (e0 : p * x0 + q * y0 + t * z0 = l0 * x0) (e1 : p * x1 + q * y1 + t * z1 = l1 * x1)
    (e2 : p * x2 + q * y2 + t * z2 = l2 * x2) (hxx : x0 * x0 + x1 * x1 + x2 * x2 = 1)
    (hxy : x0 * y0 + x1 * y1 + x2 * y2 = 0) (hxz : x0 * z0 + x1 * z1 + x2 * z2 = 0)
    (h10 : l1 ≤ l0) (h21 : l2 ≤ l1) : p ≤ l0 := by
  have key : l0 - p = (l0 - l1) * (x1 * x1) + (l0 - l2) * (x2 * x2) := by
    linear_combination (-x0) * e0 + (-x1) * e1 + (-x2) * e2 + (p - l0) * hxx + q * hxy
      + t * hxz
  have h1 := mul_nonneg (sub_nonneg.2 h10) (mul_self_nonneg x1)
  have h2 := mul_nonneg (sub_nonneg.2 (le_trans h21 h10)) (mul_self_nonneg x2)
  linarith

/-- The eigenvalue that an orthonormal descending eigen-decomposition reports first is at
least every diagonal component of the tensor. -/
theorem diagonal_le_dominant (eigenvectors : SymmetricTensor K → Fin 3 → K × Tensor1 K)
    (S : SymmetricTensor K) (h : EigenSolverAt eigenvectors S) :
    S.c00 ≤ (eigenvectors S 0).1 ∧ S.c11 ≤ (eigenvectors S 0).1 ∧
      S.c22 ≤ (eigenvectors S 0).1 := by
  have hres := orthonormal_resolution (fun k => (eigenvectors S k).2) h.unit h.orthogonal
  have hd := h.descending
  have e := h.eigen
  have r00 := hres 0 0
  have r01 := hres 0 1
  have r02 := hres 0 2
  have r11 := hres 1 1
  have r12 := hres 1 2
  have r22 := hres 2 2
  have e00 := e 0 0
  have e10 := e 1 0
  have e20 := e 2 0
  have e01 := e 0 1
  have e11 := e 1 1
  have e21 := e 2 1
  have e02 := e 0 2
  have e12 := e 1 2
  have e22 := e 2 2
  rw [mulVec_zero] at e00 e10 e20
  rw [mulVec_one] at e01 e11 e21
  rw [mulVec_two] at e02 e12 e22
  rw [if_pos rfl] at r00 r11 r22
  rw [if_neg (by decide)] at r01 r02 r12
  dsimp only at r00 r01 r02 r11 r12 r22
  refine ⟨?_, ?_, ?_⟩
  · exact rayleigh_bound S.c00 S.c01 S.c02 _ _ _ _ _ _ _ _ _ _ _ _ e00 e10 e20 r00 r01 r02
      hd.1 hd.2
  · exact rayleigh_bound S.c11 S.c01 S.c12 _ _ _
      ((eigenvectors S 0).2 1) ((eigenvectors S 1).2 1) ((eigenvectors S 2).2 1)
      ((eigenvectors S 0).2 0) ((eigenvectors S 1).2 0) ((eigenvectors S 2).2 0)
      ((eigenvectors S 0).2 2) ((eigenvectors S 1).2 2) ((eigenvectors S 2).2 2)
      (by linear_combination e01) (by linear_combination e11) (by linear_combination e21)
      r11 (by linear_combination r01) r12 hd.1 hd.2
  · exact rayleigh_bound S.c22 S.c02 S.c12 _ _ _
      ((eigenvectors S 0).2 2) ((eigenvectors S 1).2 2) ((eigenvectors S 2).2 2)
      ((eigenvectors S 0).2 0) ((eigenvectors S 1).2 0) ((eigenvectors S 2).2 0)
      ((eigenvectors S 0).2 1) ((eigenvectors S 1).2 1) ((eigenvectors S 2).2 1)
      (by linear_combination e02) (by linear_combination e12) (by linear_combination e22)
      r22 (by linear_combination r02) (by linear_combination r12) hd.1 hd.2

/-- The rounded partial sums are as many as the summands. -/
theorem partial_sum_from_rounded_length (fl : K → K) (xs : List K) : ∀ acc : K,
    (partial_sum_from_rounded fl acc xs).length = xs.length := by
  induction xs with
  | nil => intro acc; rfl
  | cons x xs ih => intro acc; simp [partial_sum_from_rounded, ih]

/-- The vector written by the rounded `std::partial_sum` has the length of its input. -/
theorem partial_sum_rounded_length (fl : K → K) (xs : List K) :
    (partial_sum_rounded fl xs).length = xs.length := by
  cases xs with
  | nil => rfl
  | cons x xs => simp [partial_sum_rounded, partial_sum_from_rounded_length]

/-- The selection loop completes when every draw selects an existing entry. -/
theorem select_loop_of_forall (n_grains : Nat) (cw : List K) (ms : List T) : ∀ us : List K,
    (∀ u ∈ us, ∃ m, select_matrix n_grains cw ms u = some m) →
    ∃ out, select_loop n_grains cw ms us = some out ∧ out.length = us.length := by
  intro us
  induction us with
  | nil => intro _; exact ⟨[], rfl, rfl⟩
  | cons u us ih =>
    intro h
    obtain ⟨m, hm⟩ := h u (List.mem_cons_self u us)
    obtain ⟨out, ho, hl⟩ := ih (fun v hv => h v (List.mem_cons_of_mem u hv))
    refine ⟨m :: out, ?_, by simp [hl]⟩
    rw [select_loop, hm, ho]

/-- Index safety with the rounded sums of the program: for non-negative weights and as many
weights and matrices as `n_grains ≥ 1`, the sorting loop completes and `cum_weight` is the
vector of rounded partial sums; when no draw exceeds the last cumulative weight so computed,
the `counter` of every draw is at most `n_grains - 1`, `matrices_sorted[counter]` exists and
the function returns its `n_output_grains` matrices. -/
theorem index_safety_rounded_sums (fl : K → K) (next : σ → K × σ) (n_grains : Nat)
    (fv : List K) (matrices : List T) (n_output_grains : Nat) (gen : σ)
    (hpos : 1 ≤ n_grains) (hlenf : fv.length = n_grains)
    (hlenm : matrices.length = n_grains) (hnn : ∀ w ∈ fv, 0 ≤ w) :
    ∃ s : SortState K T,
      sort_loop matrices fv.length ⟨fv, fv, matrices⟩ = some s ∧
      cum_weight_rounded fl n_grains s.fv_sorted
        = some (partial_sum_rounded fl s.fv_sorted) ∧
      ((∀ u ∈ (draw_idxgrain next n_output_grains gen).1,
          ∃ c, (partial_sum_rounded fl s.fv_sorted)[n_grains - 1]? = some c ∧ u ≤ c) →
        (∀ u ∈ (draw_idxgrain next n_output_grains gen).1,
          ∃ (counter : Nat) (m : T),
            counter_loop (partial_sum_rounded fl s.fv_sorted) u n_grains 0 0 = some counter ∧
            counter ≤ n_grains - 1 ∧ s.matrices_sorted[counter]? = some m) ∧
        ∃ out : List T,
          random_draw_volume_weighting_rounded fl next n_grains fv matrices n_output_grains gen
            = some (out, (draw_idxgrain next n_output_grains gen).2) ∧
          out.length = n_output_grains) := by
  obtain ⟨s, p, h1, h2, h3, h4, _⟩ :=
    sort_loop_spec fv matrices hnn (by rw [hlenm, hlenf])
  have hperm : s.fv_sorted.Perm fv := by rw [h3]; exact sorted_perm fv p h2
  have hlenws : s.fv_sorted.length = n_grains := by rw [hperm.length_eq, hlenf]
  have hms : s.matrices_sorted.length = n_grains := by
    have h6 := congrArg List.length h4
    have h7 := h2.length_eq
    simp only [List.length_map, List.length_range] at h6 h7
    omega
  have hcw : cum_weight_rounded fl n_grains s.fv_sorted
      = some (partial_sum_rounded fl s.fv_sorted) := by
    simp [cum_weight_rounded, hlenws]
  have hlencw : (partial_sum_rounded fl s.fv_sorted).length = n_grains := by
    rw [partial_sum_rounded_length, hlenws]
  refine ⟨s, h1, hcw, ?_⟩
  intro hdraw
  have hsel : ∀ u ∈ (draw_idxgrain next n_output_grains gen).1,
      ∃ (counter : Nat) (m : T),
        counter_loop (partial_sum_rounded fl s.fv_sorted) u n_grains 0 0 = some counter ∧
        counter ≤ n_grains - 1 ∧ s.matrices_sorted[counter]? = some m := by
    intro u hu
    obtain ⟨c, hc, huc⟩ := hdraw u hu
    obtain ⟨r, h5, _, h6, h7, _⟩ :=
      counter_loop_spec (partial_sum_rounded fl s.fv_sorted) u n_grains 0
        (by rw [hlencw]; rfl)
    have hr : r ≤ n_grains - 1 := by
      by_contra hcon
      exact absurd (h7 (n_grains - 1) c (Nat.zero_le _) (by omega) hc) (not_lt.2 huc)
    exact ⟨r, s.matrices_sorted[r], h5, hr, List.getElem?_eq_getElem (by omega)⟩
  refine ⟨hsel, ?_⟩
  obtain ⟨out, ho, hl⟩ := select_loop_of_forall n_grains (partial_sum_rounded fl s.fv_sorted)
    s.matrices_sorted (draw_idxgrain next n_output_grains gen).1 (by
      intro u hu
      obtain ⟨r, m, h5, _, h6⟩ := hsel u hu
      exact ⟨m, by rw [select_matrix, h5]; exact h6⟩)
  refine ⟨out, ?_, by rw [hl, draw_idxgrain_length]⟩
  rw [random_draw_volume_weighting_rounded, h1]
  simp only
  rw [hcw]
  simp only
  rw [ho]

end RoundingLemmas

section Claims

variable {K : Type} [LinearOrderedField K] {T : Type} {σ : Type}

/-- C2 (failing input). One grain of weight 1/4 and the draw 1/2: the cumulative weight
1/4 is below the draw, `counter` becomes 1 and `matrices_sorted[1]` is read past the end of
the one-element vector, so the value stored in the result is not an input matrix. -/
theorem C2_read_past_the_end :
    random_draw_volume_weighting tape_next 1 [1/4] [identity_matrix] 1 [1/2] = none := by
  norm_num [random_draw_volume_weighting, sort_loop, max_element, max_element_loop, cum_weight,
    partial_sum, partial_sum_from, draw_idxgrain, tape_next, select_loop, select_matrix,
    counter_loop]

/-- C5 (failing inputs). For non-negative weights and as many weights and matrices as
`n_grains`, a single draw above the total weight makes `random_draw_volume_weighting` access
`matrices_sorted[n_grains]`, outside the vector: there is no fallback to the last entry. -/
theorem C5_no_fallback (next : σ → K × σ) (n_grains : Nat) (fv : List K)
    (matrices : List T) (M : Nat) (gen : σ) (hlenf : fv.length = n_grains)
    (hlenm : matrices.length = n_grains) (hnn : ∀ w ∈ fv, 0 ≤ w) (u : K)
    (hu : u ∈ (draw_idxgrain next M gen).1) (hgt : fv.sum < u) :
    random_draw_volume_weighting next n_grains fv matrices M gen = none := by
  obtain ⟨s, p, h1, h2, h3, h4, _⟩ :=
    sort_loop_spec fv matrices hnn (by rw [hlenm, hlenf])
  have hperm : s.fv_sorted.Perm fv := by rw [h3]; exact sorted_perm fv p h2
  have hnnws : ∀ w ∈ s.fv_sorted, 0 ≤ w := fun w hw => hnn w (hperm.mem_iff.1 hw)
  have hlenws : s.fv_sorted.length = n_grains := by rw [hperm.length_eq, hlenf]
  have hms : s.matrices_sorted.length = (partial_sum s.fv_sorted).length := by
    have h6 := congrArg List.length h4
    have h7 := h2.length_eq
    simp only [List.length_map, List.length_range] at h6 h7
    rw [partial_sum_length]
    omega
  have hall : ∀ c ∈ partial_sum s.fv_sorted, c < u := by
    intro c hc
    obtain ⟨i, hi⟩ := List.mem_iff_getElem?.1 hc
    have hil : i < s.fv_sorted.length := by
      rcases List.getElem?_eq_some_iff.1 hi with ⟨h, _⟩
      rwa [partial_sum_length] at h
    rw [partial_sum_getElem? _ i hil] at hi
    cases hi
    have h8 := take_sum_mono s.fv_sorted hnnws (i + 1) s.fv_sorted.length (by omega)
    rw [List.take_length, hperm.sum_eq] at h8
    exact lt_of_le_of_lt h8 hgt
  have hsel := (select_matrix_above (partial_sum s.fv_sorted) s.matrices_sorted u hms hall).2
  rw [partial_sum_length, hlenws] at hsel
  rw [random_draw_volume_weighting, h1]
  simp only
  rw [cum_weight_eq n_grains s.fv_sorted hlenws]
  simp only
  rw [select_loop_none n_grains _ _ u hsel _ hu]

/-- C5 (witness). Two grains of weight 1/4 each and the draw 3/4. -/
theorem C5_no_fallback_witness :
    random_draw_volume_weighting tape_next 2 [1/4, 1/4] [zero_matrix, identity_matrix] 1 [3/4]
      = none :=
  C5_no_fallback tape_next 2 [1/4, 1/4] [zero_matrix, identity_matrix] 1 [3/4] rfl rfl
    (by norm_num) (3/4) (by norm_num [draw_idxgrain, tape_next]) (by norm_num)

/-- C4 (counterexample). The weights 0.4, 0.3, 0.2, 0.1 do not stay in that order: the
loop returns them as 0.1, 0.2, 0.3, 0.4 (the entries of `matrices_sorted` are the grain
numbers here), and two grains of equal weight come out in reverse order. -/
theorem C4_counterexample :
    (∃ s, sort_loop [0, 1, 2, 3] 4 (⟨[2/5, 3/10, 1/5, 1/10], [2/5, 3/10, 1/5, 1/10],
        [0, 1, 2, 3]⟩ : SortState ℚ Nat) = some s ∧
      s.fv_sorted = [1/10, 1/5, 3/10, 2/5] ∧ s.matrices_sorted = [3, 2, 1, 0]) ∧
    (∃ s, sort_loop [0, 1] 2 (⟨[1, 1], [1, 1], [0, 1]⟩ : SortState ℚ Nat) = some s ∧
      s.matrices_sorted = [1, 0]) := by
  constructor <;> norm_num [sort_loop, max_element, max_element_loop]

/-- C4 (amended). For non-negative weights (and equally many matrices) the sorting loop
completes and orders the grains by weight ascending: `fv_sorted` is non-decreasing, its
last entry is the largest weight, sorted position `i` holds the weight and the matrix of
grain `p[i]` for a rearrangement `p` of the grain indices, and of two grains with equal
weight the one that comes later in the input is at the lower sorted position. -/
theorem C4_sorted_ascending (fv : List K) (matrices : List T) (hnn : ∀ w ∈ fv, 0 ≤ w)
    (hlen : matrices.length = fv.length) :
    ∃ (s : SortState K T) (p : List Nat),
      sort_loop matrices fv.length ⟨fv, fv, matrices⟩ = some s ∧
      p.Perm (List.range fv.length) ∧
      s.fv_sorted = p.map (fun x => fv.getD x 0) ∧
      s.matrices_sorted.map some = p.map (fun x => matrices[x]?) ∧
      s.fv_sorted.Pairwise (fun a b => a ≤ b) ∧
      (∀ w ∈ fv, ∀ x : K, s.fv_sorted[fv.length - 1]? = some x → w ≤ x) ∧
      (∀ (i j x y : Nat), i < j → p[i]? = some x → p[j]? = some y →
        fv.getD x 0 = fv.getD y 0 → y < x) := by
  obtain ⟨s, p, h1, h2, h3, h4, h5⟩ := sort_loop_spec fv matrices hnn hlen
  have hsorted : s.fv_sorted.Pairwise (fun a b => a ≤ b) := by
    rw [h3, List.pairwise_map]
    refine h5.imp ?_
    intro a b hab
    rcases hab with h | ⟨h, _⟩
    · exact le_of_lt h
    · exact le_of_eq h
  have hperm : s.fv_sorted.Perm fv := by rw [h3]; exact sorted_perm fv p h2
  refine ⟨s, p, h1, h2, h3, h4, hsorted, ?_, ?_⟩
  · intro w hw x hx
    obtain ⟨i, hi⟩ := List.mem_iff_getElem?.1 (hperm.mem_iff.2 hw)
    obtain ⟨hil, hiw⟩ := List.getElem?_eq_some_iff.1 hi
    obtain ⟨hxl, hxw⟩ := List.getElem?_eq_some_iff.1 hx
    have hl := hperm.length_eq
    rcases Nat.lt_or_ge i (fv.length - 1) with h | h
    · have := List.pairwise_iff_getElem.1 hsorted i (fv.length - 1) hil hxl h
      rw [hiw, hxw] at this
      exact this
    · have hieq : i = fv.length - 1 := by omega
      subst hieq
      rw [hi] at hx
      cases hx
      exact le_refl _
  · intro i j x y hij hx hy hxy
    obtain ⟨hil, hix⟩ := List.getElem?_eq_some_iff.1 hx
    obtain ⟨hjl, hjy⟩ := List.getElem?_eq_some_iff.1 hy
    have := List.pairwise_iff_getElem.1 h5 i j hil hjl hij
    rw [hix, hjy] at this
    rcases this with h | ⟨_, h⟩
    · exact absurd hxy (ne_of_lt h)
    · exact h

/-- C4 (witness). The weights 0.4, 0.3, 0.2, 0.1 of the specification. -/
theorem C4_sorted_ascending_witness :
    ∃ s, sort_loop [0, 1, 2, 3] ([2/5, 3/10, 1/5, 1/10] : List ℚ).length
        (⟨[2/5, 3/10, 1/5, 1/10], [2/5, 3/10, 1/5, 1/10], [0, 1, 2, 3]⟩ : SortState ℚ Nat)
        = some s ∧ s.fv_sorted.Pairwise (fun a b => a ≤ b) := by
  obtain ⟨s, _, h1, _, _, _, h2, _⟩ :=
    C4_sorted_ascending ([2/5, 3/10, 1/5, 1/10] : List ℚ) ([0, 1, 2, 3] : List Nat)
      (by norm_num) rfl
  exact ⟨s, h1, h2⟩

/-- C6 (counterexample). Grain 0 has weight 0 and the zero matrix, grain 1 has weight 1
and the identity matrix. For the draw 0 no cumulative weight is below the draw, `counter`
stays 0 and the function returns the matrix of the weightless grain. -/
theorem C6_counterexample :
    random_draw_volume_weighting tape_next 2 [0, 1] [zero_matrix, identity_matrix] 1 [0]
      = some ([zero_matrix], []) ∧ zero_matrix ≠ identity_matrix := by
  constructor
  · norm_num [random_draw_volume_weighting, sort_loop, max_element, max_element_loop,
      cum_weight, partial_sum, partial_sum_from, draw_idxgrain, tape_next, select_loop,
      select_matrix, counter_loop]
  · intro h
    have h1 := congrFun (congrFun h 0) 0
    norm_num [zero_matrix, identity_matrix] at h1

/-- C6 (amended). When grain `k` is the only grain with a non-zero weight `w > 0`, the
population has `n_grains` weights and matrices, and the single draw `u` satisfies
`0 < u ≤ w`, `random_draw_volume_weighting` with sample count 1 returns the one-element sequence
holding the matrix of grain `k`. -/
theorem C6_single_positive_grain (next : σ → K × σ) (n_grains : Nat) (fv : List K)
    (matrices : List T) (gen : σ) (k : Nat) (w : K) (m : T)
    (hlenf : fv.length = n_grains) (hlenm : matrices.length = n_grains)
    (hk : fv[k]? = some w) (hw : 0 < w)
    (hzero : ∀ (j : Nat) (x : K), j ≠ k → fv[j]? = some x → x = 0)
    (hm : matrices[k]? = some m)
    (hu0 : 0 < (next gen).1) (hu1 : (next gen).1 ≤ w) :
    random_draw_volume_weighting next n_grains fv matrices 1 gen
      = some ([m], (next gen).2) := by
  obtain ⟨hkn, _⟩ := List.getElem?_eq_some_iff.1 hk
  have hgk : fv.getD k 0 = w := by
    rw [List.getD_eq_getElem?_getD, hk]; rfl
  have hgz : ∀ j, j ≠ k → fv.getD j 0 = 0 := by
    intro j hj
    rw [List.getD_eq_getElem?_getD]
    cases hfj : fv[j]? with
    | none => rfl
    | some x => rw [hzero j x hj hfj]; rfl
  have hnn : ∀ x ∈ fv, 0 ≤ x := by
    intro x hx
    obtain ⟨j, hj⟩ := List.mem_iff_getElem?.1 hx
    by_cases hjk : j = k
    · rw [hjk, hk] at hj
      cases hj
      exact le_of_lt hw
    · rw [hzero j x hjk hj]
  have hwsum : w ≤ fv.sum := List.single_le_sum hnn w (List.getElem?_mem hk)
  have hdraws : (draw_idxgrain next 1 gen).1 = [(next gen).1] := rfl
  have hgen : (draw_idxgrain next 1 gen).2 = (next gen).2 := rfl
  obtain ⟨s, p, out, _, h2, h3, h4, h5, _, h7, h8⟩ :=
    random_draw_sorted next n_grains fv matrices 1 gen (by omega) hlenf hlenm hnn
      (by
        intro u hu
        rw [hdraws] at hu
        rw [List.mem_singleton.1 hu]
        exact le_trans hu1 hwsum)
  have hperm : s.fv_sorted.Perm fv := by rw [h3]; exact sorted_perm fv p h2
  have hnnws : ∀ x ∈ s.fv_sorted, 0 ≤ x := fun x hx => hnn x (hperm.mem_iff.1 hx)
  have hlenws : s.fv_sorted.length = fv.length := hperm.length_eq
  have hlenp : p.length = fv.length := by
    have := h2.length_eq
    simpa using this
  obtain ⟨r, c, _, h12, h13, h14, h15, _, _⟩ :=
    counter_loop_sorted s.fv_sorted hnnws (by omega) (next gen).1
      (by rw [hperm.sum_eq]; exact le_trans hu1 hwsum)
  -- grain `k` sits at the last sorted position
  obtain ⟨ik, hik⟩ := List.mem_iff_getElem?.1 (h2.mem_iff.2 (List.mem_range.2 hkn))
  obtain ⟨hikl, hikv⟩ := List.getElem?_eq_some_iff.1 hik
  have hnotk : ∀ y, ¬ before fv k y := by
    intro y hb
    by_cases hyk : y = k
    · subst hyk
      rcases hb with h | ⟨_, h⟩
      · exact lt_irrefl _ h
      · exact lt_irrefl _ h
    · rcases hb with h | ⟨h, _⟩
      · rw [hgk, hgz y hyk] at h
        exact lt_asymm hw h
      · rw [hgk, hgz y hyk] at h
        exact ne_of_gt hw h
  have hlast : ik = fv.length - 1 := by
    rcases Nat.lt_or_ge ik (fv.length - 1) with h | h
    · have hb := List.pairwise_iff_getElem.1 h5 ik (fv.length - 1) hikl (by omega) h
      rw [hikv] at hb
      exact absurd hb (hnotk _)
    · omega
  -- every weight below the selected position would be zero
  have hr : r = fv.length - 1 := by
    rcases Nat.lt_or_ge r (fv.length - 1) with h | h
    · exfalso
      have hc0 : c = 0 := by
        rw [partial_sum_getElem? s.fv_sorted r h12] at h14
        cases h14
        apply List.sum_eq_zero
        intro x hx
        obtain ⟨j, hj⟩ := List.mem_iff_getElem?.1 hx
        rw [List.getElem?_take] at hj
        split at hj
        · rename_i hjr
          rw [h3, List.getElem?_map] at hj
          have hjl : j < p.length := by omega
          rw [List.getElem?_eq_getElem hjl] at hj
          simp only [Option.map_some', Option.some.injEq] at hj
          rw [← hj]
          apply hgz
          intro hpk
          have hb := List.pairwise_iff_getElem.1 h5 j ik hjl hikl (by omega)
          rw [hikv, hpk] at hb
          exact hnotk _ hb
        · cases hj
      rw [hc0] at h15
      exact absurd hu0 (not_lt.2 h15)
    · omega
  have hmr : s.matrices_sorted[r]? = some m := by
    have h9 := congrArg (fun l => l[r]?) h4
    simp only [List.getElem?_map] at h9
    rw [hr, ← hlast, hik] at h9
    simp only [Option.map_some'] at h9
    rw [hm] at h9
    rw [hr, ← hlast]
    cases hms : s.matrices_sorted[ik]? with
    | none => rw [hms] at h9; cases h9
    | some m1 =>
      rw [hms] at h9
      simp only [Option.map_some', Option.some.injEq] at h9
      rw [h9]
  have hout0 : out[0]? = some m := by
    rw [h8 0 (next gen).1 (by rw [hdraws]; rfl), ← h13]
    exact hmr
  have houtlen : out.length = 1 :=
    (random_draw_some next n_grains fv matrices 1 gen out _ h7).1
  rw [h7, hgen]
  cases out with
  | nil => simp at houtlen
  | cons a rest =>
    cases rest with
    | nil =>
      simp only [List.getElem?_cons_zero, Option.some.injEq] at hout0
      rw [hout0]
    | cons b rest => simp at houtlen

/-- C6 (witness). Three grains with weights 0, 1/2, 0 and the draw 1/4. -/
theorem C6_single_positive_grain_witness :
    random_draw_volume_weighting tape_next 3 [0, 1/2, 0]
        [zero_matrix, identity_matrix, zero_matrix] 1 [1/4]
      = some ([identity_matrix], (tape_next [1/4]).2) :=
  C6_single_positive_grain tape_next 3 [0, 1/2, 0] [zero_matrix, identity_matrix, zero_matrix]
    [1/4] 1 (1/2) identity_matrix rfl rfl rfl (by norm_num)
    (by
      intro j x hj hx
      match j, hj, hx with
      | 0, _, hx => simpa using hx.symm
      | 1, hj, _ => exact absurd rfl hj
      | 2, _, hx => simpa using hx.symm
      | n + 3, _, hx => simp at hx)
    rfl (by norm_num [tape_next]) (by norm_num [tape_next])

/-- C7 (failing input). The population of the identity and the quarter turn about the
first axis, with a solver that is exact on diagonal tensors. The c-axis tensor is
diag(0, 1, 1) with dominant eigenpair (1, (0,1,0)), the a-axis tensor is diag(2, 0, 0) with
dominant eigenvalue 2. The returned c axis is (0, 2, 0): the dominant c eigenvector
multiplied by the a-axis eigenvalue 2, not by its own eigenvalue 1. -/
theorem C7_c_axis_scaled_by_a_eigenvalue :
    compute_bingham_average diagonal_solver [identity_matrix, quarter_turn_matrix] 2
        = ![0, 2, 0] ∧
      diagonal_solver (sum_matrix 2 [identity_matrix, quarter_turn_matrix]) 0
        = (1, ![0, 1, 0]) ∧
      (diagonal_solver (sum_matrix 0 [identity_matrix, quarter_turn_matrix]) 0).1 = 2 ∧
      EigenSolverAt diagonal_solver (sum_matrix 2 [identity_matrix, quarter_turn_matrix]) ∧
      EigenSolverAt diagonal_solver (sum_matrix 0 [identity_matrix, quarter_turn_matrix]) := by
  have hc : sum_matrix 2 [identity_matrix, quarter_turn_matrix] = ⟨0, 1, 1, 0, 0, 0⟩ := by
    norm_num [sum_matrix, sum_matrix_loop, add_grain, SymmetricTensor.zero, identity_matrix,
      quarter_turn_matrix, Matrix.vecHead, Matrix.vecTail]
  have ha : sum_matrix 0 [identity_matrix, quarter_turn_matrix] = ⟨2, 0, 0, 0, 0, 0⟩ := by
    norm_num [sum_matrix, sum_matrix_loop, add_grain, SymmetricTensor.zero, identity_matrix,
      quarter_turn_matrix, Matrix.vecHead, Matrix.vecTail]
  have hdc : diagonal_solver (⟨0, 1, 1, 0, 0, 0⟩ : SymmetricTensor ℚ) 0 = (1, ![0, 1, 0]) := by
    norm_num [diagonal_solver]
  have hda : (diagonal_solver (⟨2, 0, 0, 0, 0, 0⟩ : SymmetricTensor ℚ) 0).1 = 2 := by
    norm_num [diagonal_solver]
  refine ⟨?_, by rw [hc, hdc], by rw [ha, hda], ?_, ?_⟩
  · unfold compute_bingham_average
    simp only [hc, ha, hdc, hda]
    norm_num
  · rw [hc]; exact diagonal_solver_spec _ rfl rfl rfl
  · rw [ha]; exact diagonal_solver_spec _ rfl rfl rfl

/-- C8. For `M ≥ 1` copies of the identity matrix and any solver that returns, for each of
the three accumulated tensors, orthonormal eigenvectors paired with their eigenvalues in
descending order, `compute_bingham_average` returns `(M,0,0)`, `(0,M,0)` and `(0,0,M)` for the
a, b and c axis, each up to sign. -/
theorem C8_identity_population (eigenvectors : SymmetricTensor K → Fin 3 → K × Tensor1 K)
    (M : Nat) (hM : 1 ≤ M)
    (ha : EigenSolverAt eigenvectors
      (sum_matrix 0 (List.replicate M (identity_tensor : Tensor2 K))))
    (hb : EigenSolverAt eigenvectors
      (sum_matrix 1 (List.replicate M (identity_tensor : Tensor2 K))))
    (hc : EigenSolverAt eigenvectors
      (sum_matrix 2 (List.replicate M (identity_tensor : Tensor2 K)))) :
    (compute_bingham_average eigenvectors (List.replicate M identity_tensor) 0 = ![(M : K), 0, 0] ∨
      compute_bingham_average eigenvectors (List.replicate M identity_tensor) 0
        = ![-(M : K), 0, 0]) ∧
    (compute_bingham_average eigenvectors (List.replicate M identity_tensor) 1 = ![0, (M : K), 0] ∨
      compute_bingham_average eigenvectors (List.replicate M identity_tensor) 1
        = ![0, -(M : K), 0]) ∧
    (compute_bingham_average eigenvectors (List.replicate M identity_tensor) 2 = ![0, 0, (M : K)] ∨
      compute_bingham_average eigenvectors (List.replicate M identity_tensor) 2
        = ![0, 0, -(M : K)]) := by
  have hd : (0 : K) < (M : K) := by exact_mod_cast hM
  have hSa : sum_matrix 0 (List.replicate M (identity_tensor : Tensor2 K))
      = ⟨(M : K), 0, 0, 0, 0, 0⟩ := by rw [sum_matrix_identity]; simp
  have hSb : sum_matrix 1 (List.replicate M (identity_tensor : Tensor2 K))
      = ⟨0, (M : K), 0, 0, 0, 0⟩ := by rw [sum_matrix_identity]; simp
  have hSc : sum_matrix 2 (List.replicate M (identity_tensor : Tensor2 K))
      = ⟨0, 0, (M : K), 0, 0, 0⟩ := by rw [sum_matrix_identity]; simp
  rw [hSa] at ha
  rw [hSb] at hb
  rw [hSc] at hc
  obtain ⟨a1, a2, a3, a4⟩ := dominant_a eigenvectors (M : K) hd ha
  obtain ⟨b1, b2, b3, b4⟩ := dominant_b eigenvectors (M : K) hd hb
  obtain ⟨_, c2, c3, c4⟩ := dominant_c eigenvectors (M : K) hd hc
  unfold compute_bingham_average
  simp only [hSa, hSb, hSc, a1, a2, a3, b1, b2, b3, c2, c3]
  refine ⟨?_, ?_, ?_⟩
  · rcases a4 with h | h
    · left; rw [h]; simp
    · right; rw [h]; simp
  · rcases b4 with h | h
    · left; rw [h]; simp
    · right; rw [h]; simp
  · rcases c4 with h | h
    · left; rw [h]; simp
    · right; rw [h]; simp

/-- C8 (witness). Three copies of the identity and the solver that is exact on diagonal
tensors. -/
theorem C8_identity_population_witness :
    (compute_bingham_average diagonal_solver (List.replicate 3 (identity_tensor : Tensor2 ℚ)) 0
        = ![((3 : Nat) : ℚ), 0, 0] ∨
      compute_bingham_average diagonal_solver (List.replicate 3 (identity_tensor : Tensor2 ℚ)) 0
        = ![-((3 : Nat) : ℚ), 0, 0]) :=
  (C8_identity_population diagonal_solver 3 (by decide)
    (by rw [sum_matrix_identity]; exact diagonal_solver_spec _ rfl rfl rfl)
    (by rw [sum_matrix_identity]; exact diagonal_solver_spec _ rfl rfl rfl)
    (by rw [sum_matrix_identity]; exact diagonal_solver_spec _ rfl rfl rfl)).1

/-- C9. For the empty population all three accumulated tensors are the zero tensor and,
for any solver whose pairs for the zero tensor satisfy the eigenpair equation,
`compute_bingham_average` returns three zero vectors; every pair with a non-zero eigenvector has
eigenvalue 0. -/
theorem C9_empty_population (eigenvectors : SymmetricTensor K → Fin 3 → K × Tensor1 K)
    (heig : ∀ k i, (SymmetricTensor.zero : SymmetricTensor K).mulVec
        (eigenvectors SymmetricTensor.zero k).2 i
      = (eigenvectors SymmetricTensor.zero k).1 * (eigenvectors SymmetricTensor.zero k).2 i) :
    (∀ r : Fin 3, sum_matrix r ([] : List (Tensor2 K)) = SymmetricTensor.zero) ∧
    (∀ k, (eigenvectors SymmetricTensor.zero k).2 ≠ 0 →
      (eigenvectors SymmetricTensor.zero k).1 = 0) ∧
    (∀ i j, compute_bingham_average eigenvectors [] i j = 0) := by
  have hz : ∀ k i, (eigenvectors SymmetricTensor.zero k).1 *
      (eigenvectors (SymmetricTensor.zero : SymmetricTensor K) k).2 i = 0 := by
    intro k i
    rw [← heig k i]
    fin_cases i
    · show SymmetricTensor.mulVec _ _ 0 = 0
      rw [mulVec_zero]; simp [SymmetricTensor.zero]
    · show SymmetricTensor.mulVec _ _ 1 = 0
      rw [mulVec_one]; simp [SymmetricTensor.zero]
    · show SymmetricTensor.mulVec _ _ 2 = 0
      rw [mulVec_two]; simp [SymmetricTensor.zero]
  refine ⟨fun r => rfl, ?_, ?_⟩
  · intro k hk
    by_contra hne
    apply hk
    funext i
    rcases mul_eq_zero.1 (hz k i) with h | h
    · exact absurd h hne
    · exact h
  · intro i j
    have h0 : ∀ r : Fin 3, sum_matrix r ([] : List (Tensor2 K)) = SymmetricTensor.zero :=
      fun r => rfl
    unfold compute_bingham_average
    simp only [h0]
    fin_cases i <;> fin_cases j <;> simp [mul_comm, hz, Matrix.vecHead, Matrix.vecTail]

/-- C9 (witness). The solver that is exact on diagonal tensors, on the empty population:
the first component of the a axis and the last component of the c axis are 0. -/
theorem C9_empty_population_witness :
    compute_bingham_average (diagonal_solver : SymmetricTensor ℚ → Fin 3 → ℚ × Tensor1 ℚ)
        [] 0 0 = 0 ∧
      compute_bingham_average (diagonal_solver : SymmetricTensor ℚ → Fin 3 → ℚ × Tensor1 ℚ)
        [] 2 2 = 0 :=
  ⟨(C9_empty_population diagonal_solver
      (diagonal_solver_spec (SymmetricTensor.zero : SymmetricTensor ℚ) rfl rfl rfl).eigen).2.2
      0 0,
    (C9_empty_population diagonal_solver
      (diagonal_solver_spec (SymmetricTensor.zero : SymmetricTensor ℚ) rfl rfl rfl).eigen).2.2
      2 2⟩

/-- C10. When `update_one_particle_property` returns, then for every mineral `m < n_minerals`,
axis `i` and component `j` the entry `data[data_position + 9*m + 3*i + j]` is component `j`
of axis `i` of the Bingham average computed for mineral `m`, that is the average of the
resampled matrices drawn in iteration `m` from the grains gathered at the start of that
iteration. The function returns whenever every resampling returns and the
`9 * n_minerals` entries from `data_position` on lie inside the data. -/
theorem C10_update_writes_averages (P : Plugin K σ) (data_position : Nat) (data : List K)
    (gen : σ) :
    (∀ (data2 : List K) (gen2 : σ),
      update_one_particle_property P data_position data gen = some (data2, gen2) →
      ∀ m, m < P.n_minerals →
      ∃ (data_m : List K) (gen_m : σ) (w : List (Tensor2 K)) (gen_m1 : σ),
        update_loop P data_position m 0 data gen = some (data_m, gen_m) ∧
        random_draw_volume_weighting P.next P.n_grains (volume_fractions_grains P data_m m)
          (rotation_matrices_grains P data_m m) P.n_samples gen_m = some (w, gen_m1) ∧
        ∀ i j : Fin 3, data2[data_position + 9 * m + 3 * i.val + j.val]?
          = some (compute_bingham_average P.eigenvectors w i j)) ∧
    ((∀ (d : List K) (g : σ) (m : Nat), d.length = data.length →
        (random_draw_volume_weighting P.next P.n_grains (volume_fractions_grains P d m)
          (rotation_matrices_grains P d m) P.n_samples g).isSome) →
      data_position + 9 * P.n_minerals ≤ data.length →
      (update_one_particle_property P data_position data gen).isSome) := by
  constructor
  · intro data2 gen2 h m hm
    exact update_loop_writes P data_position P.n_minerals 0 data data2 gen gen2 h m
      (Nat.zero_le m) (by omega)
  · intro hdraw hle
    exact update_loop_total P data_position data.length hdraw P.n_minerals 0 data gen rfl
      (by omega)

/-- C10 (witness). Two minerals with one identity grain each: the eighteen entries written
are the two averages. -/
theorem C10_update_writes_averages_witness :
    ∃ w : List (Tensor2 ℚ), ∀ i j : Fin 3,
      ([1, 0, 0, 0, 1, 0, 0, 0, 1, 1, 0, 0, 0, 1, 0, 0, 0, 1] : List ℚ)[0 + 9 * 1
          + 3 * i.val + j.val]?
        = some (compute_bingham_average example_plugin.eigenvectors w i j) := by
  obtain ⟨_, _, w, _, _, _, h⟩ :=
    (C10_update_writes_averages example_plugin 0
      [0, 0, 0, 0, 0, 0, 0, 0, 0, 0, 0, 0, 0, 0, 0, 0, 0, 0] [1/2, 1/2]).1
      [1, 0, 0, 0, 1, 0, 0, 0, 1, 1, 0, 0, 0, 1, 0, 0, 0, 1] []
      (by
        norm_num [update_one_particle_property, update_loop, example_plugin,
          volume_fractions_grains, rotation_matrices_grains, random_draw_volume_weighting,
          sort_loop, max_element, max_element_loop, cum_weight, partial_sum, partial_sum_from,
          draw_idxgrain, tape_next, select_loop, select_matrix, counter_loop,
          compute_bingham_average, sum_matrix, sum_matrix_loop, add_grain,
          SymmetricTensor.zero, identity_matrix, diagonal_solver, write_loop, loop_order,
          List.range, List.range.loop, Matrix.vecHead, Matrix.vecTail])
      1 (by decide)
  exact ⟨w, h⟩

/-- C11 (failing input). Two minerals with one identity grain each, `data_position = 0` and
nineteen entries 7. The averaged a axis (1,0,0) of the first mineral is written to the
entries 0, 1, 2 (from `data_position + 0` on, not from `data_position + 1`), its b axis
starts at 3, its c axis at 6, the axes of the second mineral start at 9, 12 and 15, and the
entry 18, which the documented layout assigns to the last component, is not written. -/
theorem C11_layout_starts_at_data_position :
    update_one_particle_property example_plugin 0
        [7, 7, 7, 7, 7, 7, 7, 7, 7, 7, 7, 7, 7, 7, 7, 7, 7, 7, 7] [1/2, 1/2]
      = some ([1, 0, 0, 0, 1, 0, 0, 0, 1, 1, 0, 0, 0, 1, 0, 0, 0, 1, 7], []) := by
  norm_num [update_one_particle_property, update_loop, example_plugin,
    volume_fractions_grains, rotation_matrices_grains, random_draw_volume_weighting,
    sort_loop, max_element, max_element_loop, cum_weight, partial_sum, partial_sum_from,
    draw_idxgrain, tape_next, select_loop, select_matrix, counter_loop,
    compute_bingham_average, sum_matrix, sum_matrix_loop, add_grain,
    SymmetricTensor.zero, identity_matrix, diagonal_solver, write_loop, loop_order,
    List.range, List.range.loop, Matrix.vecHead, Matrix.vecTail]

/-- C12 (failing input). One mineral with two grains of equal weight, the identity and the
quarter turn. Two calls of `update_one_particle_property` on the same data, one entered
with a generator state whose next draw is 1/4 and one with a state whose next draw is 3/4,
write different values: the function does not seed the generator. -/
theorem C12_update_depends_on_generator_state :
    update_one_particle_property two_grain_plugin 0 [0, 0, 0, 0, 0, 0, 0, 0, 0] [1/4]
        = some ([1, 0, 0, 0, 0, 1, 0, 1, 0], []) ∧
      update_one_particle_property two_grain_plugin 0 [0, 0, 0, 0, 0, 0, 0, 0, 0] [3/4]
        = some ([1, 0, 0, 0, 1, 0, 0, 0, 1], []) ∧
      ([1, 0, 0, 0, 0, 1, 0, 1, 0] : List ℚ) ≠ [1, 0, 0, 0, 1, 0, 0, 0, 1] := by
  refine ⟨?_, ?_, by decide⟩
  · norm_num [update_one_particle_property, update_loop, two_grain_plugin,
      volume_fractions_grains, rotation_matrices_grains, random_draw_volume_weighting,
      sort_loop, max_element, max_element_loop, cum_weight, partial_sum, partial_sum_from,
      draw_idxgrain, tape_next, select_loop, select_matrix, counter_loop,
      compute_bingham_average, sum_matrix, sum_matrix_loop, add_grain,
      SymmetricTensor.zero, identity_matrix, quarter_turn_matrix, diagonal_solver,
      write_loop, loop_order, List.range, List.range.loop, Matrix.vecHead, Matrix.vecTail]
  · norm_num [update_one_particle_property, update_loop, two_grain_plugin,
      volume_fractions_grains, rotation_matrices_grains, random_draw_volume_weighting,
      sort_loop, max_element, max_element_loop, cum_weight, partial_sum, partial_sum_from,
      draw_idxgrain, tape_next, select_loop, select_matrix, counter_loop,
      compute_bingham_average, sum_matrix, sum_matrix_loop, add_grain,
      SymmetricTensor.zero, identity_matrix, quarter_turn_matrix, diagonal_solver,
      write_loop, loop_order, List.range, List.range.loop, Matrix.vecHead, Matrix.vecTail]

/-- What `parse_parameters` stores: `n_grains` is the number of grains; `n_samples` is the
number of grains when the configured value, reduced modulo `2^32` by the conversion to
`unsigned int`, is 0, and that reduced value otherwise. For a configured value from 1 to
`2^32 - 1` it is the configured value, and `n_samples = 0` only when `n_grains = 0`. -/
theorem parse_parameters_n_samples (random_number_seed_entry number_of_samples_entry
    number_of_grains number_of_minerals : Nat) :
    (parse_parameters random_number_seed_entry number_of_samples_entry number_of_grains
        number_of_minerals).n_grains = number_of_grains ∧
    (number_of_samples_entry % 2 ^ 32 = 0 →
      (parse_parameters random_number_seed_entry number_of_samples_entry number_of_grains
        number_of_minerals).n_samples = number_of_grains) ∧
    (number_of_samples_entry % 2 ^ 32 ≠ 0 →
      (parse_parameters random_number_seed_entry number_of_samples_entry number_of_grains
        number_of_minerals).n_samples = number_of_samples_entry % 2 ^ 32) ∧
    (number_of_samples_entry ≠ 0 → number_of_samples_entry < 2 ^ 32 →
      (parse_parameters random_number_seed_entry number_of_samples_entry number_of_grains
        number_of_minerals).n_samples = number_of_samples_entry) ∧
    ((parse_parameters random_number_seed_entry number_of_samples_entry number_of_grains
        number_of_minerals).n_samples = 0 → number_of_grains = 0) := by
  refine ⟨rfl, ?_, ?_, ?_, ?_⟩
  · intro h
    simp only [parse_parameters, h, if_true]
  · intro h
    simp only [parse_parameters, h, if_false]
  · intro h0 hlt
    have h1 : number_of_samples_entry % 2 ^ 32 = number_of_samples_entry := Nat.mod_eq_of_lt hlt
    simp only [parse_parameters, h1, h0, if_false]
  · intro h
    simp only [parse_parameters] at h
    split at h
    · exact h
    · rename_i hne
      exact absurd h hne

/-- C13 (failing input). With five grains, a configured "Number of samples" of `2^32` is
not zero, but the `unsigned int` member stores it as 0 and `n_samples` becomes the number of
grains, 5; a configured `2^32 + 7` gives `n_samples = 7`. In both cases the configured
value is not zero and `n_samples` is not the configured value. -/
theorem C13_large_entry_truncated :
    (parse_parameters 1 4294967296 5 2).n_samples = 5 ∧ (4294967296 : Nat) ≠ 0 ∧
      (5 : Nat) ≠ 4294967296 ∧
      (parse_parameters 1 4294967303 5 2).n_samples = 7 ∧ (7 : Nat) ≠ 4294967303 := by
  decide

/-- C15. For every population and each row `r` (0 for a, 1 for b, 2 for c) the accumulator
built by `compute_bingham_average` is the sum over the grains of the outer product of row `r`
with itself: component `(i, j)` is the sum of `matrices[g][r][i] * matrices[g][r][j]`. The
tensor is symmetric and its six stored components are the sums of `l*l`, `m*m`, `n*n`,
`l*m`, `l*n`, `m*n`. -/
theorem C15_second_moment_tensor (r : Fin 3) (matrices : List (Tensor2 K)) :
    (∀ i j : Fin 3, (sum_matrix r matrices).entry i j
      = (matrices.map (fun m => m r i * m r j)).sum) ∧
    (∀ i j : Fin 3, (sum_matrix r matrices).entry i j = (sum_matrix r matrices).entry j i) ∧
    sum_matrix r matrices =
      { c00 := (matrices.map (fun m => m r 0 * m r 0)).sum
        c11 := (matrices.map (fun m => m r 1 * m r 1)).sum
        c22 := (matrices.map (fun m => m r 2 * m r 2)).sum
        c01 := (matrices.map (fun m => m r 0 * m r 1)).sum
        c02 := (matrices.map (fun m => m r 0 * m r 2)).sum
        c12 := (matrices.map (fun m => m r 1 * m r 2)).sum } := by
  refine ⟨fun i j => sum_matrix_entry r matrices i j, ?_, ?_⟩
  · intro i j
    rw [sum_matrix_entry, sum_matrix_entry]
    congr 1
    apply List.map_congr_left
    intro m _
    exact mul_comm _ _
  · rw [sum_matrix, sum_matrix_loop_eq]
    simp [SymmetricTensor.zero]

/-- C17. In `compute_bingham_average` the a and the b axis are the dominant eigenvector of their
own tensor multiplied by its own eigenvalue, while the c axis is the dominant eigenvector
of the c-axis tensor multiplied by the dominant eigenvalue of the a-axis tensor. Whenever
the dominant eigenvalues of the a and the c tensor differ (and the c eigenvector is not
zero), the returned c axis differs from the own-eigenvalue scaling. -/
theorem C17_c_axis_uses_a_eigenvalue
    (eigenvectors : SymmetricTensor K → Fin 3 → K × Tensor1 K) (matrices : List (Tensor2 K)) :
    (∀ j, compute_bingham_average eigenvectors matrices 0 j
      = (eigenvectors (sum_matrix 0 matrices) 0).2 j
        * (eigenvectors (sum_matrix 0 matrices) 0).1) ∧
    (∀ j, compute_bingham_average eigenvectors matrices 1 j
      = (eigenvectors (sum_matrix 1 matrices) 0).2 j
        * (eigenvectors (sum_matrix 1 matrices) 0).1) ∧
    (∀ j, compute_bingham_average eigenvectors matrices 2 j
      = (eigenvectors (sum_matrix 2 matrices) 0).2 j
        * (eigenvectors (sum_matrix 0 matrices) 0).1) ∧
    ((eigenvectors (sum_matrix 0 matrices) 0).1 ≠ (eigenvectors (sum_matrix 2 matrices) 0).1 →
      (eigenvectors (sum_matrix 2 matrices) 0).2 ≠ 0 →
      compute_bingham_average eigenvectors matrices 2
        ≠ fun j => (eigenvectors (sum_matrix 2 matrices) 0).2 j
          * (eigenvectors (sum_matrix 2 matrices) 0).1) := by
  refine ⟨fun j => (compute_bingham_average_rows eigenvectors matrices j).1,
    fun j => (compute_bingham_average_rows eigenvectors matrices j).2.1,
    fun j => (compute_bingham_average_rows eigenvectors matrices j).2.2, ?_⟩
  intro hne hv heq
  apply hv
  funext j
  have h1 := congrFun heq j
  rw [(compute_bingham_average_rows eigenvectors matrices j).2.2] at h1
  have h2 : (eigenvectors (sum_matrix 2 matrices) 0).2 j
      * ((eigenvectors (sum_matrix 0 matrices) 0).1
        - (eigenvectors (sum_matrix 2 matrices) 0).1) = 0 := by
    linear_combination h1
  rcases mul_eq_zero.1 h2 with h | h
  · exact h
  · exact absurd (sub_eq_zero.1 h) hne

/-- C17 (witness). The identity and the quarter turn about the first axis: the dominant
eigenvalue is 2 for the a tensor and 1 for the c tensor. -/
theorem C17_c_axis_uses_a_eigenvalue_witness :
    compute_bingham_average diagonal_solver [identity_matrix, quarter_turn_matrix] 2
      ≠ fun j => (diagonal_solver (sum_matrix 2 [identity_matrix, quarter_turn_matrix]) 0).2 j
        * (diagonal_solver (sum_matrix 2 [identity_matrix, quarter_turn_matrix]) 0).1 :=
  (C17_c_axis_uses_a_eigenvalue diagonal_solver [identity_matrix, quarter_turn_matrix]).2.2.2
    (by
      rw [sum_matrix_quarter_turn.1, sum_matrix_quarter_turn.2]
      norm_num [diagonal_solver])
    (by
      rw [sum_matrix_quarter_turn.2]
      intro h
      have h1 := congrFun h 1
      norm_num [diagonal_solver] at h1)

/-- C19. `initialize_one_particle_property` seeds the generator with the sum of the user seed
and the MPI rank, taken modulo `2^32`, before the first draw: its result is the result of
the mineral loop started from the seeded state, it is the same for any two generator
states on entry, and it is the same when the seed and the rank are replaced by their sum
modulo `2^32` and 0. -/
theorem C19_initialize_seeds_generator (P : Plugin K σ) (seed : Nat → σ)
    (random_number_seed my_rank : Nat) (data : List K) (gen gen2 : σ) :
    initialize_one_particle_property P seed random_number_seed my_rank data gen
      = initialize_loop P P.n_minerals 0 data (seed ((random_number_seed + my_rank) % 2 ^ 32)) ∧
    initialize_one_particle_property P seed random_number_seed my_rank data gen
      = initialize_one_particle_property P seed random_number_seed my_rank data gen2 ∧
    initialize_one_particle_property P seed random_number_seed my_rank data gen
      = initialize_one_particle_property P seed ((random_number_seed + my_rank) % 2 ^ 32) 0
          data gen2 := by
  refine ⟨rfl, rfl, ?_⟩
  simp only [initialize_one_particle_property, Nat.add_zero, Nat.mod_mod]

/-- The draw 0 with all-zero weights: for `n_grains ≥ 1` grains whose weights are all zero
the cumulative weights are all 0, no cumulative weight is below the draw 0, `counter` stays
0, and when every draw is 0 `random_draw_volume_weighting` returns `M` copies of the first
entry of the sorted population, which is the matrix of the last input grain. -/
theorem zero_weights_zero_draws (next : σ → K × σ) (n_grains : Nat) (fv : List K)
    (matrices : List T) (M : Nat) (gen : σ) (m_last : T)
    (hpos : 1 ≤ n_grains) (hlenf : fv.length = n_grains)
    (hlenm : matrices.length = n_grains) (hzero : ∀ w ∈ fv, w = 0)
    (hlast : matrices[n_grains - 1]? = some m_last)
    (hdraw : ∀ u ∈ (draw_idxgrain next M gen).1, u ≤ 0) :
    ∃ (s : SortState K T) (cw : List K),
      sort_loop matrices fv.length ⟨fv, fv, matrices⟩ = some s ∧
      cum_weight n_grains s.fv_sorted = some cw ∧ (∀ c ∈ cw, c = 0) ∧
      s.matrices_sorted[0]? = some m_last ∧
      random_draw_volume_weighting next n_grains fv matrices M gen
        = some (List.replicate M m_last, (draw_idxgrain next M gen).2) := by
  have hnn : ∀ w ∈ fv, 0 ≤ w := fun w hw => le_of_eq (hzero w hw).symm
  have hsum : fv.sum = 0 := List.sum_eq_zero hzero
  have hgz : ∀ j, fv.getD j 0 = 0 := by
    intro j
    rw [List.getD_eq_getElem?_getD]
    cases hj : fv[j]? with
    | none => rfl
    | some x => rw [hzero x (List.getElem?_mem hj)]; rfl
  obtain ⟨s, p, out, h1, h2, h3, h4, h5, h6, h7, h8⟩ :=
    random_draw_sorted next n_grains fv matrices M gen hpos hlenf hlenm hnn
      (fun u hu => by rw [hsum]; exact hdraw u hu)
  have hperm : s.fv_sorted.Perm fv := by rw [h3]; exact sorted_perm fv p h2
  have hwz : ∀ w ∈ s.fv_sorted, w = 0 := fun w hw => hzero w (hperm.mem_iff.1 hw)
  have hcwz : ∀ c ∈ partial_sum s.fv_sorted, c = 0 := by
    intro c hc
    obtain ⟨i, hi⟩ := List.mem_iff_getElem?.1 hc
    have hil : i < s.fv_sorted.length := by
      rcases List.getElem?_eq_some_iff.1 hi with ⟨h, _⟩
      rwa [partial_sum_length] at h
    rw [partial_sum_getElem? _ i hil] at hi
    cases hi
    exact List.sum_eq_zero (fun x hx => hwz x (List.mem_of_mem_take hx))
  have hlenp : p.length = fv.length := by
    have := h2.length_eq
    simpa using this
  -- the last input grain is at the first sorted position
  have hp0 : p[0]? = some (n_grains - 1) := by
    have hl0 : 0 < p.length := by omega
    obtain ⟨i, hi⟩ := List.mem_iff_getElem?.1
      (h2.mem_iff.2 (List.mem_range.2 (show n_grains - 1 < fv.length by omega)))
    obtain ⟨hil, hiv⟩ := List.getElem?_eq_some_iff.1 hi
    rcases Nat.eq_zero_or_pos i with h0 | h0
    · subst h0; exact hi
    · exfalso
      have hb := List.pairwise_iff_getElem.1 h5 0 i hl0 hil h0
      have hx : p[0] < fv.length :=
        List.mem_range.1 (h2.mem_iff.1 (List.getElem_mem hl0))
      rcases hb with h | ⟨_, h⟩
      · rw [hgz, hgz] at h; exact lt_irrefl _ h
      · rw [hiv] at h; omega
  have hms0 : s.matrices_sorted[0]? = some m_last := by
    have h9 := congrArg (fun l => l[0]?) h4
    simp only [List.getElem?_map] at h9
    rw [hp0] at h9
    simp only [Option.map_some'] at h9
    rw [hlast] at h9
    cases hms : s.matrices_sorted[0]? with
    | none => rw [hms] at h9; cases h9
    | some m1 =>
      rw [hms] at h9
      simp only [Option.map_some', Option.some.injEq] at h9
      rw [h9]
  refine ⟨s, partial_sum s.fv_sorted, h1, h6, hcwz, hms0, ?_⟩
  have houtlen : out.length = M :=
    (random_draw_some next n_grains fv matrices M gen out _ h7).1
  have hout : out = List.replicate M m_last := by
    apply List.ext_getElem?
    intro i
    rw [List.getElem?_replicate]
    rcases Nat.lt_or_ge i M with hi | hi
    · rw [if_pos hi]
      have hil : i < (draw_idxgrain next M gen).1.length := by
        rw [draw_idxgrain_length]; exact hi
      have hu := List.getElem?_eq_getElem hil
      rw [h8 i _ hu]
      have hc0 : List.countP (fun x => decide (x < (draw_idxgrain next M gen).1[i]))
          (partial_sum s.fv_sorted) = 0 := by
        rw [List.countP_eq_zero]
        intro c hc
        rw [hcwz c hc]
        simp only [decide_eq_true_eq, not_lt]
        exact hdraw _ (List.getElem_mem hil)
      rw [hc0]
      exact hms0
    · rw [if_neg (by omega)]
      exact List.getElem?_eq_none (by omega)
  rw [h7, hout]

/-- C18 (failing inputs). For grains whose weights are all zero, with as many weights and
matrices as `n_grains`, the cumulative weights are all 0; a draw `u > 0` is above every one
of them, the inner loop ends with `counter = n_grains`, and `matrices_sorted[n_grains]` is
read outside the vector: the draw does not fall through to the last sorted entry, and
`random_draw_volume_weighting` has no defined result. -/
theorem C18_zero_weights_no_fallback (next : σ → K × σ) (n_grains : Nat) (fv : List K)
    (matrices : List T) (M : Nat) (gen : σ) (hlenf : fv.length = n_grains)
    (hlenm : matrices.length = n_grains) (hzero : ∀ w ∈ fv, w = 0) (u : K)
    (hu : u ∈ (draw_idxgrain next M gen).1) (hpos : 0 < u) :
    ∃ (s : SortState K T) (cw : List K),
      sort_loop matrices fv.length ⟨fv, fv, matrices⟩ = some s ∧
      cum_weight n_grains s.fv_sorted = some cw ∧ (∀ c ∈ cw, c = 0) ∧
      counter_loop cw u n_grains 0 0 = some n_grains ∧
      s.matrices_sorted[n_grains]? = none ∧
      random_draw_volume_weighting next n_grains fv matrices M gen = none := by
  have hnn : ∀ w ∈ fv, 0 ≤ w := fun w hw => le_of_eq (hzero w hw).symm
  have hsum : fv.sum = 0 := List.sum_eq_zero hzero
  obtain ⟨s, h1, h2, hperm, h3, h4, h5⟩ :=
    draw_above_total next n_grains fv matrices M gen hlenf hlenm hnn u hu
      (by rw [hsum]; exact hpos)
  have hwz : ∀ w ∈ s.fv_sorted, w = 0 := fun w hw => hzero w (hperm.mem_iff.1 hw)
  refine ⟨s, partial_sum s.fv_sorted, h1, h2, ?_, h3, h4, h5⟩
  intro c hc
  obtain ⟨i, hi⟩ := List.mem_iff_getElem?.1 hc
  have hil : i < s.fv_sorted.length := by
    rcases List.getElem?_eq_some_iff.1 hi with ⟨h, _⟩
    rwa [partial_sum_length] at h
  rw [partial_sum_getElem? _ i hil] at hi
  cases hi
  exact List.sum_eq_zero (fun x hx => hwz x (List.mem_of_mem_take hx))

/-- C18 (witness). Two grains of weight 0 and the draw 1/2. -/
theorem C18_zero_weights_no_fallback_witness :
    random_draw_volume_weighting tape_next 2 [0, 0] [zero_matrix, identity_matrix] 1 [1/2]
      = none := by
  obtain ⟨_, _, _, _, _, _, _, h⟩ :=
    C18_zero_weights_no_fallback tape_next 2 [0, 0] [zero_matrix, identity_matrix] 1 [1/2]
      rfl rfl (by norm_num) (1/2) (by norm_num [draw_idxgrain, tape_next]) (by norm_num)
  exact h

/-- C20. For non-negative weights and equally many matrices the sorting loop completes and
its result is a rearrangement of the input that keeps each weight with its matrix: there
is a permutation `p` of the grain indices `0..N-1` such that `fv_sorted[i] = fv[p[i]]` and
`matrices_sorted[i] = matrices[p[i]]` for every position `i`. -/
theorem C20_sort_is_permutation (fv : List K) (matrices : List T) (hnn : ∀ w ∈ fv, 0 ≤ w)
    (hlen : matrices.length = fv.length) :
    ∃ (s : SortState K T) (p : List Nat),
      sort_loop matrices fv.length ⟨fv, fv, matrices⟩ = some s ∧
      p.Perm (List.range fv.length) ∧ p.Nodup ∧
      s.fv_sorted.length = fv.length ∧ s.matrices_sorted.length = fv.length ∧
      ∀ i, i < fv.length → ∃ x, p[i]? = some x ∧ x < fv.length ∧
        s.fv_sorted[i]? = fv[x]? ∧ s.matrices_sorted[i]? = matrices[x]? := by
  obtain ⟨s, p, h1, h2, h3, h4, _⟩ := sort_loop_spec fv matrices hnn hlen
  have hlenp : p.length = fv.length := by
    have := h2.length_eq
    simpa using this
  have hl1 : s.fv_sorted.length = fv.length := by rw [h3, List.length_map, hlenp]
  have hl2 : s.matrices_sorted.length = fv.length := by
    have h6 := congrArg List.length h4
    simp only [List.length_map] at h6
    omega
  refine ⟨s, p, h1, h2, h2.nodup_iff.2 (List.nodup_range _), hl1, hl2, ?_⟩
  intro i hi
  have hip : i < p.length := by omega
  have hx : p[i] < fv.length := List.mem_range.1 (h2.mem_iff.1 (List.getElem_mem hip))
  refine ⟨p[i], List.getElem?_eq_getElem hip, hx, ?_, ?_⟩
  · rw [h3, List.getElem?_map, List.getElem?_eq_getElem hip, getElem?_eq_some_getD fv _ hx]
    rfl
  · have h9 := congrArg (fun l => l[i]?) h4
    simp only [List.getElem?_map] at h9
    rw [List.getElem?_eq_getElem hip] at h9
    simp only [Option.map_some'] at h9
    cases hms : s.matrices_sorted[i]? with
    | none => rw [hms] at h9; cases h9
    | some m1 =>
      rw [hms] at h9
      simp only [Option.map_some', Option.some.injEq] at h9
      exact h9

/-- C20 (witness). The weights 0.4, 0.3, 0.2, 0.1 with the grain numbers as matrices. -/
theorem C20_sort_is_permutation_witness :
    ∃ (s : SortState ℚ Nat) (p : List Nat),
      sort_loop [0, 1, 2, 3] ([2/5, 3/10, 1/5, 1/10] : List ℚ).length
        ⟨[2/5, 3/10, 1/5, 1/10], [2/5, 3/10, 1/5, 1/10], [0, 1, 2, 3]⟩ = some s ∧
      p.Perm (List.range ([2/5, 3/10, 1/5, 1/10] : List ℚ).length) := by
  obtain ⟨s, p, h1, h2, _⟩ :=
    C20_sort_is_permutation ([2/5, 3/10, 1/5, 1/10] : List ℚ) ([0, 1, 2, 3] : List Nat)
      (by norm_num) rfl
  exact ⟨s, p, h1, h2⟩

/-- C16. For every population and axis `r`, with a solver that returns an orthonormal
eigen-decomposition of the accumulated tensor in descending order of the eigenvalues: the
row `r` of the result of `compute_bingham_average` is a multiple of the eigenvector of entry 0
of the solver's result, this is a unit eigenvector of the eigenvalue of entry 0, and that
eigenvalue has the largest absolute value among all eigenvalues of the tensor. -/
theorem C16_dominant_has_largest_magnitude
    (eigenvectors : SymmetricTensor K → Fin 3 → K × Tensor1 K) (matrices : List (Tensor2 K))
    (r : Fin 3) (h : EigenSolverAt eigenvectors (sum_matrix r matrices)) :
    (∀ j, compute_bingham_average eigenvectors matrices r j
      = (eigenvectors (sum_matrix r matrices) 0).2 j
        * (eigenvectors (sum_matrix (if r = 2 then 0 else r) matrices) 0).1) ∧
    (∀ i, (sum_matrix r matrices).mulVec (eigenvectors (sum_matrix r matrices) 0).2 i
      = (eigenvectors (sum_matrix r matrices) 0).1
        * (eigenvectors (sum_matrix r matrices) 0).2 i) ∧
    dot (eigenvectors (sum_matrix r matrices) 0).2 (eigenvectors (sum_matrix r matrices) 0).2
      = 1 ∧
    (∀ (mu : K) (x : Tensor1 K), x ≠ 0 →
      (∀ i, (sum_matrix r matrices).mulVec x i = mu * x i) →
      |mu| ≤ |(eigenvectors (sum_matrix r matrices) 0).1|) := by
  refine ⟨?_, h.eigen 0, h.unit 0, ?_⟩
  · intro j
    have h1 := compute_bingham_average_rows eigenvectors matrices j
    fin_cases r
    · exact h1.1
    · exact h1.2.1
    · exact h1.2.2
  · intro mu x hx hmu
    have h0 : 0 ≤ mu := eigenvalue_nonneg r matrices mu x hx hmu
    obtain ⟨k, hk⟩ := eigenvalue_reported eigenvectors _ h mu x hx hmu
    have hle : mu ≤ (eigenvectors (sum_matrix r matrices) 0).1 := by
      rw [hk]
      have hd := h.descending
      fin_cases k
      · exact le_refl _
      · exact hd.1
      · exact le_trans hd.2 hd.1
    rw [abs_of_nonneg h0, abs_of_nonneg (le_trans h0 hle)]
    exact hle

/-- C16 (witness). The c axis of the population of the identity and the quarter turn, with
the solver that is exact on diagonal tensors. -/
theorem C16_dominant_has_largest_magnitude_witness :
    dot (diagonal_solver (sum_matrix 2 [identity_matrix, quarter_turn_matrix]) 0).2
      (diagonal_solver (sum_matrix 2 [identity_matrix, quarter_turn_matrix]) 0).2 = 1 :=
  (C16_dominant_has_largest_magnitude diagonal_solver [identity_matrix, quarter_turn_matrix] 2
    (by rw [sum_matrix_quarter_turn.2]; exact diagonal_solver_spec _ rfl rfl rfl)).2.2.1

/-- C14. `get_property_information` returns three entries per mineral, named as the a, b and c
axis of that mineral in this order and each of width 3, so the declared number of
components is `9 * n_minerals`. When `initialize_one_particle_property` returns it has appended
exactly that many entries behind the existing ones, which are unchanged, the entry at
offset `9*m + 3*i + j` being component `j` of axis `i` of the average computed for mineral
`m`; it returns whenever every resampling returns. -/
theorem C14_property_information (P : Plugin K σ) (seed : Nat → σ)
    (random_number_seed my_rank : Nat) (data : List K) (gen : σ) :
    (get_property_information P.n_minerals).length = 3 * P.n_minerals ∧
    (∀ m, m < P.n_minerals →
      (get_property_information P.n_minerals)[3 * m]?
        = some ("cpo mineral " ++ toString m ++ " bingham average a axis", 3) ∧
      (get_property_information P.n_minerals)[3 * m + 1]?
        = some ("cpo mineral " ++ toString m ++ " bingham average b axis", 3) ∧
      (get_property_information P.n_minerals)[3 * m + 2]?
        = some ("cpo mineral " ++ toString m ++ " bingham average c axis", 3)) ∧
    ((get_property_information P.n_minerals).map Prod.snd).sum = 9 * P.n_minerals ∧
    (∀ (data2 : List K) (gen2 : σ),
      initialize_one_particle_property P seed random_number_seed my_rank data gen
        = some (data2, gen2) →
      data2.length = data.length + 9 * P.n_minerals ∧
      data2.take data.length = data ∧
      ∀ m, m < P.n_minerals →
        ∃ (data_m : List K) (gen_m : σ) (w : List (Tensor2 K)) (gen_m1 : σ),
          initialize_loop P m 0 data (seed ((random_number_seed + my_rank) % 2 ^ 32))
            = some (data_m, gen_m) ∧
          random_draw_volume_weighting P.next P.n_grains (volume_fractions_grains P data_m m)
            (rotation_matrices_grains P data_m m) P.n_samples gen_m = some (w, gen_m1) ∧
          ∀ i j : Fin 3, data2[data.length + 9 * m + 3 * i.val + j.val]?
            = some (compute_bingham_average P.eigenvectors w i j)) ∧
    ((∀ (d : List K) (g : σ) (m : Nat),
        (random_draw_volume_weighting P.next P.n_grains (volume_fractions_grains P d m)
          (rotation_matrices_grains P d m) P.n_samples g).isSome) →
      (initialize_one_particle_property P seed random_number_seed my_rank data gen).isSome) := by
  obtain ⟨h1, _, h3, h4⟩ := property_information_loop_spec P.n_minerals 0 []
  have hw : ∀ e ∈ get_property_information P.n_minerals, e.2 = 3 :=
    h4 (fun e he => by cases he)
  refine ⟨by simpa [get_property_information] using h1, ?_, ?_, ?_, ?_⟩
  · intro m hm
    have ha := h3 m 0 (Nat.zero_le m) (by omega) (by decide)
    have hb := h3 m 1 (Nat.zero_le m) (by omega) (by decide)
    have hc := h3 m 2 (Nat.zero_le m) (by omega) (by decide)
    simp only [List.length_nil, Nat.zero_add, Nat.sub_zero, Nat.add_zero] at ha hb hc
    exact ⟨ha, hb, hc⟩
  · have hsum : ∀ l : List (String × Nat), (∀ e ∈ l, e.2 = 3) →
        (l.map Prod.snd).sum = 3 * l.length := by
      intro l
      induction l with
      | nil => intro _; rfl
      | cons e l ih =>
        intro hl
        rw [List.map_cons, List.sum_cons, hl e (List.mem_cons_self e l),
          ih (fun x hx => hl x (List.mem_cons_of_mem e hx)), List.length_cons]
        omega
    rw [hsum _ hw]
    have : (get_property_information P.n_minerals).length = 3 * P.n_minerals := by
      simpa [get_property_information] using h1
    omega
  · intro data2 gen2 h
    obtain ⟨h5, h6⟩ := initialize_loop_prefix P P.n_minerals 0 data data2 _ gen2 h
    refine ⟨h5, ?_, ?_⟩
    · apply List.ext_getElem?
      intro idx
      rw [List.getElem?_take]
      split
      · rename_i hidx
        exact h6 idx hidx
      · rename_i hidx
        exact (List.getElem?_eq_none (by omega)).symm
    · intro m hm
      obtain ⟨data_m, gen_m, w, gen_m1, h7, h8, h9⟩ :=
        initialize_loop_writes P P.n_minerals 0 data data2 _ gen2 h m (Nat.zero_le m) (by omega)
      exact ⟨data_m, gen_m, w, gen_m1, h7, h8, h9⟩
  · intro hdraw
    exact initialize_loop_total P hdraw P.n_minerals 0 data _

/-- C14 (witness). Two minerals with one identity grain each, seed 1 and rank 0, and the
data vector holding the single entry 5: eighteen entries are appended. -/
theorem C14_property_information_witness :
    ([5, 1, 0, 0, 0, 1, 0, 0, 0, 1, 1, 0, 0, 0, 1, 0, 0, 0, 1] : List ℚ).length
      = ([5] : List ℚ).length + 9 * example_plugin.n_minerals :=
  ((C14_property_information example_plugin tape_seed 1 0 [5] []).2.2.2.1
    [5, 1, 0, 0, 0, 1, 0, 0, 0, 1, 1, 0, 0, 0, 1, 0, 0, 0, 1] []
    (by
      norm_num [initialize_one_particle_property, initialize_loop, append_loop, tape_seed,
        example_plugin, volume_fractions_grains, rotation_matrices_grains,
        random_draw_volume_weighting, sort_loop, max_element, max_element_loop, cum_weight,
        partial_sum, partial_sum_from, draw_idxgrain, tape_next, select_loop, select_matrix,
        counter_loop, compute_bingham_average, sum_matrix, sum_matrix_loop, add_grain,
        SymmetricTensor.zero, identity_matrix, diagonal_solver, loop_order,
        List.range, List.range.loop, Matrix.vecHead, Matrix.vecTail])).1

/-- The tensor accumulated with exact sums and products is positive semidefinite: for every
population, row `r` and vector `x`, the quadratic form `x . (S x)` is the sum over the
grains of the squared scalar product of row `r` with `x`, hence non-negative; every
eigenvalue of the tensor is non-negative, and an eigenvalue that is the largest one also
has the largest absolute value. -/
theorem sum_matrix_positive_semidefinite (r : Fin 3) (matrices : List (Tensor2 K)) :
    (∀ x : Tensor1 K, dot x ((sum_matrix r matrices).mulVec x)
      = (matrices.map (fun m => dot (m r) x ^ 2)).sum) ∧
    (∀ x : Tensor1 K, 0 ≤ dot x ((sum_matrix r matrices).mulVec x)) ∧
    (∀ (mu : K) (x : Tensor1 K), x ≠ 0 →
      (∀ i, (sum_matrix r matrices).mulVec x i = mu * x i) → 0 ≤ mu) ∧
    (∀ (nu : K) (y : Tensor1 K), y ≠ 0 →
      (∀ i, (sum_matrix r matrices).mulVec y i = nu * y i) →
      (∀ (mu : K) (x : Tensor1 K), x ≠ 0 →
        (∀ i, (sum_matrix r matrices).mulVec x i = mu * x i) → mu ≤ nu) →
      ∀ (mu : K) (x : Tensor1 K), x ≠ 0 →
        (∀ i, (sum_matrix r matrices).mulVec x i = mu * x i) → |mu| ≤ |nu|) := by
  refine ⟨?_, fun x => quadratic_form_nonneg r x matrices,
    fun mu x hx hmu => eigenvalue_nonneg r matrices mu x hx hmu, ?_⟩
  · intro x
    rw [sum_matrix, quadratic_form_loop]
    have h0 : dot x ((SymmetricTensor.zero : SymmetricTensor K).mulVec x) = 0 := by
      simp only [dot, mulVec_zero, mulVec_one, mulVec_two, SymmetricTensor.zero]
      ring
    rw [h0, zero_add]
  · intro nu y hy hnu hmax mu x hx hmu
    have h1 : 0 ≤ mu := eigenvalue_nonneg r matrices mu x hx hmu
    have h2 : mu ≤ nu := hmax mu x hx hmu
    rw [abs_of_nonneg h1, abs_of_nonneg (le_trans h1 h2)]
    exact h2

/-- C21 (counterexample). One grain whose matrix is the rotation with first row
(0.28, 0.96, 0) in `double`. With every product and sum rounded to `double` the accumulator
of row 0 has `c00 * c11 < c01 * c01`, and at the vector `x = (-c01, c00, 0)` the quadratic
form `x . (S x)` is negative, whereas the squared scalar product of the row with `x` is not:
the accumulated tensor is not positive semidefinite. -/
theorem C21_counterexample :
    (sum_matrix_rounded round_double 0 [rounded_rotation_matrix]).c00
        * (sum_matrix_rounded round_double 0 [rounded_rotation_matrix]).c11
      < (sum_matrix_rounded round_double 0 [rounded_rotation_matrix]).c01
        * (sum_matrix_rounded round_double 0 [rounded_rotation_matrix]).c01 ∧
    dot ![-(sum_matrix_rounded round_double 0 [rounded_rotation_matrix]).c01,
          (sum_matrix_rounded round_double 0 [rounded_rotation_matrix]).c00, 0]
        ((sum_matrix_rounded round_double 0 [rounded_rotation_matrix]).mulVec
          ![-(sum_matrix_rounded round_double 0 [rounded_rotation_matrix]).c01,
            (sum_matrix_rounded round_double 0 [rounded_rotation_matrix]).c00, 0]) < 0 ∧
    0 ≤ ([rounded_rotation_matrix].map (fun m =>
      dot (m 0) ![-(sum_matrix_rounded round_double 0 [rounded_rotation_matrix]).c01,
          (sum_matrix_rounded round_double 0 [rounded_rotation_matrix]).c00, 0] ^ 2)).sum := by
  decide!

/-- C21 (amended). For the tensor `S` that `compute_bingham_average` accumulates for row `r`
with the rounding `fl` of its arithmetic. If the rounding keeps non-negative numbers
non-negative, as rounding to `double` does, the diagonal components of `S` are non-negative
and so is the eigenvalue that an orthonormal descending eigen-decomposition of `S` reports
first, the largest one. If the accumulation is free of rounding error, that is, `S` is the
tensor of the exact sums and products, then `S` is positive semidefinite: for every vector
`x` the quadratic form `x . (S x)` is the sum over the grains of the squared scalar product
of row `r` with `x`, hence non-negative; every eigenvalue of `S` is non-negative, and an
eigenvalue that is the largest one also has the largest absolute value. -/
theorem C21_accumulated_tensor (fl : K → K) (r : Fin 3) (matrices : List (Tensor2 K)) :
    ((∀ t : K, 0 ≤ t → 0 ≤ fl t) →
      0 ≤ (sum_matrix_rounded fl r matrices).c00 ∧
      0 ≤ (sum_matrix_rounded fl r matrices).c11 ∧
      0 ≤ (sum_matrix_rounded fl r matrices).c22 ∧
      ∀ eigenvectors : SymmetricTensor K → Fin 3 → K × Tensor1 K,
        EigenSolverAt eigenvectors (sum_matrix_rounded fl r matrices) →
        0 ≤ (eigenvectors (sum_matrix_rounded fl r matrices) 0).1) ∧
    (sum_matrix_rounded fl r matrices = sum_matrix r matrices →
      (∀ x : Tensor1 K, dot x ((sum_matrix_rounded fl r matrices).mulVec x)
        = (matrices.map (fun m => dot (m r) x ^ 2)).sum) ∧
      (∀ x : Tensor1 K, 0 ≤ dot x ((sum_matrix_rounded fl r matrices).mulVec x)) ∧
      (∀ (mu : K) (x : Tensor1 K), x ≠ 0 →
        (∀ i, (sum_matrix_rounded fl r matrices).mulVec x i = mu * x i) → 0 ≤ mu) ∧
      (∀ (nu : K) (y : Tensor1 K), y ≠ 0 →
        (∀ i, (sum_matrix_rounded fl r matrices).mulVec y i = nu * y i) →
        (∀ (mu : K) (x : Tensor1 K), x ≠ 0 →
          (∀ i, (sum_matrix_rounded fl r matrices).mulVec x i = mu * x i) → mu ≤ nu) →
        ∀ (mu : K) (x : Tensor1 K), x ≠ 0 →
          (∀ i, (sum_matrix_rounded fl r matrices).mulVec x i = mu * x i) → |mu| ≤ |nu|)) := by
  constructor
  · intro hfl
    obtain ⟨h0, h1, h2⟩ := sum_matrix_loop_rounded_diagonal fl hfl r matrices
      SymmetricTensor.zero (le_refl 0) (le_refl 0) (le_refl 0)
    refine ⟨h0, h1, h2, ?_⟩
    intro eigenvectors hs
    exact le_trans h0 (diagonal_le_dominant eigenvectors _ hs).1
  · intro hexact
    rw [hexact]
    exact sum_matrix_positive_semidefinite r matrices

/-- C21 (witness). In `double` arithmetic the accumulation of the c-axis tensor of the
identity and the quarter turn is free of rounding error: the dominant eigenvalue that the
solver exact on diagonal tensors reports for it is non-negative, and the quadratic form at
the vector (1, 2, 3) is the sum of the squared scalar products, 13. -/
theorem C21_accumulated_tensor_witness :
    sum_matrix_rounded round_double 2 [identity_matrix, quarter_turn_matrix]
        = sum_matrix 2 [identity_matrix, quarter_turn_matrix] ∧
      0 ≤ (diagonal_solver
        (sum_matrix_rounded round_double 2 [identity_matrix, quarter_turn_matrix]) 0).1 ∧
      dot ![1, 2, 3]
          ((sum_matrix_rounded round_double 2 [identity_matrix, quarter_turn_matrix]).mulVec
            ![1, 2, 3])
        = ([identity_matrix, quarter_turn_matrix].map
            (fun m => dot (m 2) ![1, 2, 3] ^ 2)).sum := by
  have hexact : sum_matrix_rounded round_double 2 [identity_matrix, quarter_turn_matrix]
      = sum_matrix 2 [identity_matrix, quarter_turn_matrix] := by
    rw [SymmetricTensor.mk.injEq]
    decide!
  have hs : EigenSolverAt diagonal_solver
      (sum_matrix_rounded round_double 2 [identity_matrix, quarter_turn_matrix]) := by
    rw [hexact, sum_matrix_quarter_turn.2]
    exact diagonal_solver_spec _ rfl rfl rfl
  exact ⟨hexact,
    ((C21_accumulated_tensor round_double 2 [identity_matrix, quarter_turn_matrix]).1
      round_double_nonneg).2.2.2 diagonal_solver hs,
    ((C21_accumulated_tensor round_double 2 [identity_matrix, quarter_turn_matrix]).2
      hexact).1 ![1, 2, 3]⟩

/-- Index safety with exact sums: when the weights and the matrices both have `n_grains ≥ 1`
entries, the weights are non-negative and their total is at least 1, then for draws in
`[0,1)` every access of `random_draw_volume_weighting` with exact cumulative weights is in
range: `cum_weight` has `n_grains` entries, the `counter` computed for each draw is at most
`n_grains - 1`, so `matrices_sorted[counter]` exists, and the function returns its
`n_output_grains` matrices. -/
theorem index_safety_exact_sums (next : σ → K × σ) (n_grains : Nat) (fv : List K)
    (matrices : List T) (n_output_grains : Nat) (gen : σ)
    (hpos : 1 ≤ n_grains) (hlenf : fv.length = n_grains)
    (hlenm : matrices.length = n_grains) (hnn : ∀ w ∈ fv, 0 ≤ w) (htotal : 1 ≤ fv.sum)
    (hdraw : ∀ u ∈ (draw_idxgrain next n_output_grains gen).1, 0 ≤ u ∧ u < 1) :
    ∃ (s : SortState K T) (cw : List K) (out : List T),
      sort_loop matrices fv.length ⟨fv, fv, matrices⟩ = some s ∧
      cum_weight n_grains s.fv_sorted = some cw ∧
      (∀ grain_j, grain_j < n_grains → ∃ c, cw[grain_j]? = some c) ∧
      (∀ u ∈ (draw_idxgrain next n_output_grains gen).1,
        ∃ (counter : Nat) (m : T), counter_loop cw u n_grains 0 0 = some counter ∧
          counter ≤ n_grains - 1 ∧ s.matrices_sorted[counter]? = some m) ∧
      random_draw_volume_weighting next n_grains fv matrices n_output_grains gen
        = some (out, (draw_idxgrain next n_output_grains gen).2) ∧
      out.length = n_output_grains := by
  have hle : ∀ u ∈ (draw_idxgrain next n_output_grains gen).1, u ≤ fv.sum :=
    fun u hu => le_trans (le_of_lt (hdraw u hu).2) htotal
  obtain ⟨s, p, out, h1, h2, h3, h4, _, h6, h7, _⟩ :=
    random_draw_sorted next n_grains fv matrices n_output_grains gen hpos hlenf hlenm hnn hle
  have hperm : s.fv_sorted.Perm fv := by rw [h3]; exact sorted_perm fv p h2
  have hnnws : ∀ w ∈ s.fv_sorted, 0 ≤ w := fun w hw => hnn w (hperm.mem_iff.1 hw)
  have hlenws : s.fv_sorted.length = n_grains := by rw [hperm.length_eq, hlenf]
  have hms : s.matrices_sorted.length = n_grains := by
    have h9 := congrArg List.length h4
    have h10 := h2.length_eq
    simp only [List.length_map, List.length_range] at h9 h10
    omega
  refine ⟨s, partial_sum s.fv_sorted, out, h1, h6, ?_, ?_, h7,
    (random_draw_some next n_grains fv matrices n_output_grains gen out _ h7).1⟩
  · intro grain_j hj
    exact ⟨_, List.getElem?_eq_getElem (by rw [partial_sum_length, hlenws]; exact hj)⟩
  · intro u hu
    obtain ⟨r, _, h11, h12, _⟩ :=
      counter_loop_sorted s.fv_sorted hnnws (by omega) u
        (by rw [hperm.sum_eq]; exact hle u hu)
    rw [hlenws] at h11 h12
    exact ⟨r, s.matrices_sorted[r], h11, by omega, List.getElem?_eq_getElem (by omega)⟩

/-- C22 (failing input). Thirteen grains of weight `double(1/13)` and the draw `1 - 2^-53`,
the matrices named by the grain numbers. The weights are non-negative, their total is at
least 1 and the draw is a `double` in `[0,1)`. The sorting loop leaves the equal weights as
they are, the rounded additions of `std::partial_sum` end at the cumulative weight
`1 - 2^-52`, below the draw: `counter` reaches `13 = n_grains` and `matrices_sorted[13]` is
read outside the vector. -/
theorem C22_rounded_total_below_draw :
    (List.replicate 13 (round_double (1/13))).length = 13 ∧ (List.range 13).length = 13 ∧
    (∀ w ∈ List.replicate 13 (round_double (1/13)), 0 ≤ w) ∧
    1 ≤ (List.replicate 13 (round_double (1/13))).sum ∧
    (0 : ℚ) ≤ 1 - 1 / 2 ^ 53 ∧ (1 : ℚ) - 1 / 2 ^ 53 < 1 ∧
    round_double (1 - 1 / 2 ^ 53) = 1 - 1 / 2 ^ 53 ∧
    (sort_loop (List.range 13) 13
        (⟨List.replicate 13 (round_double (1/13)), List.replicate 13 (round_double (1/13)),
          List.range 13⟩ : SortState ℚ Nat)).map (fun s => (s.fv_sorted, s.matrices_sorted))
      = some (List.replicate 13 (round_double (1/13)),
          [12, 11, 10, 9, 8, 7, 6, 5, 4, 3, 2, 1, 0]) ∧
    cum_weight_rounded round_double 13 (List.replicate 13 (round_double (1/13)))
      = some (partial_sum_rounded round_double (List.replicate 13 (round_double (1/13)))) ∧
    (partial_sum_rounded round_double (List.replicate 13 (round_double (1/13))))[12]?
      = some (1 - 1 / 2 ^ 52) ∧
    counter_loop (partial_sum_rounded round_double (List.replicate 13 (round_double (1/13))))
      (1 - 1 / 2 ^ 53) 13 0 0 = some 13 ∧
    random_draw_volume_weighting_rounded round_double tape_next 13
      (List.replicate 13 (round_double (1/13))) (List.range 13) 1 [1 - 1 / 2 ^ 53] = none := by
  decide!

/-- C23. When `update_one_particle_property` returns, the length of the data is unchanged and
every entry outside `data_position .. data_position + 9*n_minerals - 1` is unchanged.
Accessors that read only entries outside that range therefore return the same volume
fractions and rotation matrices on the data after the call as on the data before it. -/
theorem C23_update_frame (P : Plugin K σ) (data_position : Nat) (data data2 : List K)
    (gen gen2 : σ)
    (h : update_one_particle_property P data_position data gen = some (data2, gen2)) :
    data2.length = data.length ∧
    (∀ idx, idx < data_position ∨ data_position + 9 * P.n_minerals ≤ idx →
      data2[idx]? = data[idx]?) ∧
    ((∀ (d d1 : List K), d.length = d1.length →
        (∀ idx, idx < data_position ∨ data_position + 9 * P.n_minerals ≤ idx →
          d[idx]? = d1[idx]?) →
        ∀ mineral_i grain_i,
          P.get_volume_fractions_grains P.cpo_data_position d mineral_i grain_i
            = P.get_volume_fractions_grains P.cpo_data_position d1 mineral_i grain_i ∧
          P.get_rotation_matrix_grains P.cpo_data_position d mineral_i grain_i
            = P.get_rotation_matrix_grains P.cpo_data_position d1 mineral_i grain_i) →
      ∀ mineral_i,
        volume_fractions_grains P data2 mineral_i = volume_fractions_grains P data mineral_i ∧
        rotation_matrices_grains P data2 mineral_i
          = rotation_matrices_grains P data mineral_i) := by
  obtain ⟨h1, h2⟩ := update_loop_frame P data_position P.n_minerals 0 data data2 gen gen2 h
  have h3 : ∀ idx, idx < data_position ∨ data_position + 9 * P.n_minerals ≤ idx →
      data2[idx]? = data[idx]? := by
    intro idx hidx
    exact h2 idx (by omega)
  refine ⟨h1, h3, ?_⟩
  intro hread mineral_i
  have h4 := hread data2 data h1 h3 mineral_i
  constructor
  · simp only [volume_fractions_grains]
    apply List.map_congr_left
    intro grain_i _
    exact (h4 grain_i).1
  · simp only [rotation_matrices_grains]
    apply List.map_congr_left
    intro grain_i _
    exact (h4 grain_i).2

/-- C23 (witness). Two minerals with one identity grain each, `data_position = 1` and twenty
entries 7: the call returns, and the first and the last entry keep the value 7. -/
theorem C23_update_frame_witness :
    ∃ (data2 : List ℚ) (gen2 : List ℚ),
      update_one_particle_property example_plugin 1
          [7, 7, 7, 7, 7, 7, 7, 7, 7, 7, 7, 7, 7, 7, 7, 7, 7, 7, 7, 7] [1/2, 1/2]
        = some (data2, gen2) ∧
      data2[0]? = some 7 ∧ data2[19]? = some 7 ∧ data2.length = 20 := by
  have heval : update_one_particle_property example_plugin 1
      [7, 7, 7, 7, 7, 7, 7, 7, 7, 7, 7, 7, 7, 7, 7, 7, 7, 7, 7, 7] [1/2, 1/2]
      = some ([7, 1, 0, 0, 0, 1, 0, 0, 0, 1, 1, 0, 0, 0, 1, 0, 0, 0, 1, 7], []) := by
    norm_num [update_one_particle_property, update_loop, example_plugin,
      volume_fractions_grains, rotation_matrices_grains, random_draw_volume_weighting,
      sort_loop, max_element, max_element_loop, cum_weight, partial_sum, partial_sum_from,
      draw_idxgrain, tape_next, select_loop, select_matrix, counter_loop,
      compute_bingham_average, sum_matrix, sum_matrix_loop, add_grain,
      SymmetricTensor.zero, identity_matrix, diagonal_solver, write_loop, loop_order,
      List.range, List.range.loop, Matrix.vecHead, Matrix.vecTail]
  have hframe := C23_update_frame example_plugin 1 _ _ _ _ heval
  refine ⟨_, _, heval, ?_, ?_, ?_⟩
  · rw [hframe.2.1 0 (Or.inl (by decide))]
    rfl
  · rw [hframe.2.1 19 (Or.inr (by decide))]
    rfl
  · rw [hframe.1]
    rfl

end Claims

end CpoBinghamAverage

